import Mathlib

/-!
Verification of core invariants of the pants build-system core
(twitter-commons snapshot): work-unit outcome propagation
(`goal/workunit.py`), build-graph dependency injection and topological
sorting (`graph/build_graph.py`), exclusives propagation and chunking
(`base/target.py`, `goal/group.py`, `tasks/check_exclusives.py`),
the artifact cache (`cache/artifact_cache.py`,
`cache/local_artifact_cache.py`, `cache/artifact.py`), the build-file
parser (`base/build_file_parser.py`) and the worker pool
(`base/worker_pool.py`).

Python state is embedded as explicit state passing; Python exceptions as
`Except`; Python `set`/`OrderedSet` as duplicate-free lists in insertion
order; Python string values as `String`; object identities as `Nat` ids.
-/

namespace Pants

/-! ### Generic `Except` computation rules used throughout -/

theorem errorBind {ε α β : Type} (e : ε) (k : α → Except ε β) :
    (Except.error e >>= k : Except ε β) = Except.error e := rfl

theorem okBind {ε α β : Type} (a : α) (k : α → Except ε β) :
    (Except.ok a >>= k : Except ε β) = k a := rfl

theorem pureExcept {ε α : Type} (a : α) :
    (pure a : Except ε α) = Except.ok a := rfl

/-! ## WorkUnit (`goal/workunit.py`)

A forest of work units.  Units are identified by `Nat` ids; `parent w`
is the parent id, if any.  Since a parent is always constructed before
its children (`__init__` appends `self` to `self.parent.children`),
parent ids are strictly smaller than child ids; `set_outcome` recursion
up the parent chain is modelled with fuel, which theorems instantiate
at any value exceeding the starting id. -/

/-- Outcome constant from `workunit.py`: ABORTED. -/
def WorkUnit.ABORTED : Nat := 0

/-- Outcome constant from `workunit.py`: FAILURE. -/
def WorkUnit.FAILURE : Nat := 1

/-- Outcome constant from `workunit.py`: WARNING. -/
def WorkUnit.WARNING : Nat := 2

/-- Outcome constant from `workunit.py`: SUCCESS. -/
def WorkUnit.SUCCESS : Nat := 3

/-- Outcome constant from `workunit.py`: UNKNOWN, the initial outcome of
every work unit. -/
def WorkUnit.UNKNOWN : Nat := 4

/-- The outcome state of the forest: the current `_outcome` of each unit.
Initially every unit reports `UNKNOWN`. -/
def WorkUnit.initialOutcomes : Nat → Nat := fun _ => WorkUnit.UNKNOWN

/-- `WorkUnit.set_outcome` from `workunit.py`: if the new outcome is
strictly lower than the current one, overwrite it and propagate the new
value to the parent (`self.parent.set_outcome(self._outcome)`).
`fuel` bounds the parent-chain recursion. -/
def WorkUnit.setOutcome (parent : Nat → Option Nat) :
    Nat → (Nat → Nat) → Nat → Nat → (Nat → Nat)
  | 0, outc, _, _ => outc
  | fuel + 1, outc, w, o =>
    if o < outc w then
      let outc' : Nat → Nat := fun x => if x = w then o else outc x
      match parent w with
      | some p => WorkUnit.setOutcome parent fuel outc' p o
      | none => outc'
    else outc

/-- The tree-order invariant of C8: along every parent edge, the
parent's outcome is at most the child's (so a unit's outcome is at most
the minimum over its children). -/
def WorkUnit.OutcomeInv (parent : Nat → Option Nat) (outc : Nat → Nat) : Prop :=
  ∀ w p, parent w = some p → outc p ≤ outc w

theorem WorkUnit.setOutcome_le_old (parent : Nat → Option Nat) :
    ∀ fuel outc w o x, WorkUnit.setOutcome parent fuel outc w o x ≤ outc x := by
  intro fuel
  induction fuel with
  | zero => intro outc w o x; simp [WorkUnit.setOutcome]
  | succ fuel ih =>
    intro outc w o x
    simp only [WorkUnit.setOutcome]
    by_cases h : o < outc w
    · simp only [h, if_pos]
      cases hp : parent w with
      | some p =>
        refine le_trans (ih _ p o x) ?_
        by_cases hx : x = w
        · subst hx; simp [le_of_lt h]
        · simp [hx]
      | none =>
        by_cases hx : x = w
        · subst hx; simp [le_of_lt h]
        · simp [hx]
    · simp [h]

theorem WorkUnit.setOutcome_unchanged_of_ge (parent : Nat → Option Nat)
    (fuel : Nat) (outc : Nat → Nat) (w o : Nat) (h : outc w ≤ o) :
    WorkUnit.setOutcome parent (fuel + 1) outc w o = outc := by
  simp [WorkUnit.setOutcome, Nat.not_lt.mpr h]

theorem WorkUnit.setOutcome_self_le (parent : Nat → Option Nat)
    (hpar : ∀ w p, parent w = some p → p < w) :
    ∀ fuel outc w o, w < fuel →
      WorkUnit.setOutcome parent fuel outc w o w ≤ o := by
  intro fuel
  induction fuel with
  | zero => intro outc w o h; omega
  | succ fuel ih =>
    intro outc w o hw
    simp only [WorkUnit.setOutcome]
    by_cases h : o < outc w
    · simp only [h, if_pos]
      cases hp : parent w with
      | some p =>
        refine le_trans (WorkUnit.setOutcome_le_old parent fuel _ p o w) ?_
        simp
      | none => simp
    · rw [if_neg h]
      exact Nat.not_lt.mp h

theorem WorkUnit.setOutcome_ge_min (parent : Nat → Option Nat) :
    ∀ fuel outc w o x,
      min (outc x) o ≤ WorkUnit.setOutcome parent fuel outc w o x := by
  intro fuel
  induction fuel with
  | zero => intro outc w o x; simp [WorkUnit.setOutcome]
  | succ fuel ih =>
    intro outc w o x
    simp only [WorkUnit.setOutcome]
    by_cases h : o < outc w
    · simp only [h, if_pos]
      cases hp : parent w with
      | some p =>
        refine le_trans ?_ (ih _ p o x)
        by_cases hx : x = w
        · subst hx; simp
        · simp [hx]
      | none =>
        by_cases hx : x = w
        · subst hx; simp
        · simp [hx]
    · simp [h, min_le_left]

theorem WorkUnit.setOutcome_parent_le (parent : Nat → Option Nat)
    (hpar : ∀ w p, parent w = some p → p < w)
    (fuel : Nat) (outc : Nat → Nat) (w o p : Nat) (hw : w < fuel)
    (hlt : o < outc w) (hp : parent w = some p) :
    WorkUnit.setOutcome parent fuel outc w o p ≤ o := by
  cases fuel with
  | zero => omega
  | succ fuel =>
    simp only [WorkUnit.setOutcome, hlt, if_pos, hp]
    have hpw : p < w := hpar w p hp
    exact WorkUnit.setOutcome_self_le parent hpar fuel _ p o (by omega)

/-- Strengthened invariant-preservation statement, generalized for the
upward propagation: edges whose parent is not `w` satisfy the invariant
outright, while edges into `w` satisfy it up to the propagated value
`o`. -/
theorem WorkUnit.setOutcome_inv_aux (parent : Nat → Option Nat)
    (hpar : ∀ w p, parent w = some p → p < w) :
    ∀ fuel outc w o, w < fuel →
      (∀ x q, parent x = some q → q ≠ w → outc q ≤ outc x) →
      (∀ c, parent c = some w → min (outc w) o ≤ outc c) →
      WorkUnit.OutcomeInv parent (WorkUnit.setOutcome parent fuel outc w o) := by
  intro fuel
  induction fuel with
  | zero => intro outc w o h; omega
  | succ fuel ih =>
    intro outc w o hw hB1 hB2
    simp only [WorkUnit.setOutcome]
    by_cases h : o < outc w
    · rw [if_pos h]
      cases hp : parent w with
      | some p =>
        have hpw : p < w := hpar w p hp
        refine ih _ p o (by omega) ?_ ?_
        · -- B1 for p on the updated state
          intro x q hxq hqnp
          have hxw : x ≠ w := by
            intro hx
            rw [hx, hp] at hxq
            exact hqnp (Option.some_injective _ hxq).symm
          by_cases hq : q = w
          · have hc := hB2 x (hq ▸ hxq)
            rw [if_pos hq, if_neg hxw]
            omega
          · rw [if_neg hq, if_neg hxw]
            exact hB1 x q hxq hq
        · -- B2 for p on the updated state
          intro c hcp
          have hpw' : p ≠ w := Nat.ne_of_lt hpw
          by_cases hc : c = w
          · rw [if_pos hc]
            exact le_trans (min_le_right _ _) le_rfl
          · rw [if_neg hc, if_neg hpw']
            exact le_trans (min_le_left _ _) (hB1 c p hcp hpw')
      | none =>
        -- no parent: the update itself must satisfy the invariant
        intro x q hxq
        have hxw : x ≠ w := by
          intro hx; rw [hx] at hxq; rw [hp] at hxq; exact Option.noConfusion hxq
        by_cases hq : q = w
        · have hc := hB2 x (hq ▸ hxq)
          simp only [if_pos hq, if_neg hxw]
          omega
        · simp only [if_neg hq, if_neg hxw]
          exact hB1 x q hxq hq
    · rw [if_neg h]
      intro x q hxq
      by_cases hq : q = w
      · have hc := hB2 x (hq ▸ hxq)
        rw [hq]
        omega
      · exact hB1 x q hxq hq

/-- C8: for a well-founded parent forest and enough fuel, `set_outcome`
(i) never increases any unit's outcome, (ii) is a no-op unless the new
outcome is strictly lower than the current one, (iii) leaves `w` at most
at the explicitly set value and, when it does overwrite, propagates so
that the parent also ends at most at that value, and (iv) preserves the
invariant that every unit's outcome is at most each of its children's. -/
theorem workunit_set_outcome_spec (parent : Nat → Option Nat)
    (hpar : ∀ w p, parent w = some p → p < w)
    (fuel : Nat) (outc : Nat → Nat) (w o : Nat) (hw : w < fuel) :
    (∀ x, WorkUnit.setOutcome parent fuel outc w o x ≤ outc x) ∧
    (outc w ≤ o → WorkUnit.setOutcome parent fuel outc w o = outc) ∧
    (WorkUnit.setOutcome parent fuel outc w o w ≤ o) ∧
    (o < outc w → WorkUnit.setOutcome parent fuel outc w o w = o ∧
      ∀ p, parent w = some p →
        WorkUnit.setOutcome parent fuel outc w o p ≤ o) ∧
    (WorkUnit.OutcomeInv parent outc →
      WorkUnit.OutcomeInv parent (WorkUnit.setOutcome parent fuel outc w o)) := by
  refine ⟨fun x => WorkUnit.setOutcome_le_old parent fuel outc w o x, ?_, ?_, ?_, ?_⟩
  · intro hle
    cases fuel with
    | zero => omega
    | succ fuel => exact WorkUnit.setOutcome_unchanged_of_ge parent fuel outc w o hle
  · exact WorkUnit.setOutcome_self_le parent hpar fuel outc w o hw
  · intro h
    constructor
    · have h1 := WorkUnit.setOutcome_self_le parent hpar fuel outc w o hw
      have h2 := WorkUnit.setOutcome_ge_min parent fuel outc w o w
      omega
    · intro p hp
      exact WorkUnit.setOutcome_parent_le parent hpar fuel outc w o p hw h hp
  · intro hinv
    exact WorkUnit.setOutcome_inv_aux parent hpar fuel outc w o hw
      (fun x q hxq _ => hinv x q hxq)
      (fun c hc => le_trans (min_le_left _ _) (hinv c w hc))

/-- A sample two-unit forest: unit 1 is a child of the root unit 0. -/
def sampleParent : Nat → Option Nat := fun w => if w = 0 then none else some (w - 1)

theorem sampleParent_lt : ∀ w p, sampleParent w = some p → p < w := by
  intro w p h
  by_cases hw : w = 0
  · simp [sampleParent, hw] at h
  · simp [sampleParent, hw] at h
    omega

/-- Witness for C8 at a concrete forest: setting FAILURE on unit 1. -/
theorem workunit_set_outcome_spec_witness :
    (∀ x, WorkUnit.setOutcome sampleParent 2 WorkUnit.initialOutcomes 1
        WorkUnit.FAILURE x ≤ WorkUnit.initialOutcomes x) ∧
    (WorkUnit.initialOutcomes 1 ≤ WorkUnit.FAILURE →
      WorkUnit.setOutcome sampleParent 2 WorkUnit.initialOutcomes 1
        WorkUnit.FAILURE = WorkUnit.initialOutcomes) ∧
    (WorkUnit.setOutcome sampleParent 2 WorkUnit.initialOutcomes 1
        WorkUnit.FAILURE 1 ≤ WorkUnit.FAILURE) ∧
    (WorkUnit.FAILURE < WorkUnit.initialOutcomes 1 →
      WorkUnit.setOutcome sampleParent 2 WorkUnit.initialOutcomes 1
        WorkUnit.FAILURE 1 = WorkUnit.FAILURE ∧
      ∀ p, sampleParent 1 = some p →
        WorkUnit.setOutcome sampleParent 2 WorkUnit.initialOutcomes 1
          WorkUnit.FAILURE p ≤ WorkUnit.FAILURE) ∧
    (WorkUnit.OutcomeInv sampleParent WorkUnit.initialOutcomes →
      WorkUnit.OutcomeInv sampleParent
        (WorkUnit.setOutcome sampleParent 2 WorkUnit.initialOutcomes 1
          WorkUnit.FAILURE)) :=
  workunit_set_outcome_spec sampleParent sampleParent_lt 2
    WorkUnit.initialOutcomes 1 WorkUnit.FAILURE (by decide)

/-! ## BuildGraph (`graph/build_graph.py`)

Addresses are `Nat` ids.  `_target_by_address` is modelled by its key
set (the mapped `Target` payloads play no role in C9);
`_target_dependencies_by_address` and `_target_dependents_by_address`
are modelled as pair lists: `(a, b) ∈ targetDependencies` means
`b ∈ deps_of[a]`, and `(b, a) ∈ targetDependents` means
`a ∈ dependents_of[b]`.  Failed `assert` statements become
`Except.error`. -/

structure BuildGraph where
  targetByAddress : List Nat
  targetDependencies : List (Nat × Nat)
  targetDependents : List (Nat × Nat)
deriving Repr, DecidableEq

/-- `BuildGraph.__init__`. -/
def BuildGraph.empty : BuildGraph := ⟨[], [], []⟩

/-- `BuildGraph.contains_address`. -/
def BuildGraph.containsAddress (g : BuildGraph) (address : Nat) : Bool :=
  address ∈ g.targetByAddress

/-- `BuildGraph.dependencies_of` (asserts that the address is known). -/
def BuildGraph.dependenciesOf (g : BuildGraph) (address : Nat) :
    Except String (List Nat) :=
  if address ∈ g.targetByAddress then
    .ok ((g.targetDependencies.filter (fun pr => pr.1 = address)).map (fun pr => pr.2))
  else .error "Cannot retrieve dependencies: not in the BuildGraph"

/-- `BuildGraph.dependents_of` (asserts that the address is known). -/
def BuildGraph.dependentsOf (g : BuildGraph) (address : Nat) :
    Except String (List Nat) :=
  if address ∈ g.targetByAddress then
    .ok ((g.targetDependents.filter (fun pr => pr.1 = address)).map (fun pr => pr.2))
  else .error "Cannot retrieve dependents: not in the BuildGraph"

/-- `BuildGraph.inject_dependency`: both endpoints must already be in
`target_by_address`; a duplicate edge is logged and skipped; otherwise
both the forward and the reverse index are updated. -/
def BuildGraph.injectDependency (g : BuildGraph) (dependent dependency : Nat) :
    Except String BuildGraph :=
  if dependent ∈ g.targetByAddress then
    if dependency ∈ g.targetByAddress then
      if (dependent, dependency) ∈ g.targetDependencies then
        .ok g
      else
        .ok { g with
          targetDependencies := g.targetDependencies ++ [(dependent, dependency)],
          targetDependents := g.targetDependents ++ [(dependency, dependent)] }
    else .error "Cannot inject dependency: the dependency is not in the BuildGraph"
  else .error "Cannot inject dependency: the dependent is not in the BuildGraph"

/-- `BuildGraph.inject_target`: the address must be unseen; it is mapped
and then `inject_dependency` is called for each dependency. -/
def BuildGraph.injectTarget (g : BuildGraph) (address : Nat)
    (dependencies : List Nat) : Except String BuildGraph :=
  if address ∈ g.targetByAddress then
    .error "A Target already exists in the BuildGraph at this address"
  else
    dependencies.foldlM (fun g' d => g'.injectDependency address d)
      { g with targetByAddress := g.targetByAddress ++ [address] }

/-- The C9 invariant: forward and reverse indices agree, and every edge
endpoint is a known address.  Stated with bounded quantifiers so that it
is decidable on concrete graphs. -/
def BuildGraph.Consistent (g : BuildGraph) : Prop :=
  (∀ pr ∈ g.targetDependencies, (pr.2, pr.1) ∈ g.targetDependents) ∧
  (∀ pr ∈ g.targetDependents, (pr.2, pr.1) ∈ g.targetDependencies) ∧
  (∀ pr ∈ g.targetDependencies,
    pr.1 ∈ g.targetByAddress ∧ pr.2 ∈ g.targetByAddress)

instance (g : BuildGraph) : Decidable g.Consistent := by
  unfold BuildGraph.Consistent; infer_instance

theorem BuildGraph.injectDependency_error_of_missing (g : BuildGraph)
    (a b : Nat) (h : a ∉ g.targetByAddress ∨ b ∉ g.targetByAddress) :
    ∃ e, g.injectDependency a b = .error e := by
  rcases h with h | h
  · exact ⟨"Cannot inject dependency: the dependent is not in the BuildGraph",
      by simp [BuildGraph.injectDependency, h]⟩
  · by_cases ha : a ∈ g.targetByAddress
    · exact ⟨"Cannot inject dependency: the dependency is not in the BuildGraph",
        by simp [BuildGraph.injectDependency, ha, h]⟩
    · exact ⟨"Cannot inject dependency: the dependent is not in the BuildGraph",
        by simp [BuildGraph.injectDependency, ha]⟩

theorem BuildGraph.injectDependency_dup (g : BuildGraph) (a b : Nat)
    (hcons : g.Consistent) (h : (a, b) ∈ g.targetDependencies) :
    g.injectDependency a b = .ok g := by
  obtain ⟨ha, hb⟩ := hcons.2.2 (a, b) h
  simp [BuildGraph.injectDependency, ha, hb, h]

theorem BuildGraph.injectDependency_mem (g g' : BuildGraph) (a b : Nat)
    (hcons : g.Consistent) (h : g.injectDependency a b = .ok g') :
    (a, b) ∈ g'.targetDependencies ∧ (b, a) ∈ g'.targetDependents ∧
      a ∈ g'.targetByAddress ∧ b ∈ g'.targetByAddress := by
  by_cases ha : a ∈ g.targetByAddress
  · by_cases hb : b ∈ g.targetByAddress
    · by_cases hd : (a, b) ∈ g.targetDependencies
      · simp only [BuildGraph.injectDependency, if_pos ha, if_pos hb, if_pos hd,
          Except.ok.injEq] at h
        subst h
        exact ⟨hd, hcons.1 (a, b) hd, ha, hb⟩
      · simp only [BuildGraph.injectDependency, if_pos ha, if_pos hb, if_neg hd,
          Except.ok.injEq] at h
        subst h
        simp [ha, hb]
    · simp [BuildGraph.injectDependency, ha, hb] at h
  · simp [BuildGraph.injectDependency, ha] at h

theorem BuildGraph.injectDependency_consistent (g g' : BuildGraph) (a b : Nat)
    (hcons : g.Consistent) (h : g.injectDependency a b = .ok g') :
    g'.Consistent := by
  by_cases ha : a ∈ g.targetByAddress
  · by_cases hb : b ∈ g.targetByAddress
    · by_cases hd : (a, b) ∈ g.targetDependencies
      · simp only [BuildGraph.injectDependency, if_pos ha, if_pos hb, if_pos hd,
          Except.ok.injEq] at h
        exact h ▸ hcons
      · simp only [BuildGraph.injectDependency, if_pos ha, if_pos hb, if_neg hd,
          Except.ok.injEq] at h
        subst h
        refine ⟨?_, ?_, ?_⟩
        · intro pr hpr
          rcases List.mem_append.mp hpr with hm | hm
          · exact List.mem_append_left _ (hcons.1 pr hm)
          · rw [List.mem_singleton] at hm
            subst hm
            exact List.mem_append_right _ (by simp)
        · intro pr hpr
          rcases List.mem_append.mp hpr with hm | hm
          · exact List.mem_append_left _ (hcons.2.1 pr hm)
          · rw [List.mem_singleton] at hm
            subst hm
            exact List.mem_append_right _ (by simp)
        · intro pr hpr
          rcases List.mem_append.mp hpr with hm | hm
          · exact hcons.2.2 pr hm
          · rw [List.mem_singleton] at hm
            subst hm
            exact ⟨ha, hb⟩
    · simp [BuildGraph.injectDependency, ha, hb] at h
  · simp [BuildGraph.injectDependency, ha] at h

theorem BuildGraph.injectDependency_targets (g g' : BuildGraph) (a b : Nat)
    (h : g.injectDependency a b = .ok g') :
    g'.targetByAddress = g.targetByAddress := by
  by_cases ha : a ∈ g.targetByAddress
  · by_cases hb : b ∈ g.targetByAddress
    · by_cases hd : (a, b) ∈ g.targetDependencies
      · simp only [BuildGraph.injectDependency, if_pos ha, if_pos hb, if_pos hd,
          Except.ok.injEq] at h
        rw [← h]
      · simp only [BuildGraph.injectDependency, if_pos ha, if_pos hb, if_neg hd,
          Except.ok.injEq] at h
        rw [← h]
    · simp [BuildGraph.injectDependency, ha, hb] at h
  · simp [BuildGraph.injectDependency, ha] at h

theorem BuildGraph.injectDependency_edges_mono (g g' : BuildGraph) (a b : Nat)
    (h : g.injectDependency a b = .ok g') :
    ∀ pr, pr ∈ g.targetDependencies → pr ∈ g'.targetDependencies := by
  by_cases ha : a ∈ g.targetByAddress
  · by_cases hb : b ∈ g.targetByAddress
    · by_cases hd : (a, b) ∈ g.targetDependencies
      · simp only [BuildGraph.injectDependency, if_pos ha, if_pos hb, if_pos hd,
          Except.ok.injEq] at h
        intro pr hpr; rw [← h]; exact hpr
      · simp only [BuildGraph.injectDependency, if_pos ha, if_pos hb, if_neg hd,
          Except.ok.injEq] at h
        intro pr hpr; rw [← h]; exact List.mem_append_left _ hpr
    · simp [BuildGraph.injectDependency, ha, hb] at h
  · simp [BuildGraph.injectDependency, ha] at h

theorem BuildGraph.injectTarget_spec (g g' : BuildGraph) (address : Nat)
    (dependencies : List Nat) (hcons : g.Consistent)
    (h : g.injectTarget address dependencies = .ok g') :
    g'.Consistent ∧
      (∀ d ∈ dependencies,
        (address, d) ∈ g'.targetDependencies ∧
        (d, address) ∈ g'.targetDependents) := by
  by_cases ha : address ∈ g.targetByAddress
  · simp [BuildGraph.injectTarget, ha] at h
  · simp only [BuildGraph.injectTarget, if_neg ha] at h
    -- fold lemma over the dependency list
    suffices H : ∀ (ds : List Nat) (g₀ g₁ : BuildGraph), g₀.Consistent →
        ds.foldlM (fun gg d => gg.injectDependency address d) g₀ = .ok g₁ →
        g₁.Consistent ∧ ∀ d ∈ ds,
          (address, d) ∈ g₁.targetDependencies ∧
          (d, address) ∈ g₁.targetDependents by
      refine H dependencies _ g' ?_ h
      refine ⟨hcons.1, hcons.2.1, ?_⟩
      intro pr hpr
      obtain ⟨h1, h2⟩ := hcons.2.2 pr hpr
      exact ⟨List.mem_append_left _ h1, List.mem_append_left _ h2⟩
    intro ds
    induction ds with
    | nil =>
      intro g₀ g₁ hc h0
      simp only [List.foldlM_nil, pureExcept, Except.ok.injEq] at h0
      subst h0
      exact ⟨hc, by simp⟩
    | cons d ds ih =>
      intro g₀ g₁ hc h0
      simp only [List.foldlM_cons] at h0
      cases hstep : g₀.injectDependency address d with
      | error e => rw [hstep, errorBind] at h0; exact Except.noConfusion h0
      | ok gmid =>
        rw [hstep, okBind] at h0
        have hcmid := BuildGraph.injectDependency_consistent g₀ gmid address d hc hstep
        obtain ⟨hc1, hmem⟩ := ih gmid g₁ hcmid h0
        refine ⟨hc1, ?_⟩
        intro x hx
        rcases List.mem_cons.mp hx with hx | hx
        · subst hx
          obtain ⟨hd1, hd2, _⟩ := BuildGraph.injectDependency_mem g₀ gmid address x hc hstep
          -- membership is preserved along the rest of the fold
          have hmono : ∀ (ds' : List Nat) (ga gb : BuildGraph),
              ga.Consistent →
              ds'.foldlM (fun gg dd => gg.injectDependency address dd) ga = .ok gb →
              ∀ pr, pr ∈ ga.targetDependencies → pr ∈ gb.targetDependencies := by
            intro ds'
            induction ds' with
            | nil =>
              intro ga gb _ hfold
              simp only [List.foldlM_nil, pureExcept, Except.ok.injEq] at hfold
              subst hfold; exact fun _ hp => hp
            | cons dd ds' ih2 =>
              intro ga gb hca hfold
              simp only [List.foldlM_cons] at hfold
              cases hstep2 : ga.injectDependency address dd with
              | error e => rw [hstep2, errorBind] at hfold; exact Except.noConfusion hfold
              | ok gm =>
                rw [hstep2, okBind] at hfold
                intro pr hpr
                exact ih2 gm gb
                  (BuildGraph.injectDependency_consistent ga gm address dd hca hstep2)
                  hfold pr
                  (BuildGraph.injectDependency_edges_mono ga gm address dd hstep2 pr hpr)
          have hd1' := hmono ds gmid g₁ hcmid h0 (address, x) hd1
          exact ⟨hd1', hc1.1 (address, x) hd1'⟩
        · exact hmem x hx

/-- C9: on a consistent build graph, (i) injecting an edge with an
absent dependent or dependency fails, (ii) a successful
`inject_dependency` leaves both endpoints known and records the edge in
both the forward and reverse index, keeping the graph consistent,
(iii) injecting an edge that already exists leaves the state unchanged,
and (iv) every edge created through `inject_target` is likewise
recorded in both indices of a still-consistent graph. -/
theorem buildgraph_inject_spec (g : BuildGraph) (hcons : g.Consistent) :
    (∀ a b, a ∉ g.targetByAddress ∨ b ∉ g.targetByAddress →
      ∃ e, g.injectDependency a b = .error e) ∧
    (∀ a b g', g.injectDependency a b = .ok g' →
      (a, b) ∈ g'.targetDependencies ∧ (b, a) ∈ g'.targetDependents ∧
      a ∈ g'.targetByAddress ∧ b ∈ g'.targetByAddress ∧ g'.Consistent) ∧
    (∀ a b, (a, b) ∈ g.targetDependencies → g.injectDependency a b = .ok g) ∧
    (∀ address ds g', g.injectTarget address ds = .ok g' →
      g'.Consistent ∧ ∀ d ∈ ds,
        (address, d) ∈ g'.targetDependencies ∧
        (d, address) ∈ g'.targetDependents) := by
  refine ⟨?_, ?_, ?_, ?_⟩
  · exact fun a b h => BuildGraph.injectDependency_error_of_missing g a b h
  · intro a b g' h
    obtain ⟨h1, h2, h3, h4⟩ := BuildGraph.injectDependency_mem g g' a b hcons h
    exact ⟨h1, h2, h3, h4, BuildGraph.injectDependency_consistent g g' a b hcons h⟩
  · exact fun a b h => BuildGraph.injectDependency_dup g a b hcons h
  · intro address ds g' h
    exact BuildGraph.injectTarget_spec g g' address ds hcons h

/-- A concrete consistent graph used as the C9 witness: addresses 0 and
1 with the single edge 0 → 1. -/
def sampleGraph : BuildGraph := ⟨[0, 1], [(0, 1)], [(1, 0)]⟩

/-- Witness for C9 at `sampleGraph`. -/
theorem buildgraph_inject_spec_witness :
    (∀ a b, a ∉ sampleGraph.targetByAddress ∨ b ∉ sampleGraph.targetByAddress →
      ∃ e, sampleGraph.injectDependency a b = .error e) ∧
    (∀ a b g', sampleGraph.injectDependency a b = .ok g' →
      (a, b) ∈ g'.targetDependencies ∧ (b, a) ∈ g'.targetDependents ∧
      a ∈ g'.targetByAddress ∧ b ∈ g'.targetByAddress ∧ g'.Consistent) ∧
    (∀ a b, (a, b) ∈ sampleGraph.targetDependencies →
      sampleGraph.injectDependency a b = .ok sampleGraph) ∧
    (∀ address ds g', sampleGraph.injectTarget address ds = .ok g' →
      g'.Consistent ∧ ∀ d ∈ ds,
        (address, d) ∈ g'.targetDependencies ∧
        (d, address) ∈ g'.targetDependents) :=
  buildgraph_inject_spec sampleGraph (by decide)

/-! ## Filesystem model for the artifact cache (`cache/`)

Paths are lists of components; a filesystem is an association list from
file paths to contents.  Directories are implicit: a directory exists
iff some file lies strictly below it.  `os.path.relpath(p, root)` for a
path below `root` is modelled by dropping `root`'s components. -/

/-- A filesystem path, as a list of components. -/
abbrev FsPath : Type := List String

/-- A filesystem: a finite map from file paths to file contents. -/
structure FileSys where
  files : List (FsPath × String)
deriving Repr, DecidableEq

/-- `root` is a proper ancestor directory of `p`. -/
def FsPath.strictUnder (root p : FsPath) : Bool :=
  decide (p.take root.length = root) && decide (root.length < p.length)

/-- `p` equals `root` or lies below it. -/
def FsPath.underEq (root p : FsPath) : Bool :=
  decide (p.take root.length = root)

/-- The content of the file at `p`, if `p` is a file. -/
def FileSys.fileContent (fs : FileSys) (p : FsPath) : Option String :=
  (fs.files.find? (fun pr => decide (pr.1 = p))).map (fun pr => pr.2)

/-- `os.path.isfile`-style check. -/
def FileSys.isFile (fs : FileSys) (p : FsPath) : Bool :=
  (fs.fileContent p).isSome

/-- `os.path.isdir`: some file lies strictly below `p`. -/
def FileSys.isDir (fs : FileSys) (p : FsPath) : Bool :=
  fs.files.any (fun pr => FsPath.strictUnder p pr.1)

/-- `os.path.exists`: `p` is a file or a directory. -/
def FileSys.pathExists (fs : FileSys) (p : FsPath) : Bool :=
  fs.isFile p || fs.isDir p

/-- Write (or overwrite) the file at `p` with content `c`
(`shutil.copy` to destination `p`). -/
def FileSys.write (fs : FileSys) (p : FsPath) (c : String) : FileSys :=
  ⟨fs.files.filter (fun pr => decide (pr.1 ≠ p)) ++ [(p, c)]⟩

/-- `safe_rmtree p`: remove everything at or below `p`. -/
def FileSys.rmtree (fs : FileSys) (p : FsPath) : FileSys :=
  ⟨fs.files.filter (fun pr => !(FsPath.underEq p pr.1))⟩

/-! ## ArtifactCache.insert (`cache/artifact_cache.py`)

`insert` is generic over the subclass `try_insert` implementation, so it
is modelled as a higher-order function. -/

/-- `ArtifactCache.insert`: on a writable cache, filter the paths down
to those that exist on the filesystem, hand them to `try_insert`, and
swallow (log) any exception `try_insert` raises.  On a read-only cache,
silently do nothing. -/
def ArtifactCache.insert (tryIns : List FsPath → Except String FileSys)
    (fs : FileSys) (readOnly : Bool) (paths : List FsPath) :
    Except String FileSys :=
  if readOnly then .ok fs
  else
    let pathsThatExist := paths.filter (fun f => fs.pathExists f)
    match tryIns pathsThatExist with
    | .ok fs' => .ok fs'
    | .error _ => .ok fs  -- 'Error while writing to artifact cache' is logged

theorem filter_erase_of_not (pred : FsPath → Bool) :
    ∀ (l : List FsPath) (p : FsPath), pred p = false →
      (l.erase p).filter pred = l.filter pred := by
  intro l
  induction l with
  | nil => intro p h; rfl
  | cons a l ih =>
    intro p h
    by_cases hap : a = p
    · subst hap
      rw [List.erase_cons_head, List.filter_cons_of_neg (by simp [h])]
    · rw [List.erase_cons_tail (by simp [hap])]
      by_cases hpa : pred a
      · rw [List.filter_cons_of_pos hpa, List.filter_cons_of_pos hpa, ih p h]
      · rw [List.filter_cons_of_neg (by simpa using hpa),
          List.filter_cons_of_neg (by simpa using hpa), ih p h]

/-- C10: on a writable cache, `insert` (i) never raises, whatever
`try_insert` does, and (ii) silently omits nonexistent paths: removing a
nonexistent path from the input list does not change the result. -/
theorem artifactcache_insert_spec
    (tryIns : List FsPath → Except String FileSys) (fs : FileSys)
    (paths : List FsPath) :
    (∃ fs', ArtifactCache.insert tryIns fs false paths = .ok fs') ∧
    (∀ p ∈ paths, fs.pathExists p = false →
      ArtifactCache.insert tryIns fs false paths =
        ArtifactCache.insert tryIns fs false (paths.erase p)) := by
  constructor
  · simp only [ArtifactCache.insert, if_neg (Bool.false_ne_true)]
    cases tryIns (paths.filter (fun f => fs.pathExists f)) with
    | ok fs' => exact ⟨fs', rfl⟩
    | error e => exact ⟨fs, rfl⟩
  · intro p _ hne
    simp only [ArtifactCache.insert, if_neg (Bool.false_ne_true)]
    rw [filter_erase_of_not (fun f => fs.pathExists f) paths p hne]

/-- Witness for C10: inserting one existing and one nonexistent path
with a `try_insert` that always fails. -/
theorem artifactcache_insert_spec_witness :
    (∃ fs', ArtifactCache.insert (fun _ => .error "cache write failed")
      (FileSys.mk [(["root", "x.class"], "bytes")]) false
      [["root", "x.class"], ["root", "missing"]] = .ok fs') ∧
    (∀ p ∈ [["root", "x.class"], ["root", "missing"]],
      (FileSys.mk [(["root", "x.class"], "bytes")]).pathExists p = false →
      ArtifactCache.insert (fun _ => .error "cache write failed")
        (FileSys.mk [(["root", "x.class"], "bytes")]) false
        [["root", "x.class"], ["root", "missing"]] =
      ArtifactCache.insert (fun _ => .error "cache write failed")
        (FileSys.mk [(["root", "x.class"], "bytes")]) false
        ([["root", "x.class"], ["root", "missing"]].erase p)) :=
  artifactcache_insert_spec (fun _ => .error "cache write failed")
    (FileSys.mk [(["root", "x.class"], "bytes")])
    [["root", "x.class"], ["root", "missing"]]

/-! ## WorkerPool (`base/worker_pool.py`)

Worker computations are `Except`-valued functions; the external
`multiprocessing.pool.ThreadPool.map` is modelled by its contract:
apply the function to each argument tuple in order, collect the results
in input order, and propagate the first exception.  Python's `None` is
`Option.none`. -/

/-- `WorkerPool._do_work`: runs `func(*args_tuple)` (inside an optional
workunit, which does not affect the value) and returns its result. -/
def WorkerPool.doWorkInner {α β : Type} (f : α → Except String β) (x : α) :
    Except String β := f x

/-- The local `do_work` closure in `submit_work_and_wait`: it calls
`self._do_work(func, *args, workunit_name=workunit_name)` but has no
`return` statement, so it returns Python `None` (exceptions still
propagate). -/
def WorkerPool.doWork {α β : Type} (f : α → Except String β) (x : α) :
    Except String (Option β) :=
  (WorkerPool.doWorkInner f x).map (fun _ => none)

/-- `WorkerPool.submit_work_and_wait`: a zero-length input
short-circuits to `[]` without dispatching to the pool; otherwise the
pool maps `do_work` over the argument tuples. -/
def WorkerPool.submitWorkAndWait {α β : Type} (f : α → Except String β)
    (args : List α) : Except String (List (Option β)) :=
  if args.length = 0 then .ok []
  else args.mapM (WorkerPool.doWork f)

/-- C7 (code bug): `submit_work_and_wait` does short-circuit on empty
input and does propagate exceptions, but — contrary to its own
docstring "Returns a list of return values of each invocation" — the
inner `do_work` lacks a `return`, so every returned element is `None`
rather than the invocation's return value. -/
theorem worker_pool_submit_work_and_wait_returns_nones :
    WorkerPool.submitWorkAndWait
        (fun n : Nat => (Except.ok (n + 1) : Except String Nat)) [] = .ok [] ∧
    WorkerPool.submitWorkAndWait
        (fun _ : Nat => (Except.error "boom" : Except String Nat)) [1] =
      .error "boom" ∧
    WorkerPool.submitWorkAndWait
        (fun n : Nat => (Except.ok (n + 1) : Except String Nat)) [1, 2] =
      .ok [none, none] ∧
    WorkerPool.submitWorkAndWait
        (fun n : Nat => (Except.ok (n + 1) : Except String Nat)) [1, 2] ≠
      .ok [some 2, some 3] := by
  refine ⟨rfl, rfl, rfl, ?_⟩
  intro h
  have h3 : WorkerPool.submitWorkAndWait
      (fun n : Nat => (Except.ok (n + 1) : Except String Nat)) [1, 2] =
    .ok [none, none] := rfl
  rw [h3] at h
  simp at h

/-! ## Exclusives propagation (`base/target.py`, `tasks/check_exclusives.py`)

Targets are `Nat` ids below a bound `n`.  `decl t` is the
`exclusives = {"id": "value", ...}` dict of target `t`, as an ordered
association list (`Target.__init__` turns each binding into a singleton
in `declared_exclusives`).  `deps t` are the declared dependencies.

`Target.propagate_exclusives` folds `add_to_exclusives` over a walk of
the dependency graph.  The walk itself (`Target.walk` documented as
"visiting each node exactly once") dispatches to
`InternalTarget._walk`.  Modelled from the spec: the dependency
traversal of `InternalTarget._walk` (the `twitter.pants.targets`
package is not part of this snapshot) is a depth-first walk keeping a
`walked` set, descending into `target.dependencies`, exactly as
`Target._walk` does for the resolved targets it iterates. -/

structure ExGraph where
  n : Nat
  deps : Nat → List Nat
  decl : Nat → List (String × String)

mutual

/-- The dependency walk: visit `t` if not yet walked, then its
dependencies depth-first.  Returns the updated `walked` list. -/
def ExGraph.walk (G : ExGraph) : Nat → Nat → List Nat → List Nat
  | 0, _, w => w
  | fuel + 1, t, w =>
    if t ∈ w then w else ExGraph.walkFold G fuel (G.deps t) (w ++ [t])
termination_by fuel _ _ => (fuel, 0)

/-- Walk each dependency in declaration order. -/
def ExGraph.walkFold (G : ExGraph) : Nat → List Nat → List Nat → List Nat
  | _, [], w => w
  | fuel, d :: ds, w => ExGraph.walkFold G fuel ds (ExGraph.walk G fuel d w)
termination_by fuel ds _ => (fuel, ds.length + 1)

end

/-- `a → b` when `b` is a declared dependency of `a`. -/
def ExGraph.Step (G : ExGraph) (a b : Nat) : Prop := b ∈ G.deps a

/-- Reflexive-transitive reachability along dependencies: `u` is `t`
itself or one of its transitive dependencies. -/
def ExGraph.Reaches (G : ExGraph) (a b : Nat) : Prop :=
  Relation.ReflTransGen G.Step a b

/-- `declared_exclusives[k]` of a target (`Target.__init__`). -/
def ExGraph.declared (G : ExGraph) (t : Nat) (k : String) : List String :=
  ((G.decl t).filter (fun pr => decide (pr.1 = k))).map (fun pr => pr.2)

/-- Set union in insertion order (`self.exclusives[key] |= ...`). -/
def listUnion (a b : List String) : List String :=
  b.foldl (fun acc v => if v ∈ acc then acc else acc ++ [v]) a

/-- `Target.propagate_exclusives` / `get_all_exclusives`: fold
`add_to_exclusives` over the dependency walk, per key. -/
def ExGraph.computed (G : ExGraph) (t : Nat) (k : String) : List String :=
  (G.walk (G.n + 1) t []).foldl (fun acc u => listUnion acc (G.declared u k)) []

theorem mem_listUnion (a b : List String) (v : String) :
    v ∈ listUnion a b ↔ v ∈ a ∨ v ∈ b := by
  induction b generalizing a with
  | nil => simp [listUnion]
  | cons x b ih =>
    simp only [listUnion, List.foldl_cons]
    by_cases hx : x ∈ a
    · rw [if_pos hx]
      rw [show List.foldl _ a b = listUnion a b from rfl] at *
      rw [ih a]
      constructor
      · rintro (h | h)
        · exact Or.inl h
        · exact Or.inr (List.mem_cons_of_mem _ h)
      · rintro (h | h)
        · exact Or.inl h
        · rcases List.mem_cons.mp h with h | h
          · exact Or.inl (h ▸ hx)
          · exact Or.inr h
    · rw [if_neg hx]
      rw [show List.foldl _ (a ++ [x]) b = listUnion (a ++ [x]) b from rfl]
      rw [ih (a ++ [x])]
      constructor
      · rintro (h | h)
        · rcases List.mem_append.mp h with h | h
          · exact Or.inl h
          · rw [List.mem_singleton] at h
            exact Or.inr (h ▸ List.mem_cons_self x b)
        · exact Or.inr (List.mem_cons_of_mem _ h)
      · rintro (h | h)
        · exact Or.inl (List.mem_append_left _ h)
        · rcases List.mem_cons.mp h with h | h
          · exact Or.inl (List.mem_append_right _ (h ▸ List.mem_singleton_self x))
          · exact Or.inr h

theorem nodup_listUnion (a b : List String) (h : a.Nodup) :
    (listUnion a b).Nodup := by
  induction b generalizing a with
  | nil => exact h
  | cons x b ih =>
    simp only [listUnion, List.foldl_cons]
    by_cases hx : x ∈ a
    · rw [if_pos hx]; exact ih a h
    · rw [if_neg hx]
      exact ih (a ++ [x]) (by simp [List.nodup_append, h, hx])

theorem mem_foldl_listUnion (l : List Nat) (f : Nat → List String) (v : String) :
    ∀ acc, v ∈ l.foldl (fun acc u => listUnion acc (f u)) acc ↔
      v ∈ acc ∨ ∃ u ∈ l, v ∈ f u := by
  induction l with
  | nil => intro acc; simp
  | cons x l ih =>
    intro acc
    simp only [List.foldl_cons]
    rw [ih (listUnion acc (f x)), mem_listUnion]
    constructor
    · rintro ((h | h) | ⟨u, hu, hv⟩)
      · exact Or.inl h
      · exact Or.inr ⟨x, List.mem_cons_self x l, h⟩
      · exact Or.inr ⟨u, List.mem_cons_of_mem _ hu, hv⟩
    · rintro (h | ⟨u, hu, hv⟩)
      · exact Or.inl (Or.inl h)
      · rcases List.mem_cons.mp hu with hu | hu
        · exact Or.inl (Or.inr (hu ▸ hv))
        · exact Or.inr ⟨u, hu, hv⟩

theorem nodup_foldl_listUnion (l : List Nat) (f : Nat → List String) :
    ∀ acc, acc.Nodup →
      (l.foldl (fun acc u => listUnion acc (f u)) acc).Nodup := by
  induction l with
  | nil => intro acc h; exact h
  | cons x l ih =>
    intro acc h
    exact ih (listUnion acc (f x)) (nodup_listUnion acc (f x) h)

theorem ExGraph.walk_mono_all (G : ExGraph) : ∀ fuel,
    (∀ t w x, x ∈ w → x ∈ G.walk fuel t w) ∧
    (∀ ds w x, x ∈ w → x ∈ G.walkFold fuel ds w) := by
  intro fuel
  induction fuel with
  | zero =>
    have hP : ∀ t w x, x ∈ w → x ∈ G.walk 0 t w := by
      intro t w x h; simpa [ExGraph.walk] using h
    refine ⟨hP, ?_⟩
    intro ds
    induction ds with
    | nil => intro w x h; simpa [ExGraph.walkFold] using h
    | cons d ds ih =>
      intro w x h
      rw [ExGraph.walkFold]
      exact ih _ x (hP d w x h)
  | succ fuel ih =>
    have hP : ∀ t w x, x ∈ w → x ∈ G.walk (fuel + 1) t w := by
      intro t w x h
      rw [ExGraph.walk]
      by_cases ht : t ∈ w
      · rw [if_pos ht]; exact h
      · rw [if_neg ht]
        exact ih.2 (G.deps t) (w ++ [t]) x (List.mem_append_left _ h)
    refine ⟨hP, ?_⟩
    intro ds
    induction ds with
    | nil => intro w x h; simpa [ExGraph.walkFold] using h
    | cons d ds ih2 =>
      intro w x h
      rw [ExGraph.walkFold]
      exact ih2 _ x (hP d w x h)

theorem ExGraph.walk_mono (G : ExGraph) (fuel t : Nat) (w : List Nat)
    (x : Nat) (h : x ∈ w) : x ∈ G.walk fuel t w :=
  (G.walk_mono_all fuel).1 t w x h

theorem ExGraph.walkFold_mono (G : ExGraph) (fuel : Nat) (ds w : List Nat)
    (x : Nat) (h : x ∈ w) : x ∈ G.walkFold fuel ds w :=
  (G.walk_mono_all fuel).2 ds w x h

theorem ExGraph.walk_mem_self (G : ExGraph) (fuel t : Nat) (w : List Nat)
    (h : 0 < fuel) : t ∈ G.walk fuel t w := by
  cases fuel with
  | zero => omega
  | succ fuel =>
    rw [ExGraph.walk]
    by_cases ht : t ∈ w
    · rw [if_pos ht]; exact ht
    · rw [if_neg ht]
      exact G.walkFold_mono fuel (G.deps t) (w ++ [t]) t
        (List.mem_append_right _ (List.mem_singleton_self t))

theorem ExGraph.walk_sound_all (G : ExGraph) : ∀ fuel,
    (∀ t w x, x ∈ G.walk fuel t w → x ∈ w ∨ G.Reaches t x) ∧
    (∀ ds w x, x ∈ G.walkFold fuel ds w →
      x ∈ w ∨ ∃ d ∈ ds, G.Reaches d x) := by
  intro fuel
  induction fuel with
  | zero =>
    have hP : ∀ t w x, x ∈ G.walk 0 t w → x ∈ w ∨ G.Reaches t x := by
      intro t w x h
      exact Or.inl (by simpa [ExGraph.walk] using h)
    refine ⟨hP, ?_⟩
    intro ds
    induction ds with
    | nil => intro w x h; exact Or.inl (by simpa [ExGraph.walkFold] using h)
    | cons d ds ih =>
      intro w x h
      rw [ExGraph.walkFold] at h
      rcases ih _ x h with h | ⟨d', hd', hr⟩
      · rcases hP d w x h with h | h
        · exact Or.inl h
        · exact Or.inr ⟨d, List.mem_cons_self d ds, h⟩
      · exact Or.inr ⟨d', List.mem_cons_of_mem _ hd', hr⟩
  | succ fuel ih =>
    have hP : ∀ t w x, x ∈ G.walk (fuel + 1) t w → x ∈ w ∨ G.Reaches t x := by
      intro t w x h
      rw [ExGraph.walk] at h
      by_cases ht : t ∈ w
      · rw [if_pos ht] at h; exact Or.inl h
      · rw [if_neg ht] at h
        rcases ih.2 (G.deps t) (w ++ [t]) x h with h | ⟨d, hd, hr⟩
        · rcases List.mem_append.mp h with h | h
          · exact Or.inl h
          · rw [List.mem_singleton] at h
            exact Or.inr (h ▸ Relation.ReflTransGen.refl)
        · exact Or.inr (Relation.ReflTransGen.head hd hr)
    refine ⟨hP, ?_⟩
    intro ds
    induction ds with
    | nil => intro w x h; exact Or.inl (by simpa [ExGraph.walkFold] using h)
    | cons d ds ih2 =>
      intro w x h
      rw [ExGraph.walkFold] at h
      rcases ih2 _ x h with h | ⟨d', hd', hr⟩
      · rcases hP d w x h with h | h
        · exact Or.inl h
        · exact Or.inr ⟨d, List.mem_cons_self d ds, h⟩
      · exact Or.inr ⟨d', List.mem_cons_of_mem _ hd', hr⟩

/-- The walked set is closed under dependencies, except possibly at the
ghost ancestors `g` that are still mid-processing. -/
def ExGraph.ClosedExcept (G : ExGraph) (g w : List Nat) : Prop :=
  ∀ x ∈ w, x ∉ g → ∀ d ∈ G.deps x, d ∈ w

/-- Unwalked-node budget used for the fuel bound. -/
def ExGraph.budget (G : ExGraph) (w : List Nat) : Nat :=
  ((Finset.range G.n).filter (fun x => x ∉ w)).card

theorem ExGraph.budget_le_of_sub (G : ExGraph) (w w' : List Nat)
    (h : ∀ x ∈ w, x ∈ w') : G.budget w' ≤ G.budget w := by
  refine Finset.card_le_card ?_
  intro x hx
  rw [Finset.mem_filter] at hx ⊢
  exact ⟨hx.1, fun hc => hx.2 (h x hc)⟩

theorem ExGraph.budget_push (G : ExGraph) (w : List Nat) (t : Nat)
    (ht : t < G.n) (hw : t ∉ w) : G.budget (w ++ [t]) = G.budget w - 1 := by
  have hmem : t ∈ (Finset.range G.n).filter (fun x => x ∉ w) := by
    rw [Finset.mem_filter, Finset.mem_range]
    exact ⟨ht, hw⟩
  have : (Finset.range G.n).filter (fun x => x ∉ w ++ [t]) =
      ((Finset.range G.n).filter (fun x => x ∉ w)).erase t := by
    ext x
    simp only [Finset.mem_filter, Finset.mem_erase, Finset.mem_range,
      List.mem_append, List.mem_singleton]
    constructor
    · intro ⟨h1, h2⟩
      push_neg at h2
      exact ⟨h2.2, h1, h2.1⟩
    · intro ⟨h1, h2, h3⟩
      refine ⟨h2, ?_⟩
      push_neg
      exact ⟨h3, h1⟩
  rw [ExGraph.budget, this, Finset.card_erase_of_mem hmem]
  rfl

theorem ExGraph.budget_pos (G : ExGraph) (w : List Nat) (t : Nat)
    (ht : t < G.n) (hw : t ∉ w) : 0 < G.budget w := by
  refine Finset.card_pos.mpr ⟨t, ?_⟩
  rw [Finset.mem_filter, Finset.mem_range]
  exact ⟨ht, hw⟩

theorem ExGraph.walk_closed_all (G : ExGraph)
    (Hb : ∀ x d, d ∈ G.deps x → d < G.n) : ∀ fuel,
    (∀ g t w, t < G.n → (∀ x ∈ w, x < G.n) → G.budget w < fuel →
      G.ClosedExcept g w →
      G.ClosedExcept g (G.walk fuel t w) ∧
      (∀ x ∈ G.walk fuel t w, x < G.n)) ∧
    (∀ g ds w, (∀ d ∈ ds, d < G.n) → (∀ x ∈ w, x < G.n) →
      G.budget w < fuel → G.ClosedExcept g w →
      G.ClosedExcept g (G.walkFold fuel ds w) ∧
      (∀ x ∈ G.walkFold fuel ds w, x < G.n) ∧
      (∀ d ∈ ds, d ∈ G.walkFold fuel ds w)) := by
  intro fuel
  induction fuel with
  | zero =>
    constructor
    · intro g t w _ _ hbud; omega
    · intro g ds w _ _ hbud; omega
  | succ fuel ih =>
    have hP : ∀ g t w, t < G.n → (∀ x ∈ w, x < G.n) →
        G.budget w < fuel + 1 → G.ClosedExcept g w →
        G.ClosedExcept g (G.walk (fuel + 1) t w) ∧
        (∀ x ∈ G.walk (fuel + 1) t w, x < G.n) := by
      intro g t w ht hw hbud hcl
      rw [ExGraph.walk]
      by_cases htw : t ∈ w
      · rw [if_pos htw]; exact ⟨hcl, hw⟩
      · rw [if_neg htw]
        have hbud' : G.budget (w ++ [t]) < fuel := by
          have h1 := G.budget_push w t ht htw
          have h2 := G.budget_pos w t ht htw
          omega
        have hw' : ∀ x ∈ w ++ [t], x < G.n := by
          intro x hx
          rcases List.mem_append.mp hx with hx | hx
          · exact hw x hx
          · rw [List.mem_singleton] at hx; exact hx ▸ ht
        have hcl' : G.ClosedExcept (g ++ [t]) (w ++ [t]) := by
          intro x hx hxg d hd
          have hxt : x ≠ t := by
            intro hxeq
            refine hxg ?_
            rw [hxeq]
            exact List.mem_append_right _ (List.mem_singleton_self t)
          have hxw : x ∈ w := by
            rcases List.mem_append.mp hx with hx | hx
            · exact hx
            · rw [List.mem_singleton] at hx; exact absurd hx hxt
          have hxg' : x ∉ g := fun hc => hxg (List.mem_append_left _ hc)
          exact List.mem_append_left _ (hcl x hxw hxg' d hd)
        obtain ⟨hcl2, hb2, hds2⟩ := ih.2 (g ++ [t]) (G.deps t) (w ++ [t])
          (fun d hd => Hb t d hd) hw' hbud' hcl'
        refine ⟨?_, hb2⟩
        intro x hx hxg d hd
        by_cases hxt : x = t
        · exact hds2 d (hxt ▸ hd)
        · refine hcl2 x hx ?_ d hd
          intro hc
          rcases List.mem_append.mp hc with hc | hc
          · exact hxg hc
          · rw [List.mem_singleton] at hc; exact hxt hc
    refine ⟨hP, ?_⟩
    intro g ds
    induction ds with
    | nil =>
      intro w _ hw _ hcl
      rw [ExGraph.walkFold]
      exact ⟨hcl, hw, by simp⟩
    | cons d ds ih2 =>
      intro w hds hw hbud hcl
      rw [ExGraph.walkFold]
      have hd : d < G.n := hds d (List.mem_cons_self d ds)
      obtain ⟨hcl1, hb1⟩ := hP g d w hd hw hbud hcl
      have hbud1 : G.budget (G.walk (fuel + 1) d w) < fuel + 1 :=
        lt_of_le_of_lt (G.budget_le_of_sub _ _
          (fun x hx => G.walk_mono (fuel + 1) d w x hx)) hbud
      obtain ⟨hcl2, hb2, hds2⟩ := ih2 _
        (fun x hx => hds x (List.mem_cons_of_mem _ hx)) hb1 hbud1 hcl1
      refine ⟨hcl2, hb2, ?_⟩
      intro d' hd'
      rcases List.mem_cons.mp hd' with hd' | hd'
      · subst hd'
        exact G.walkFold_mono (fuel + 1) ds _ d'
          (G.walk_mem_self (fuel + 1) d' w (Nat.succ_pos fuel))
      · exact hds2 d' hd'

/-- The walk from `t` with fuel `n + 1` visits exactly the targets
reachable from `t`. -/
theorem ExGraph.walk_reachable (G : ExGraph)
    (Hb : ∀ x d, d ∈ G.deps x → d < G.n) (t : Nat) (ht : t < G.n) :
    ∀ x, x ∈ G.walk (G.n + 1) t [] ↔ G.Reaches t x := by
  have hbud : G.budget ([] : List Nat) < G.n + 1 := by
    refine lt_of_le_of_lt (Finset.card_filter_le _ _) ?_
    rw [Finset.card_range]
    omega
  obtain ⟨hcl, _⟩ := (G.walk_closed_all Hb (G.n + 1)).1 [] t []
    ht (by simp) hbud (by intro x hx; simp at hx)
  have hmem : t ∈ G.walk (G.n + 1) t [] :=
    G.walk_mem_self (G.n + 1) t [] (Nat.succ_pos _)
  intro x
  constructor
  · intro hx
    rcases (G.walk_sound_all (G.n + 1)).1 t [] x hx with hx | hx
    · simp at hx
    · exact hx
  · intro hr
    induction hr with
    | refl => exact hmem
    | tail _ hstep ih =>
      exact hcl _ ih (by simp) _ hstep

/-- C1: the computed exclusives map of a propagated target, per key,
is the union of the target's own declared exclusives with the declared
exclusives of every target in its transitive dependency closure. -/
theorem target_propagate_exclusives_spec (G : ExGraph)
    (Hb : ∀ x d, d ∈ G.deps x → d < G.n) (t : Nat) (ht : t < G.n) :
    ∀ k v, v ∈ G.computed t k ↔
      (v ∈ G.declared t k ∨
        ∃ u, Relation.TransGen G.Step t u ∧ v ∈ G.declared u k) := by
  intro k v
  rw [ExGraph.computed, mem_foldl_listUnion]
  simp only [List.not_mem_nil, false_or]
  constructor
  · rintro ⟨u, hu, hv⟩
    rw [G.walk_reachable Hb t ht u] at hu
    rcases (Relation.reflTransGen_iff_eq_or_transGen.mp hu) with h | h
    · exact Or.inl (h ▸ hv)
    · exact Or.inr ⟨u, h, hv⟩
  · rintro (hv | ⟨u, hu, hv⟩)
    · exact ⟨t, (G.walk_reachable Hb t ht t).mpr Relation.ReflTransGen.refl, hv⟩
    · exact ⟨u, (G.walk_reachable Hb t ht u).mpr
        (Relation.reflTransGen_iff_eq_or_transGen.mpr (Or.inr hu)), hv⟩

/-- A concrete graph for the C1 witness: 0 → 1 → 2 with declared
exclusives a:1 on 0, a:2 on 1, b:3 on 2. -/
def sampleExGraph : ExGraph where
  n := 3
  deps := fun x => match x with
    | 0 => [1]
    | 1 => [2]
    | _ => []
  decl := fun x => match x with
    | 0 => [("a", "1")]
    | 1 => [("a", "2")]
    | _ => [("b", "3")]

theorem sampleExGraph_bound : ∀ x d, d ∈ sampleExGraph.deps x → d < sampleExGraph.n := by
  intro x d h
  rcases x with _ | _ | x <;> simp [sampleExGraph] at h ⊢ <;> omega

/-- Witness for C1 at `sampleExGraph`, target 0, key "a", value "2"
(declared on the transitive dependency 1). -/
theorem target_propagate_exclusives_spec_witness :
    "2" ∈ sampleExGraph.computed 0 "a" ↔
      ("2" ∈ sampleExGraph.declared 0 "a" ∨
        ∃ u, Relation.TransGen sampleExGraph.Step 0 u ∧
          "2" ∈ sampleExGraph.declared u "a") :=
  target_propagate_exclusives_spec sampleExGraph sampleExGraph_bound 0
    (by decide) "a" "2"

/-! ## CheckExclusives (`tasks/check_exclusives.py`) -/

/-- Insertion-ordered key set construction (`defaultdict` key order). -/
def insertNew (acc : List String) (k : String) : List String :=
  if k ∈ acc then acc else acc ++ [k]

theorem mem_foldl_insertNew (l : List String) :
    ∀ acc k, k ∈ l.foldl insertNew acc ↔ k ∈ acc ∨ k ∈ l := by
  induction l with
  | nil => intro acc k; simp
  | cons x l ih =>
    intro acc k
    simp only [List.foldl_cons]
    rw [ih (insertNew acc x)]
    unfold insertNew
    by_cases hx : x ∈ acc
    · rw [if_pos hx]
      constructor
      · rintro (h | h)
        · exact Or.inl h
        · exact Or.inr (List.mem_cons_of_mem _ h)
      · rintro (h | h)
        · exact Or.inl h
        · rcases List.mem_cons.mp h with h | h
          · exact Or.inl (h ▸ hx)
          · exact Or.inr h
    · rw [if_neg hx]
      constructor
      · rintro (h | h)
        · rcases List.mem_append.mp h with h | h
          · exact Or.inl h
          · rw [List.mem_singleton] at h
            exact Or.inr (h ▸ List.mem_cons_self x l)
        · exact Or.inr (List.mem_cons_of_mem _ h)
      · rintro (h | h)
        · exact Or.inl (List.mem_append_left _ h)
        · rcases List.mem_cons.mp h with h | h
          · exact Or.inl (List.mem_append_right _ (h ▸ List.mem_singleton_self x))
          · exact Or.inr h

/-- The ordered key list of a target's computed exclusives map: keys in
first-contribution order over the walk. -/
def ExGraph.computedKeys (G : ExGraph) (t : Nat) : List String :=
  (G.walk (G.n + 1) t []).foldl
    (fun acc u => ((G.decl u).map (fun pr => pr.1)).foldl insertNew acc) []

theorem mem_foldl_insertAll (l : List Nat) (f : Nat → List String) :
    ∀ acc k, k ∈ l.foldl (fun acc u => (f u).foldl insertNew acc) acc ↔
      k ∈ acc ∨ ∃ u ∈ l, k ∈ f u := by
  induction l with
  | nil => intro acc k; simp
  | cons x l ih =>
    intro acc k
    simp only [List.foldl_cons]
    rw [ih ((f x).foldl insertNew acc), mem_foldl_insertNew]
    constructor
    · rintro ((h | h) | ⟨u, hu, hk⟩)
      · exact Or.inl h
      · exact Or.inr ⟨x, List.mem_cons_self x l, h⟩
      · exact Or.inr ⟨u, List.mem_cons_of_mem _ hu, hk⟩
    · rintro (h | ⟨u, hu, hk⟩)
      · exact Or.inl (Or.inl h)
      · rcases List.mem_cons.mp hu with hu | hu
        · exact Or.inl (Or.inr (hu ▸ hk))
        · exact Or.inr ⟨u, hu, hk⟩

theorem ExGraph.mem_computed_iff (G : ExGraph) (t : Nat) (k v : String) :
    v ∈ G.computed t k ↔
      ∃ u ∈ G.walk (G.n + 1) t [], v ∈ G.declared u k := by
  rw [ExGraph.computed, mem_foldl_listUnion]
  simp

theorem ExGraph.mem_computedKeys_iff (G : ExGraph) (t : Nat) (k : String) :
    k ∈ G.computedKeys t ↔
      ∃ u ∈ G.walk (G.n + 1) t [], k ∈ (G.decl u).map (fun pr => pr.1) := by
  rw [ExGraph.computedKeys, mem_foldl_insertAll]
  simp

theorem ExGraph.computedKeys_of_conflict (G : ExGraph) (t : Nat) (k : String)
    (h : 1 < (G.computed t k).length) : k ∈ G.computedKeys t := by
  have : ∃ v, v ∈ G.computed t k := by
    cases hc : G.computed t k with
    | nil => rw [hc] at h; simp at h
    | cons v vs => exact ⟨v, hc ▸ List.mem_cons_self v vs⟩
  obtain ⟨v, hv⟩ := this
  rw [ExGraph.mem_computed_iff] at hv
  obtain ⟨u, hu, hv⟩ := hv
  rw [ExGraph.mem_computedKeys_iff]
  refine ⟨u, hu, ?_⟩
  rw [ExGraph.declared] at hv
  rw [List.mem_map] at hv ⊢
  obtain ⟨pr, hpr, _⟩ := hv
  rw [List.mem_filter] at hpr
  exact ⟨pr, hpr.1, by simpa using hpr.2⟩

/-- The body of `CheckExclusives.execute` for one target: walk the keys
of its computed map; a key with more than one value either raises
`TaskError` (strict mode) or emits a warning and continues (warn
mode). -/
def ExGraph.checkKeys (G : ExGraph) (signalError : Bool) (t : Nat) :
    List String → List (Nat × String) → Except (Nat × String) (List (Nat × String))
  | [], ws => .ok ws
  | k :: ks, ws =>
    if 1 < (G.computed t k).length then
      if signalError then .error (t, k)
      else G.checkKeys signalError t ks (ws ++ [(t, k)])
    else G.checkKeys signalError t ks ws

/-- One target's collision check over its computed exclusives keys. -/
def ExGraph.checkTarget (G : ExGraph) (signalError : Bool) (t : Nat)
    (ws : List (Nat × String)) : Except (Nat × String) (List (Nat × String)) :=
  G.checkKeys signalError t (G.computedKeys t) ws

/-- The loop of `CheckExclusives.execute` over the root targets. -/
def ExGraph.execRoots (G : ExGraph) (signalError : Bool) :
    List Nat → List (Nat × String) → Except (Nat × String) (List (Nat × String))
  | [], ws => .ok ws
  | t :: ts, ws =>
    match G.checkTarget signalError t ws with
    | .ok ws' => G.execRoots signalError ts ws'
    | .error e => .error e

/-- `CheckExclusives.execute`: propagate exclusives for every target
(`computed` recomputes them), then check each target's computed map for
collisions. -/
def ExGraph.checkExclusivesExecute (G : ExGraph) (signalError : Bool)
    (ts : List Nat) : Except (Nat × String) (List (Nat × String)) :=
  G.execRoots signalError ts []

theorem ExGraph.checkKeys_warn (G : ExGraph) (t : Nat) :
    ∀ (ks : List String) (ws : List (Nat × String)),
      G.checkKeys false t ks ws =
        .ok (ws ++ (ks.filter (fun k =>
          decide (1 < (G.computed t k).length))).map (fun k => (t, k))) := by
  intro ks
  induction ks with
  | nil => intro ws; simp [ExGraph.checkKeys]
  | cons k ks ih =>
    intro ws
    rw [ExGraph.checkKeys]
    by_cases hk : 1 < (G.computed t k).length
    · rw [if_pos hk, if_neg (by simp), ih (ws ++ [(t, k)]),
        List.filter_cons_of_pos (by simpa using hk)]
      simp
    · rw [if_neg hk, ih ws, List.filter_cons_of_neg (by simpa using hk)]

theorem ExGraph.checkKeys_strict_ok (G : ExGraph) (t : Nat) :
    ∀ (ks : List String) (ws : List (Nat × String)),
      (∀ k ∈ ks, (G.computed t k).length ≤ 1) →
      G.checkKeys true t ks ws = .ok ws := by
  intro ks
  induction ks with
  | nil => intro ws _; simp [ExGraph.checkKeys]
  | cons k ks ih =>
    intro ws hks
    rw [ExGraph.checkKeys]
    rw [if_neg (by
      have := hks k (List.mem_cons_self k ks)
      omega)]
    exact ih ws (fun k' hk' => hks k' (List.mem_cons_of_mem _ hk'))

theorem ExGraph.checkKeys_strict_error (G : ExGraph) (t : Nat) :
    ∀ (ks : List String) (ws : List (Nat × String)),
      (∃ k ∈ ks, 1 < (G.computed t k).length) →
      ∃ k, G.checkKeys true t ks ws = .error (t, k) ∧
        1 < (G.computed t k).length := by
  intro ks
  induction ks with
  | nil => rintro ws ⟨k, hk, _⟩; simp at hk
  | cons k ks ih =>
    rintro ws ⟨k', hk', hc⟩
    rw [ExGraph.checkKeys]
    by_cases hk : 1 < (G.computed t k).length
    · exact ⟨k, by rw [if_pos hk, if_pos rfl], hk⟩
    · rw [if_neg hk]
      refine ih ws ⟨k', ?_, hc⟩
      rcases List.mem_cons.mp hk' with h | h
      · exact absurd (h ▸ hc) hk
      · exact h

/-- In strict mode the fold over targets errors exactly when some
target is conflicted. -/
theorem ExGraph.execRoots_strict_iff (G : ExGraph) :
    ∀ (ts : List Nat) (ws : List (Nat × String)),
      (∃ e, G.execRoots true ts ws = .error e) ↔
      ∃ t ∈ ts, ∃ k, 1 < (G.computed t k).length := by
  intro ts
  induction ts with
  | nil =>
    intro ws
    constructor
    · rintro ⟨e, he⟩; simp [ExGraph.execRoots] at he
    · rintro ⟨t, ht, _⟩; simp at ht
  | cons t ts ih =>
    intro ws
    rw [ExGraph.execRoots]
    constructor
    · intro he
      by_cases hc : ∃ k, 1 < (G.computed t k).length
      · obtain ⟨k, hk⟩ := hc
        exact ⟨t, List.mem_cons_self t ts, k, hk⟩
      · push_neg at hc
        have hok : G.checkTarget true t ws = .ok ws := by
          refine G.checkKeys_strict_ok t (G.computedKeys t) ws ?_
          intro k _
          have := hc k
          omega
        rw [hok] at he
        obtain ⟨t', ht', hk⟩ := (ih ws).mp he
        exact ⟨t', List.mem_cons_of_mem _ ht', hk⟩
    · rintro ⟨t', ht', k, hk⟩
      rcases List.mem_cons.mp ht' with h | h
      · subst h
        obtain ⟨k0, hfold, _⟩ := G.checkKeys_strict_error t'
          (G.computedKeys t') ws ⟨k, G.computedKeys_of_conflict t' k hk, hk⟩
        rw [show G.checkTarget true t' ws = .error (t', k0) from hfold]
        exact ⟨(t', k0), rfl⟩
      · cases hstep : G.checkTarget true t ws with
        | error e => exact ⟨e, rfl⟩
        | ok ws' => exact (ih ws').mpr ⟨t', h, k, hk⟩

/-- In warn mode the fold returns normally; the accumulated warnings
are exactly the (target, key) collisions. -/
theorem ExGraph.execRoots_warn_mem (G : ExGraph) :
    ∀ (ts : List Nat) (ws : List (Nat × String)),
      ∃ warns, G.execRoots false ts ws = .ok warns ∧
        ∀ t k, (t, k) ∈ warns ↔
          ((t, k) ∈ ws ∨ (t ∈ ts ∧ k ∈ G.computedKeys t ∧
            1 < (G.computed t k).length)) := by
  intro ts
  induction ts with
  | nil =>
    intro ws
    refine ⟨ws, by simp [ExGraph.execRoots], ?_⟩
    intro t k
    simp
  | cons t ts ih =>
    intro ws
    rw [ExGraph.execRoots]
    rw [show G.checkTarget false t ws = _ from G.checkKeys_warn t (G.computedKeys t) ws]
    obtain ⟨warns, hw, hmem⟩ := ih _
    refine ⟨warns, hw, ?_⟩
    intro t' k'
    rw [hmem t' k']
    constructor
    · rintro (h | ⟨h1, h2, h3⟩)
      · rcases List.mem_append.mp h with h | h
        · exact Or.inl h
        · rw [List.mem_map] at h
          obtain ⟨k0, hk0, heq⟩ := h
          rw [List.mem_filter] at hk0
          have heq1 : t = t' := congrArg Prod.fst heq
          have heq2 : k0 = k' := congrArg Prod.snd heq
          refine Or.inr ⟨heq1 ▸ List.mem_cons_self t ts, ?_, ?_⟩
          · exact heq1 ▸ heq2 ▸ hk0.1
          · have := of_decide_eq_true hk0.2
            exact heq1 ▸ heq2 ▸ this
      · exact Or.inr ⟨List.mem_cons_of_mem _ h1, h2, h3⟩
    · rintro (h | ⟨h1, h2, h3⟩)
      · exact Or.inl (List.mem_append_left _ h)
      · rcases List.mem_cons.mp h1 with h1 | h1
        · subst h1
          refine Or.inl (List.mem_append_right _ ?_)
          rw [List.mem_map]
          exact ⟨k', List.mem_filter.mpr ⟨h2, decide_eq_true h3⟩, rfl⟩
        · exact Or.inr ⟨h1, h2, h3⟩


/-- C4: `CheckExclusives.execute` over root targets `ts`: in strict mode
it raises a fatal `TaskError` exactly when some target's computed
exclusives map has a key with more than one value; in warn mode it
returns normally, emitting a warning for precisely the conflicted
targets; and with no conflicted target it raises no error in either
mode. -/
theorem check_exclusives_execute_spec (G : ExGraph) (ts : List Nat) :
    ((∃ e, G.checkExclusivesExecute true ts = .error e) ↔
      ∃ t ∈ ts, ∃ k, 1 < (G.computed t k).length) ∧
    (∃ warns, G.checkExclusivesExecute false ts = .ok warns ∧
      (∀ t ∈ ts, ((∃ k, 1 < (G.computed t k).length) ↔
        ∃ k, (t, k) ∈ warns)) ∧
      (∀ t k, (t, k) ∈ warns → t ∈ ts ∧ 1 < (G.computed t k).length)) ∧
    ((∀ t ∈ ts, ∀ k, (G.computed t k).length ≤ 1) →
      ∀ mode, ∃ ws, G.checkExclusivesExecute mode ts = .ok ws) := by
  refine ⟨G.execRoots_strict_iff ts [], ?_, ?_⟩
  · obtain ⟨warns, hw, hmem⟩ := G.execRoots_warn_mem ts []
    refine ⟨warns, hw, ?_, ?_⟩
    · intro t ht
      constructor
      · rintro ⟨k, hk⟩
        refine ⟨k, (hmem t k).mpr (Or.inr ⟨ht, ?_, hk⟩)⟩
        exact G.computedKeys_of_conflict t k hk
      · rintro ⟨k, hk⟩
        rcases (hmem t k).mp hk with h | ⟨_, _, h⟩
        · simp at h
        · exact ⟨k, h⟩
    · intro t k hk
      rcases (hmem t k).mp hk with h | ⟨h1, _, h3⟩
      · simp at h
      · exact ⟨h1, h3⟩
  · intro hno mode
    cases mode with
    | false =>
      obtain ⟨warns, hw, _⟩ := G.execRoots_warn_mem ts []
      exact ⟨warns, hw⟩
    | true =>
      cases hres : G.checkExclusivesExecute true ts with
      | ok ws => exact ⟨ws, rfl⟩
      | error e =>
        obtain ⟨t, ht, k, hk⟩ := (G.execRoots_strict_iff ts []).mp ⟨e, hres⟩
        have := hno t ht k
        omega

/-- Witness for C4 at `sampleExGraph`: target 0 transitively sees both
a:1 and a:2, a conflict. -/
theorem check_exclusives_execute_spec_witness :
    ((∃ e, sampleExGraph.checkExclusivesExecute true [0] = .error e) ↔
      ∃ t ∈ [0], ∃ k, 1 < (sampleExGraph.computed t k).length) ∧
    (∃ warns, sampleExGraph.checkExclusivesExecute false [0] = .ok warns ∧
      (∀ t ∈ [0], ((∃ k, 1 < (sampleExGraph.computed t k).length) ↔
        ∃ k, (t, k) ∈ warns)) ∧
      (∀ t k, (t, k) ∈ warns → t ∈ [0] ∧
        1 < (sampleExGraph.computed t k).length)) ∧
    ((∀ t ∈ [0], ∀ k, (sampleExGraph.computed t k).length ≤ 1) →
      ∀ mode, ∃ ws, sampleExGraph.checkExclusivesExecute mode [0] = .ok ws) :=
  check_exclusives_execute_spec sampleExGraph [0]

/-! ## Group.compute_exclusives_chunks (`goal/group.py`)

Targets here carry their already-propagated exclusives map
(`t.exclusives`); `CheckExclusives` has run before `_create_chunks`, so
the `t.exclusives is not None` guard always passes.  Python sets of
values are insertion-ordered duplicate-free lists; `list(set)[0]` is the
head. -/

structure TargetEx where
  tid : Nat
  ex : List (String × List String)
deriving Repr, DecidableEq

/-- `t.exclusives[k]` on the defaultdict: the value set for `k`, or the
empty set. -/
def lookupEx (m : List (String × List String)) (k : String) : List String :=
  match m.find? (fun pr => decide (pr.1 = k)) with
  | some pr => pr.2
  | none => []

/-- `exclusives_map[k] |= vs` on a defaultdict(set). -/
def updateAssoc : List (String × List String) → String → List String →
    List (String × List String)
  | [], k, vs => [(k, listUnion [] vs)]
  | (k', vs') :: rest, k, vs =>
    if k' = k then (k', listUnion vs' vs) :: rest
    else (k', vs') :: updateAssoc rest k vs

/-- The global exclusives map over all targets
(`for t in targets: for k in t.exclusives: exclusives_map[k] |= ...`). -/
def globalExMap (targets : List TargetEx) : List (String × List String) :=
  targets.foldl (fun m t => t.ex.foldl (fun m pr => updateAssoc m pr.1 pr.2) m) []

/-- `conflicting_keys`: the keys whose global value set has more than
one element, in map insertion order. -/
def conflictingKeys (targets : List TargetEx) : List String :=
  ((globalExMap targets).filter (fun pr => decide (1 < pr.2.length))).map
    (fun pr => pr.1)

/-- One component of a target's group key: the sole value
(`list(t.exclusives[k])[0]`) or the literal `"none"`. -/
def chunkKeyVal (t : TargetEx) (k : String) : String :=
  match lookupEx t.ex k with
  | [] => "none"
  | v :: _ => v

/-- Python's `str` of a list of strings, e.g. `str(['1']) = "['1']"`. -/
def pythonStrList (xs : List String) : String :=
  "[" ++ String.intercalate ", " (xs.map (fun s => "'" ++ s ++ "'")) ++ "]"

/-- `str(target_key)`: the chunk key of a target. -/
def chunkKey (ckeys : List String) (t : TargetEx) : String :=
  pythonStrList (ckeys.map (chunkKeyVal t))

/-- `chunks[str(target_key)].append(t)` on a defaultdict(list). -/
def addChunk : List (String × List TargetEx) → String → TargetEx →
    List (String × List TargetEx)
  | [], key, t => [(key, [t])]
  | (key', ts') :: rest, key, t =>
    if key' = key then (key', ts' ++ [t]) :: rest
    else (key', ts') :: addChunk rest key t

/-- `Group.compute_exclusives_chunks`. -/
def computeExclusivesChunks (targets : List TargetEx) :
    List (String × List TargetEx) :=
  targets.foldl (fun ch t => addChunk ch (chunkKey (conflictingKeys targets) t) t) []

/-- Lookup of one chunk by its key. -/
def lookupChunk (chunks : List (String × List TargetEx)) (key : String) :
    List TargetEx :=
  match chunks.find? (fun pr => decide (pr.1 = key)) with
  | some pr => pr.2
  | none => []

theorem lookupEx_nil (k : String) : lookupEx [] k = [] := rfl

theorem lookupEx_cons (k' : String) (vs : List String)
    (m : List (String × List String)) (k : String) :
    lookupEx ((k', vs) :: m) k = if k' = k then vs else lookupEx m k := by
  unfold lookupEx
  rw [List.find?_cons]
  by_cases h : k' = k
  · simp [h]
  · simp [h]

theorem lookupEx_updateAssoc (m : List (String × List String))
    (k : String) (vs : List String) (k' : String) :
    lookupEx (updateAssoc m k vs) k' =
      if k' = k then listUnion (lookupEx m k) vs else lookupEx m k' := by
  induction m with
  | nil =>
    rw [show updateAssoc [] k vs = [(k, listUnion [] vs)] from rfl,
      lookupEx_cons, lookupEx_nil, lookupEx_nil]
    by_cases h : k' = k
    · rw [if_pos h.symm, if_pos h]
    · rw [if_neg (fun hc => h hc.symm), if_neg h]
  | cons pr rest ih =>
    obtain ⟨k0, vs0⟩ := pr
    rw [show updateAssoc ((k0, vs0) :: rest) k vs =
      (if k0 = k then (k0, listUnion vs0 vs) :: rest
       else (k0, vs0) :: updateAssoc rest k vs) from rfl]
    by_cases h0 : k0 = k <;> by_cases h1 : k0 = k'
    · have h2 : k' = k := by rw [← h1, h0]
      simp [h0, h1, h2, lookupEx_cons]
    · have h2 : ¬ k' = k := fun hc => h1 (by rw [h0, ← hc])
      have h3 : ¬ k = k' := fun hc => h1 (h0.trans hc)
      simp [h0, h1, h2, h3, lookupEx_cons]
    · have h2 : ¬ k' = k := fun hc => h0 (by rw [h1, hc])
      simp [h0, h1, h2, lookupEx_cons, ih]
    · simp [h0, h1, lookupEx_cons, ih]

theorem updateAssoc_keys (m : List (String × List String)) (k : String)
    (vs : List String) :
    (updateAssoc m k vs).map (fun pr => pr.1) =
      if k ∈ m.map (fun pr => pr.1) then m.map (fun pr => pr.1)
      else m.map (fun pr => pr.1) ++ [k] := by
  induction m with
  | nil => simp [updateAssoc]
  | cons pr rest ih =>
    obtain ⟨k0, vs0⟩ := pr
    rw [show updateAssoc ((k0, vs0) :: rest) k vs =
      (if k0 = k then (k0, listUnion vs0 vs) :: rest
       else (k0, vs0) :: updateAssoc rest k vs) from rfl]
    by_cases h0 : k0 = k
    · rw [if_pos h0]
      simp [h0]
    · rw [if_neg h0]
      simp only [List.map_cons, ih, List.mem_cons]
      by_cases hk : k ∈ rest.map (fun pr => pr.1)
      · rw [if_pos hk, if_pos (Or.inr hk)]
      · rw [if_neg hk, if_neg (by
          rintro (h | h)
          · exact h0 h.symm
          · exact hk h)]
        simp

theorem updateAssoc_values_nodup (m : List (String × List String))
    (k : String) (vs : List String) (h : ∀ pr ∈ m, pr.2.Nodup) :
    ∀ pr ∈ updateAssoc m k vs, pr.2.Nodup := by
  induction m with
  | nil =>
    intro pr hpr
    rw [show updateAssoc [] k vs = [(k, listUnion [] vs)] from rfl] at hpr
    rw [List.mem_singleton] at hpr
    subst hpr
    exact nodup_listUnion [] vs List.nodup_nil
  | cons pr0 rest ih =>
    obtain ⟨k0, vs0⟩ := pr0
    intro pr hpr
    rw [show updateAssoc ((k0, vs0) :: rest) k vs =
      (if k0 = k then (k0, listUnion vs0 vs) :: rest
       else (k0, vs0) :: updateAssoc rest k vs) from rfl] at hpr
    by_cases h0 : k0 = k
    · rw [if_pos h0] at hpr
      rcases List.mem_cons.mp hpr with hpr | hpr
      · subst hpr
        exact nodup_listUnion vs0 vs (h (k0, vs0) (List.mem_cons_self _ _))
      · exact h pr (List.mem_cons_of_mem _ hpr)
    · rw [if_neg h0] at hpr
      rcases List.mem_cons.mp hpr with hpr | hpr
      · subst hpr
        exact h (k0, vs0) (List.mem_cons_self _ _)
      · exact ih (fun pr' hpr' => h pr' (List.mem_cons_of_mem _ hpr')) pr hpr

theorem updateAssoc_keys_nodup (m : List (String × List String))
    (k : String) (vs : List String)
    (h : (m.map (fun pr => pr.1)).Nodup) :
    ((updateAssoc m k vs).map (fun pr => pr.1)).Nodup := by
  rw [updateAssoc_keys]
  by_cases hk : k ∈ m.map (fun pr => pr.1)
  · rw [if_pos hk]; exact h
  · rw [if_neg hk]
    simp [List.nodup_append, h, hk]

theorem mem_lookup_foldPairs (prs : List (String × List String)) :
    ∀ (m : List (String × List String)) (k : String) (v : String),
      v ∈ lookupEx (prs.foldl (fun m pr => updateAssoc m pr.1 pr.2) m) k ↔
        (v ∈ lookupEx m k ∨ ∃ pr ∈ prs, pr.1 = k ∧ v ∈ pr.2) := by
  induction prs with
  | nil => intro m k v; simp
  | cons pr prs ih =>
    intro m k v
    simp only [List.foldl_cons]
    rw [ih (updateAssoc m pr.1 pr.2) k v, lookupEx_updateAssoc]
    by_cases hk : k = pr.1
    · rw [if_pos hk, mem_listUnion]
      constructor
      · rintro ((h | h) | ⟨pr', hpr', hk', hv⟩)
        · exact Or.inl (hk ▸ h)
        · exact Or.inr ⟨pr, List.mem_cons_self pr prs, hk.symm, h⟩
        · exact Or.inr ⟨pr', List.mem_cons_of_mem _ hpr', hk', hv⟩
      · rintro (h | ⟨pr', hpr', hk', hv⟩)
        · exact Or.inl (Or.inl (hk ▸ h))
        · rcases List.mem_cons.mp hpr' with hpr' | hpr'
          · exact Or.inl (Or.inr (hpr' ▸ hv))
          · exact Or.inr ⟨pr', hpr', hk', hv⟩
    · rw [if_neg hk]
      constructor
      · rintro (h | ⟨pr', hpr', hk', hv⟩)
        · exact Or.inl h
        · exact Or.inr ⟨pr', List.mem_cons_of_mem _ hpr', hk', hv⟩
      · rintro (h | ⟨pr', hpr', hk', hv⟩)
        · exact Or.inl h
        · rcases List.mem_cons.mp hpr' with hpr' | hpr'
          · exact absurd (hpr' ▸ hk') (fun hc => hk hc.symm)
          · exact Or.inr ⟨pr', hpr', hk', hv⟩

theorem mem_lookup_globalAux (ts : List TargetEx) :
    ∀ (m : List (String × List String)) (k : String) (v : String),
      v ∈ lookupEx (ts.foldl (fun m t =>
          t.ex.foldl (fun m pr => updateAssoc m pr.1 pr.2) m) m) k ↔
        (v ∈ lookupEx m k ∨ ∃ t ∈ ts, ∃ pr ∈ t.ex, pr.1 = k ∧ v ∈ pr.2) := by
  induction ts with
  | nil => intro m k v; simp
  | cons t ts ih =>
    intro m k v
    simp only [List.foldl_cons]
    rw [ih _ k v, mem_lookup_foldPairs]
    constructor
    · rintro ((h | ⟨pr, hpr, hk, hv⟩) | ⟨t', ht', hrest⟩)
      · exact Or.inl h
      · exact Or.inr ⟨t, List.mem_cons_self t ts, pr, hpr, hk, hv⟩
      · exact Or.inr ⟨t', List.mem_cons_of_mem _ ht', hrest⟩
    · rintro (h | ⟨t', ht', hrest⟩)
      · exact Or.inl (Or.inl h)
      · rcases List.mem_cons.mp ht' with ht' | ht'
        · exact Or.inl (Or.inr (ht' ▸ hrest))
        · exact Or.inr ⟨t', ht', hrest⟩

theorem mem_lookup_globalExMap (ts : List TargetEx) (k : String) (v : String) :
    v ∈ lookupEx (globalExMap ts) k ↔
      ∃ t ∈ ts, ∃ pr ∈ t.ex, pr.1 = k ∧ v ∈ pr.2 := by
  rw [globalExMap, mem_lookup_globalAux]
  simp [lookupEx_nil]

/-- With duplicate-free keys (a Python dict), membership in the
defaultdict lookup coincides with membership in some entry. -/
theorem mem_lookupEx_iff_entry (m : List (String × List String))
    (hm : (m.map (fun pr => pr.1)).Nodup) (k : String) (v : String) :
    v ∈ lookupEx m k ↔ ∃ pr ∈ m, pr.1 = k ∧ v ∈ pr.2 := by
  induction m with
  | nil => simp [lookupEx_nil]
  | cons pr0 rest ih =>
    obtain ⟨k0, vs0⟩ := pr0
    rw [List.map_cons, List.nodup_cons] at hm
    rw [lookupEx_cons]
    by_cases h0 : k0 = k
    · rw [if_pos h0]
      constructor
      · intro hv
        exact ⟨(k0, vs0), List.mem_cons_self _ _, h0, hv⟩
      · rintro ⟨pr, hpr, hk, hv⟩
        rcases List.mem_cons.mp hpr with hpr | hpr
        · rw [hpr] at hv; exact hv
        · exact absurd (show k0 ∈ rest.map (fun pr => pr.1) by
            rw [List.mem_map]
            exact ⟨pr, hpr, by rw [hk, h0]⟩) hm.1
    · rw [if_neg h0, ih hm.2]
      constructor
      · rintro ⟨pr, hpr, hk, hv⟩
        exact ⟨pr, List.mem_cons_of_mem _ hpr, hk, hv⟩
      · rintro ⟨pr, hpr, hk, hv⟩
        rcases List.mem_cons.mp hpr with hpr | hpr
        · exact absurd (by rw [hpr] at hk; exact hk) h0
        · exact ⟨pr, hpr, hk, hv⟩

theorem globalExMap_keys_nodup (ts : List TargetEx) :
    ((globalExMap ts).map (fun pr => pr.1)).Nodup := by
  rw [globalExMap]
  suffices H : ∀ (m : List (String × List String)),
      (m.map (fun pr => pr.1)).Nodup →
      ((ts.foldl (fun m t =>
        t.ex.foldl (fun m pr => updateAssoc m pr.1 pr.2) m) m).map
          (fun pr => pr.1)).Nodup from H [] List.nodup_nil
  induction ts with
  | nil => intro m hm; exact hm
  | cons t ts ih =>
    intro m hm
    simp only [List.foldl_cons]
    refine ih _ ?_
    clear ih
    induction t.ex generalizing m with
    | nil => exact hm
    | cons pr prs ih2 =>
      simp only [List.foldl_cons]
      exact ih2 _ (updateAssoc_keys_nodup m pr.1 pr.2 hm)

theorem globalExMap_values_nodup (ts : List TargetEx) :
    ∀ pr ∈ globalExMap ts, pr.2.Nodup := by
  rw [globalExMap]
  suffices H : ∀ (m : List (String × List String)),
      (∀ pr ∈ m, pr.2.Nodup) →
      ∀ pr ∈ ts.foldl (fun m t =>
        t.ex.foldl (fun m pr => updateAssoc m pr.1 pr.2) m) m, pr.2.Nodup from
    H [] (by simp)
  induction ts with
  | nil => intro m hm; exact hm
  | cons t ts ih =>
    intro m hm
    simp only [List.foldl_cons]
    refine ih _ ?_
    clear ih
    induction t.ex generalizing m with
    | nil => exact hm
    | cons pr prs ih2 =>
      simp only [List.foldl_cons]
      exact ih2 _ (updateAssoc_values_nodup m pr.1 pr.2 hm)

theorem lookupEx_entry (m : List (String × List String)) (k : String)
    (h : lookupEx m k ≠ []) :
    ∃ pr ∈ m, pr.1 = k ∧ pr.2 = lookupEx m k := by
  unfold lookupEx at *
  cases hf : m.find? (fun pr => decide (pr.1 = k)) with
  | none => exact absurd rfl (hf ▸ h)
  | some pr =>
    have hmem := List.mem_of_find?_eq_some hf
    have hp := List.find?_some hf
    exact ⟨pr, hmem, of_decide_eq_true hp, rfl⟩

theorem lookupEx_of_entry (m : List (String × List String))
    (hm : (m.map (fun pr => pr.1)).Nodup) (pr : String × List String)
    (hpr : pr ∈ m) : lookupEx m pr.1 = pr.2 := by
  induction m with
  | nil => simp at hpr
  | cons pr0 rest ih =>
    obtain ⟨k0, vs0⟩ := pr0
    rw [List.map_cons, List.nodup_cons] at hm
    rw [lookupEx_cons]
    rcases List.mem_cons.mp hpr with hpr | hpr
    · rw [hpr]
      rw [if_pos rfl]
    · rw [if_neg (fun hc : k0 = pr.1 => hm.1 (by
        rw [List.mem_map]
        exact ⟨pr, hpr, hc.symm⟩))]
      exact ih hm.2 hpr

theorem nodup_one_lt_length_iff (l : List String) (h : l.Nodup) :
    1 < l.length ↔ ∃ a b, a ≠ b ∧ a ∈ l ∧ b ∈ l := by
  constructor
  · intro hl
    match l, hl with
    | a :: b :: rest, _ =>
      rw [List.nodup_cons] at h
      exact ⟨a, b, fun hc => h.1 (hc ▸ List.mem_cons_self b rest),
        List.mem_cons_self _ _,
        List.mem_cons_of_mem _ (List.mem_cons_self _ _)⟩
  · rintro ⟨a, b, hne, ha, hb⟩
    match l with
    | [] => simp at ha
    | [x] =>
      rw [List.mem_singleton] at ha hb
      exact absurd (ha.trans hb.symm) hne
    | x :: y :: rest => simp

/-- The partition axes are exactly the keys whose value set, unioned
over all targets, has more than one element. -/
theorem mem_conflictingKeys_iff (ts : List TargetEx)
    (hkeys : ∀ t ∈ ts, ((t.ex.map (fun pr => pr.1)).Nodup)) (k : String) :
    k ∈ conflictingKeys ts ↔
      ∃ v w, v ≠ w ∧ (∃ t ∈ ts, v ∈ lookupEx t.ex k) ∧
        (∃ t ∈ ts, w ∈ lookupEx t.ex k) := by
  have hglobal : ∀ v, v ∈ lookupEx (globalExMap ts) k ↔
      ∃ t ∈ ts, v ∈ lookupEx t.ex k := by
    intro v
    rw [mem_lookup_globalExMap]
    constructor
    · rintro ⟨t, ht, pr, hpr, hk, hv⟩
      refine ⟨t, ht, ?_⟩
      rw [mem_lookupEx_iff_entry t.ex (hkeys t ht)]
      exact ⟨pr, hpr, hk, hv⟩
    · rintro ⟨t, ht, hv⟩
      rw [mem_lookupEx_iff_entry t.ex (hkeys t ht)] at hv
      obtain ⟨pr, hpr, hk, hv⟩ := hv
      exact ⟨t, ht, pr, hpr, hk, hv⟩
  constructor
  · intro hk
    rw [conflictingKeys, List.mem_map] at hk
    obtain ⟨pr, hpr, hk⟩ := hk
    rw [List.mem_filter] at hpr
    have hlen := of_decide_eq_true hpr.2
    have hval : lookupEx (globalExMap ts) k = pr.2 := by
      rw [← hk]; exact lookupEx_of_entry _ (globalExMap_keys_nodup ts) pr hpr.1
    have hnd : pr.2.Nodup := globalExMap_values_nodup ts pr hpr.1
    obtain ⟨a, b, hne, ha, hb⟩ := (nodup_one_lt_length_iff pr.2 hnd).mp hlen
    exact ⟨a, b, hne, (hglobal a).mp (hval ▸ ha), (hglobal b).mp (hval ▸ hb)⟩
  · rintro ⟨v, w, hne, hv, hw⟩
    have hv' := (hglobal v).mpr hv
    have hw' := (hglobal w).mpr hw
    have hne' : lookupEx (globalExMap ts) k ≠ [] := by
      intro hc; rw [hc] at hv'; simp at hv'
    obtain ⟨pr, hpr, hk, hval⟩ := lookupEx_entry _ k hne'
    rw [conflictingKeys, List.mem_map]
    refine ⟨pr, ?_, hk⟩
    rw [List.mem_filter]
    refine ⟨hpr, decide_eq_true ?_⟩
    have hnd : pr.2.Nodup := globalExMap_values_nodup ts pr hpr
    rw [nodup_one_lt_length_iff pr.2 hnd]
    exact ⟨v, w, hne, hval ▸ hv', hval ▸ hw'⟩

theorem lookupChunk_nil (key : String) : lookupChunk [] key = [] := rfl

theorem lookupChunk_cons (key' : String) (ts' : List TargetEx)
    (rest : List (String × List TargetEx)) (key : String) :
    lookupChunk ((key', ts') :: rest) key =
      if key' = key then ts' else lookupChunk rest key := by
  unfold lookupChunk
  rw [List.find?_cons]
  by_cases h : key' = key
  · simp [h]
  · simp [h]

theorem lookupChunk_addChunk (ch : List (String × List TargetEx))
    (key : String) (t : TargetEx) (key' : String) :
    lookupChunk (addChunk ch key t) key' =
      if key' = key then lookupChunk ch key ++ [t] else lookupChunk ch key' := by
  induction ch with
  | nil =>
    rw [show addChunk [] key t = [(key, [t])] from rfl, lookupChunk_cons]
    simp only [lookupChunk_nil]
    by_cases h : key' = key
    · rw [if_pos h.symm, if_pos h]
      rfl
    · rw [if_neg (fun hc => h hc.symm), if_neg h]
  | cons pr rest ih =>
    obtain ⟨k0, ts0⟩ := pr
    rw [show addChunk ((k0, ts0) :: rest) key t =
      (if k0 = key then (k0, ts0 ++ [t]) :: rest
       else (k0, ts0) :: addChunk rest key t) from rfl]
    by_cases h0 : k0 = key <;> by_cases h1 : k0 = key'
    · have h2 : key' = key := by rw [← h1, h0]
      simp [h0, h1, h2, lookupChunk_cons]
    · have h2 : ¬ key' = key := fun hc => h1 (by rw [h0, ← hc])
      have h3 : ¬ key = key' := fun hc => h1 (h0.trans hc)
      simp [h0, h1, h2, h3, lookupChunk_cons]
    · have h2 : ¬ key' = key := fun hc => h0 (by rw [h1, hc])
      simp [h0, h1, h2, lookupChunk_cons, ih]
    · simp [h0, h1, lookupChunk_cons, ih]

/-- The content of a chunk, after folding the targets in, is the input
order filter of the targets whose group key matches. -/
theorem lookupChunk_fold (ckeys : List String) :
    ∀ (ts : List TargetEx) (ch : List (String × List TargetEx)) (key : String),
      lookupChunk (ts.foldl (fun ch t => addChunk ch (chunkKey ckeys t) t) ch) key =
        lookupChunk ch key ++
          ts.filter (fun t => decide (chunkKey ckeys t = key)) := by
  intro ts
  induction ts with
  | nil => intro ch key; simp
  | cons t ts ih =>
    intro ch key
    simp only [List.foldl_cons]
    rw [ih (addChunk ch (chunkKey ckeys t) t) key, lookupChunk_addChunk]
    by_cases h : key = chunkKey ckeys t
    · subst h
      rw [if_pos rfl, List.filter_cons_of_pos (by simp), List.append_assoc]
      rfl
    · rw [if_neg h, List.filter_cons_of_neg (by
        simp only [decide_eq_true_eq]
        exact fun hc => h hc.symm)]

/-- `t₁ = {x: 1}`, `t₂ = {x: 2}`, `t₃ = {}`. -/
def exT1 : TargetEx := ⟨0, [("x", ["1"])]⟩

/-- Second sentinel-counterexample target. -/
def exT2 : TargetEx := ⟨1, [("x", ["2"])]⟩

/-- A target with no value for the axis key `x`. -/
def exT3 : TargetEx := ⟨2, []⟩

/-- Counterexample to C3 as stated: the sentinel the code uses for a
missing axis value is the literal `"none"`, not `"<none>"`: target `t₃`
lands in the chunk keyed `"['none']"`, and no chunk is keyed
`"['<none>']"`. -/
theorem group_chunks_sentinel_counterexample :
    conflictingKeys [exT1, exT2, exT3] = ["x"] ∧
    chunkKey (conflictingKeys [exT1, exT2, exT3]) exT3 = "['none']" ∧
    exT3 ∈ lookupChunk (computeExclusivesChunks [exT1, exT2, exT3]) "['none']" ∧
    lookupChunk (computeExclusivesChunks [exT1, exT2, exT3]) "['<none>']" = [] := by
  decide

/-- The spec's concrete partitioning example (computed exclusives after
propagation): a = {a:1, b:1}. -/
def exA : TargetEx := ⟨0, [("a", ["1"]), ("b", ["1"])]⟩

/-- b = {a:1}. -/
def exB : TargetEx := ⟨1, [("a", ["1"])]⟩

/-- c = {a:2}. -/
def exC : TargetEx := ⟨2, [("a", ["2"])]⟩

/-- d (deps a, b) = {a:1, b:1}. -/
def exD : TargetEx := ⟨3, [("a", ["1"]), ("b", ["1"])]⟩

/-- C3 (amended: the sentinel for a missing axis value is `"none"`, not
`"<none>"`): the partition axes are exactly the keys whose value set
unioned over all targets has more than one element; every target is
assigned to the chunk keyed by the stringified tuple of its sole value
per axis key, with `"none"` when it has no value for that key; and on
the spec's example only `a` is an axis and the chunks are exactly
`{a, b, d}` under `"['1']"` and `{c}` under `"['2']"`. -/
theorem group_compute_exclusives_chunks_spec (ts : List TargetEx)
    (hkeys : ∀ t ∈ ts, ((t.ex.map (fun pr => pr.1)).Nodup)) :
    (∀ k, k ∈ conflictingKeys ts ↔
      ∃ v w, v ≠ w ∧ (∃ t ∈ ts, v ∈ lookupEx t.ex k) ∧
        (∃ t ∈ ts, w ∈ lookupEx t.ex k)) ∧
    (∀ key, lookupChunk (computeExclusivesChunks ts) key =
      ts.filter (fun t => decide (chunkKey (conflictingKeys ts) t = key))) ∧
    (∀ t ∈ ts, t ∈ lookupChunk (computeExclusivesChunks ts)
      (chunkKey (conflictingKeys ts) t)) ∧
    (∀ t k v, lookupEx t.ex k = [v] → chunkKeyVal t k = v) ∧
    (∀ t k, lookupEx t.ex k = [] → chunkKeyVal t k = "none") ∧
    (computeExclusivesChunks [exA, exB, exC, exD] =
      [("['1']", [exA, exB, exD]), ("['2']", [exC])] ∧
     conflictingKeys [exA, exB, exC, exD] = ["a"]) := by
  refine ⟨fun k => mem_conflictingKeys_iff ts hkeys k, ?_, ?_, ?_, ?_, by decide⟩
  · intro key
    rw [computeExclusivesChunks, lookupChunk_fold, lookupChunk_nil,
      List.nil_append]
  · intro t ht
    rw [computeExclusivesChunks, lookupChunk_fold, lookupChunk_nil,
      List.nil_append, List.mem_filter]
    exact ⟨ht, by simp⟩
  · intro t k v h
    rw [chunkKeyVal, h]
  · intro t k h
    rw [chunkKeyVal, h]

/-- Witness for C3 (amended) at the spec's example targets. -/
theorem group_compute_exclusives_chunks_spec_witness :
    (∀ k, k ∈ conflictingKeys [exA, exB, exC, exD] ↔
      ∃ v w, v ≠ w ∧ (∃ t ∈ [exA, exB, exC, exD], v ∈ lookupEx t.ex k) ∧
        (∃ t ∈ [exA, exB, exC, exD], w ∈ lookupEx t.ex k)) ∧
    (∀ key, lookupChunk (computeExclusivesChunks [exA, exB, exC, exD]) key =
      [exA, exB, exC, exD].filter (fun t =>
        decide (chunkKey (conflictingKeys [exA, exB, exC, exD]) t = key))) ∧
    (∀ t ∈ [exA, exB, exC, exD],
      t ∈ lookupChunk (computeExclusivesChunks [exA, exB, exC, exD])
        (chunkKey (conflictingKeys [exA, exB, exC, exD]) t)) ∧
    (∀ t k v, lookupEx t.ex k = [v] → chunkKeyVal t k = v) ∧
    (∀ t k, lookupEx t.ex k = [] → chunkKeyVal t k = "none") ∧
    (computeExclusivesChunks [exA, exB, exC, exD] =
      [("['1']", [exA, exB, exD]), ("['2']", [exC])] ∧
     conflictingKeys [exA, exB, exC, exD] = ["a"]) :=
  group_compute_exclusives_chunks_spec [exA, exB, exC, exD] (by decide)

/-! ## BuildFileParser (`base/build_file_parser.py`)

Build files are `Nat` ids; an address is `(build_file, target_name)`.
The external manifest evaluator (`compatibility.exec_function` over the
manifest source) is a parameter `evalBF` producing the registered
target names of a build file.  Failed `assert`s become `Except.error`.

Note that `parse_build_file` *checks* `build_file in
self._added_build_files` but only emits a debug log — there is no early
return — so the registration loop runs again on a re-parse. -/

structure ParserState where
  targetProxyByAddress : List (Nat × String)
  targetProxiesByBuildFile : List (Nat × List String)
  addressesByBuildFile : List (Nat × List (Nat × String))
  addedBuildFiles : List Nat
deriving Repr, DecidableEq

/-- `BuildFileParser.__init__`. -/
def ParserState.empty : ParserState := ⟨[], [], [], []⟩

/-- Lookup in a `defaultdict(set)` index. -/
def lookupIdx {α : Type} (m : List (Nat × List α)) (bf : Nat) : List α :=
  match m.find? (fun pr => decide (pr.1 = bf)) with
  | some pr => pr.2
  | none => []

/-- Add to a `defaultdict(set)` index. -/
def addIdx {α : Type} : List (Nat × List α) → Nat → α → List (Nat × List α)
  | [], bf, x => [(bf, [x])]
  | (bf', xs) :: rest, bf, x =>
    if bf' = bf then (bf', xs ++ [x]) :: rest
    else (bf', xs) :: addIdx rest bf x

/-- The registration loop of `parse_build_file` over the proxies the
evaluator produced: each address must be globally fresh and fresh for
this build file. -/
def registerProxies (bf : Nat) : List String → ParserState →
    Except String ParserState
  | [], st => .ok st
  | name :: rest, st =>
    if (bf, name) ∈ st.targetProxyByAddress then
      .error "address already in _target_proxy_by_address"
    else if (bf, name) ∈ lookupIdx st.addressesByBuildFile bf then
      .error "address has already been associated with build file"
    else
      registerProxies bf rest
        { st with
          targetProxyByAddress := st.targetProxyByAddress ++ [(bf, name)],
          targetProxiesByBuildFile :=
            addIdx st.targetProxiesByBuildFile bf name,
          addressesByBuildFile :=
            addIdx st.addressesByBuildFile bf (bf, name) }

/-- `BuildFileParser.parse_build_file`: evaluate the manifest, register
every produced proxy, then mark the build file as added.  The
`already been parsed` check at the top only logs. -/
def parseBuildFile (evalBF : Nat → List String) (st : ParserState)
    (bf : Nat) : Except String ParserState :=
  match registerProxies bf (evalBF bf) st with
  | .ok st' => .ok { st' with
      addedBuildFiles :=
        if bf ∈ st'.addedBuildFiles then st'.addedBuildFiles
        else st'.addedBuildFiles ++ [bf] }
  | .error e => .error e

/-- A dependency spec: `":sibling"` (skipped by the recursion) or a
spec resolving to a build file. -/
inductive DepSpec : Type where
  | sibling : String → DepSpec
  | file : Nat → DepSpec
deriving Repr, DecidableEq

/-- `BuildFileParser.add_build_file_spec`: parse the build file the
spec resolves to (unconditionally), then recursively add unparsed
build files referenced by the dependencies of its proxies. -/
def addBuildFileSpec (evalBF : Nat → List String)
    (deps : Nat → String → List DepSpec) :
    Nat → Nat → ParserState → Except String ParserState
  | 0, _, _ => .error "recursion limit"
  | fuel + 1, bf, st =>
    match parseBuildFile evalBF st bf with
    | .error e => .error e
    | .ok st1 =>
      ((lookupIdx st1.targetProxiesByBuildFile bf).flatMap
        (fun nm => deps bf nm)).foldlM
        (fun st spec =>
          match spec with
          | .sibling _ => .ok st
          | .file depBf =>
            if depBf ∈ st.addedBuildFiles then .ok st
            else addBuildFileSpec evalBF deps fuel depBf st) st1
termination_by fuel _ _ => fuel

/-- A one-target manifest: build file 0 registers target `foo`. -/
def sampleEval : Nat → List String := fun _ => ["foo"]

/-- No dependencies anywhere. -/
def sampleDeps : Nat → String → List DepSpec := fun _ _ => []

/-- The parser state after parsing build file 0 once. -/
def parsedOnceState : ParserState :=
  ⟨[(0, "foo")], [(0, ["foo"])], [(0, [(0, "foo")])], [0]⟩

/-- C6 (code bug): parsing is *not* idempotent.  A first
`parse_build_file` of a one-target build file succeeds and records it
in `_added_build_files`, but a second call re-runs the registration
loop (the already-parsed check has no `return`) and dies on the
`address not in self._target_proxy_by_address` assertion; likewise
`add_build_file_spec` re-parses unconditionally and fails the same
way. -/
theorem buildfileparser_reparse_fails :
    parseBuildFile sampleEval ParserState.empty 0 = .ok parsedOnceState ∧
    (0 : Nat) ∈ parsedOnceState.addedBuildFiles ∧
    parseBuildFile sampleEval parsedOnceState 0 =
      .error "address already in _target_proxy_by_address" ∧
    addBuildFileSpec sampleEval sampleDeps 2 0 parsedOnceState =
      .error "address already in _target_proxy_by_address" := by
  refine ⟨rfl, by decide, rfl, ?_⟩
  rw [addBuildFileSpec,
    show parseBuildFile sampleEval parsedOnceState 0 =
      .error "address already in _target_proxy_by_address" from rfl]

/-! ## LocalArtifactCache round trip (`cache/local_artifact_cache.py`,
`cache/artifact.py`)

`os.path.relpath(p, root)` for a path below `root` is the suffix after
`root`. -/

theorem FsPath.underEq_iff (a q : FsPath) :
    FsPath.underEq a q = true ↔ q.take a.length = a := by
  simp [FsPath.underEq]

theorem FsPath.strictUnder_iff (a q : FsPath) :
    FsPath.strictUnder a q = true ↔
      q.take a.length = a ∧ a.length < q.length := by
  simp [FsPath.strictUnder]

theorem FsPath.underEq_append (a r : FsPath) :
    FsPath.underEq a (a ++ r) = true := by
  rw [FsPath.underEq_iff]
  simpa using List.take_left a r

theorem FsPath.underEq_refl (a : FsPath) : FsPath.underEq a a = true := by
  simpa using FsPath.underEq_append a []

theorem FsPath.eq_append_drop (a q : FsPath) (h : FsPath.underEq a q = true) :
    a ++ q.drop a.length = q := by
  rw [FsPath.underEq_iff] at h
  conv_rhs => rw [← List.take_append_drop a.length q]
  rw [h]

theorem FsPath.underEq_of_strictUnder (a q : FsPath)
    (h : FsPath.strictUnder a q = true) : FsPath.underEq a q = true := by
  rw [FsPath.strictUnder_iff] at h
  rw [FsPath.underEq_iff]
  exact h.1

theorem FsPath.length_le_of_underEq (a q : FsPath)
    (h : FsPath.underEq a q = true) : a.length ≤ q.length := by
  rw [FsPath.underEq_iff] at h
  have := congrArg List.length h
  rw [List.length_take] at this
  omega

theorem FsPath.underEq_trans (a b q : FsPath)
    (hab : FsPath.underEq a b = true) (hbq : FsPath.underEq b q = true) :
    FsPath.underEq a q = true := by
  rw [FsPath.underEq_iff] at *
  have h1 := congrArg List.length hab
  rw [List.length_take] at h1
  have hlen : a.length ≤ b.length := min_eq_left_iff.mp h1
  calc q.take a.length = (q.take b.length).take a.length := by
        rw [List.take_take, min_eq_left hlen]
    _ = b.take a.length := by rw [hbq]
    _ = a := hab

theorem FsPath.underEq_comparable (a b q : FsPath)
    (ha : FsPath.underEq a q = true) (hb : FsPath.underEq b q = true) :
    FsPath.underEq a b = true ∨ FsPath.underEq b a = true := by
  rw [FsPath.underEq_iff] at ha hb
  rcases le_total a.length b.length with h | h
  · left
    rw [FsPath.underEq_iff]
    calc b.take a.length = (q.take b.length).take a.length := by rw [hb]
      _ = q.take a.length := by rw [List.take_take, min_eq_left h]
      _ = a := ha
  · right
    rw [FsPath.underEq_iff]
    calc a.take b.length = (q.take a.length).take b.length := by rw [ha]
      _ = q.take b.length := by rw [List.take_take, min_eq_left h]
      _ = b := hb

theorem FsPath.strictUnder_append (a : FsPath) (r : FsPath) (h : r ≠ []) :
    FsPath.strictUnder a (a ++ r) = true := by
  rw [FsPath.strictUnder_iff]
  refine ⟨by simpa using List.take_left a r, ?_⟩
  rw [List.length_append]
  have : 0 < r.length := List.length_pos.mpr h
  omega

theorem FsPath.drop_ne_nil (a q : FsPath)
    (h : FsPath.strictUnder a q = true) : q.drop a.length ≠ [] := by
  rw [FsPath.strictUnder_iff] at h
  intro hc
  have := congrArg List.length hc
  rw [List.length_drop] at this
  simp at this
  omega

theorem FsPath.underEq_append_iff (a r q : FsPath) :
    FsPath.underEq (a ++ r) q = true ↔
      FsPath.underEq a q = true ∧
        FsPath.underEq r (q.drop a.length) = true := by
  rw [FsPath.underEq_iff, FsPath.underEq_iff, FsPath.underEq_iff]
  constructor
  · intro h
    have hq : q = (a ++ r) ++ q.drop (a ++ r).length := by
      conv_lhs => rw [← List.take_append_drop (a ++ r).length q, h]
    constructor
    · rw [hq, List.append_assoc]
      simpa using List.take_left a (r ++ q.drop (a ++ r).length)
    · conv_lhs => rw [hq, List.append_assoc, List.drop_left]
      simpa using List.take_left r (q.drop (a ++ r).length)
  · intro ⟨h1, h2⟩
    have hq : q = a ++ q.drop a.length := by
      conv_lhs => rw [← List.take_append_drop a.length q, h1]
    have hq2 : q.drop a.length = r ++ (q.drop a.length).drop r.length := by
      conv_lhs => rw [← List.take_append_drop r.length (q.drop a.length), h2]
    conv_lhs => rw [hq, hq2, ← List.append_assoc]
    simpa using List.take_left (a ++ r) ((q.drop a.length).drop r.length)

theorem find?_write_self (p : FsPath) (c : String) :
    ∀ (l : List (FsPath × String)),
      (l.filter (fun pr => decide (pr.1 ≠ p)) ++ [(p, c)]).find?
        (fun pr => decide (pr.1 = p)) = some (p, c) := by
  intro l
  induction l with
  | nil =>
    rw [List.filter_nil, List.nil_append]
    exact List.find?_cons_of_pos _ (by simp)
  | cons pr0 rest ih =>
    by_cases h0 : pr0.1 = p
    · rw [List.filter_cons_of_neg (by simp [h0])]
      exact ih
    · rw [List.filter_cons_of_pos (by simp [h0]), List.cons_append,
        List.find?_cons_of_neg _ (by simp [h0])]
      exact ih

theorem find?_write_other (p q : FsPath) (c : String) (hq : q ≠ p) :
    ∀ (l : List (FsPath × String)),
      (l.filter (fun pr => decide (pr.1 ≠ p)) ++ [(p, c)]).find?
        (fun pr => decide (pr.1 = q)) =
      l.find? (fun pr => decide (pr.1 = q)) := by
  have hpq : p ≠ q := fun hc => hq hc.symm
  intro l
  induction l with
  | nil =>
    rw [List.filter_nil, List.nil_append, List.find?_nil,
      List.find?_cons_of_neg _ (by simp [hpq]), List.find?_nil]
  | cons pr0 rest ih =>
    by_cases h0 : pr0.1 = p
    · have h0q : pr0.1 ≠ q := fun hc => hpq (h0 ▸ hc)
      rw [List.filter_cons_of_neg (by simp [h0]),
        List.find?_cons_of_neg _ (by simp [h0q])]
      exact ih
    · rw [List.filter_cons_of_pos (by simp [h0]), List.cons_append]
      by_cases h1 : pr0.1 = q
      · rw [List.find?_cons_of_pos _ (by simp [h1]),
          List.find?_cons_of_pos _ (by simp [h1])]
      · rw [List.find?_cons_of_neg _ (by simp [h1]),
          List.find?_cons_of_neg _ (by simp [h1])]
        exact ih

theorem FileSys.fileContent_write (fs : FileSys) (p : FsPath) (c : String)
    (q : FsPath) :
    (fs.write p c).fileContent q =
      if q = p then some c else fs.fileContent q := by
  rw [FileSys.write, FileSys.fileContent, FileSys.fileContent]
  by_cases hq : q = p
  · rw [if_pos hq, hq]
    rw [show (FileSys.mk (fs.files.filter (fun pr => decide (pr.1 ≠ p)) ++
      [(p, c)])).files = fs.files.filter (fun pr => decide (pr.1 ≠ p)) ++
      [(p, c)] from rfl]
    rw [find?_write_self p c fs.files]
    rfl
  · rw [if_neg hq]
    rw [show (FileSys.mk (fs.files.filter (fun pr => decide (pr.1 ≠ p)) ++
      [(p, c)])).files = fs.files.filter (fun pr => decide (pr.1 ≠ p)) ++
      [(p, c)] from rfl]
    rw [find?_write_other p q c hq fs.files]

theorem find?_rmtree_under (d q : FsPath) (hq : FsPath.underEq d q = true) :
    ∀ (l : List (FsPath × String)),
      (l.filter (fun pr => !(FsPath.underEq d pr.1))).find?
        (fun pr => decide (pr.1 = q)) = none := by
  intro l
  induction l with
  | nil => simp
  | cons pr0 rest ih =>
    by_cases h0 : FsPath.underEq d pr0.1 = true
    · rw [List.filter_cons_of_neg (by simp [h0])]
      exact ih
    · have h0q : pr0.1 ≠ q := fun hc => h0 (hc ▸ hq)
      rw [List.filter_cons_of_pos (by simp [h0]),
        List.find?_cons_of_neg _ (by simp [h0q])]
      exact ih

theorem find?_rmtree_outside (d q : FsPath) (hq : ¬ FsPath.underEq d q = true) :
    ∀ (l : List (FsPath × String)),
      (l.filter (fun pr => !(FsPath.underEq d pr.1))).find?
        (fun pr => decide (pr.1 = q)) =
      l.find? (fun pr => decide (pr.1 = q)) := by
  intro l
  induction l with
  | nil => simp
  | cons pr0 rest ih =>
    by_cases h0 : FsPath.underEq d pr0.1 = true
    · have h0q : pr0.1 ≠ q := fun hc => hq (hc ▸ h0)
      rw [List.filter_cons_of_neg (by simp [h0]),
        List.find?_cons_of_neg _ (by simp [h0q])]
      exact ih
    · rw [List.filter_cons_of_pos (by simp [h0])]
      by_cases h1 : pr0.1 = q
      · rw [List.find?_cons_of_pos _ (by simp [h1]),
          List.find?_cons_of_pos _ (by simp [h1])]
      · rw [List.find?_cons_of_neg _ (by simp [h1]),
          List.find?_cons_of_neg _ (by simp [h1])]
        exact ih

theorem FileSys.fileContent_rmtree (fs : FileSys) (d : FsPath) (q : FsPath) :
    (fs.rmtree d).fileContent q =
      if FsPath.underEq d q then none else fs.fileContent q := by
  rw [FileSys.rmtree, FileSys.fileContent, FileSys.fileContent]
  by_cases hq : FsPath.underEq d q = true
  · rw [if_pos hq]
    rw [show (FileSys.mk (fs.files.filter (fun pr =>
      !(FsPath.underEq d pr.1)))).files = fs.files.filter (fun pr =>
      !(FsPath.underEq d pr.1)) from rfl]
    rw [find?_rmtree_under d q hq fs.files]
    rfl
  · rw [if_neg hq]
    rw [show (FileSys.mk (fs.files.filter (fun pr =>
      !(FsPath.underEq d pr.1)))).files = fs.files.filter (fun pr =>
      !(FsPath.underEq d pr.1)) from rfl]
    rw [find?_rmtree_outside d q hq fs.files]

theorem FileSys.fileContent_entry (fs : FileSys) (q : FsPath) (c : String)
    (h : fs.fileContent q = some c) : (q, c) ∈ fs.files := by
  rw [FileSys.fileContent] at h
  cases hf : fs.files.find? (fun pr => decide (pr.1 = q)) with
  | none => rw [hf] at h; simp at h
  | some pr =>
    rw [hf] at h
    simp only [Option.map_some'] at h
    have hmem := List.mem_of_find?_eq_some hf
    have hp0 := List.find?_some hf
    have hp := of_decide_eq_true hp0
    have : pr = (q, c) := by
      obtain ⟨p1, p2⟩ := pr
      simp only at hp h
      rw [Option.some.injEq] at h
      rw [hp, h]
    exact this ▸ hmem

theorem FileSys.entry_fileContent (fs : FileSys) (pr : FsPath × String)
    (h : pr ∈ fs.files) : ∃ c, fs.fileContent pr.1 = some c := by
  rw [FileSys.fileContent]
  cases hf : fs.files.find? (fun pr' => decide (pr'.1 = pr.1)) with
  | none =>
    exact absurd (List.find?_eq_none.mp hf pr h) (by simp)
  | some pr' => exact ⟨pr'.2, by simp⟩

theorem FileSys.isDir_iff (fs : FileSys) (d : FsPath) :
    fs.isDir d = true ↔
      ∃ q, (∃ c, fs.fileContent q = some c) ∧ FsPath.strictUnder d q = true := by
  rw [FileSys.isDir, List.any_eq_true]
  constructor
  · rintro ⟨pr, hpr, hd⟩
    exact ⟨pr.1, fs.entry_fileContent pr hpr, hd⟩
  · rintro ⟨q, ⟨c, hc⟩, hd⟩
    exact ⟨(q, c), fs.fileContent_entry q c hc, hd⟩

/-- The files at or below a directory (`os.walk`). -/
def FileSys.filesUnder (fs : FileSys) (dir : FsPath) : List (FsPath × String) :=
  fs.files.filter (fun pr => FsPath.underEq dir pr.1)

/-- `DirectoryArtifact.collect` for one path: compute its relpath from
the artifact root, then `copytree` (directory) or `copy` (file) it to
the same relpath below `dir`.  A missing source raises. -/
def collectPath (root dir : FsPath) (fs : FileSys) (p : FsPath) :
    Except String FileSys :=
  let dst := dir ++ p.drop root.length
  if fs.isDir p then
    .ok ((fs.filesUnder p).foldl
      (fun acc pr => acc.write (dst ++ pr.1.drop p.length) pr.2) fs)
  else
    match fs.fileContent p with
    | some c => .ok (fs.write dst c)
    | none => .error "No such file or directory"

/-- The `for path in paths` loop of `DirectoryArtifact.collect`. -/
def collectList (root dir : FsPath) : List FsPath → FileSys →
    Except String FileSys
  | [], fs => .ok fs
  | p :: ps, fs =>
    match collectPath root dir fs p with
    | .ok fs' => collectList root dir ps fs'
    | .error e => .error e

/-- `os.rename(src, dst)`: move the subtree rooted at `src` to `dst`;
fails when the source does not exist. -/
def renameFS (fs : FileSys) (src dst : FsPath) : Except String FileSys :=
  if fs.pathExists src then
    .ok ⟨fs.files.map (fun pr =>
      if FsPath.underEq src pr.1 then (dst ++ pr.1.drop src.length, pr.2)
      else pr)⟩
  else .error "No such file or directory"

/-- `LocalArtifactCache.try_insert`: collect the paths into
`<cache_dir>.tmp`, wipe any previous contents of the final directory,
and atomically rename the temporary directory into place. -/
def LocalArtifactCache.tryInsert (root cacheRoot : FsPath)
    (keyId keyHash : String) (fs : FileSys) (paths : List FsPath) :
    Except String FileSys :=
  let cacheDir := cacheRoot ++ [keyId, keyHash]
  let tmp := cacheRoot ++ [keyId, keyHash ++ ".tmp"]
  match collectList root tmp paths (fs.rmtree tmp) with
  | .error e => .error e
  | .ok fs2 => renameFS (fs2.rmtree cacheDir) tmp cacheDir

/-- The `os.walk` + `copy_fn` loop of `DirectoryArtifact.extract`. -/
def extractFold (root dir : FsPath) :
    List (FsPath × String) → FileSys → FileSys
  | [], fs => fs
  | pr :: rest, fs =>
    extractFold root dir rest (fs.write (root ++ pr.1.drop dir.length) pr.2)

/-- `DirectoryArtifact.extract`: copy each file below the cache
directory to its relpath below the artifact root. -/
def DirectoryArtifact.extract (root dir : FsPath) (fs : FileSys) : FileSys :=
  extractFold root dir (fs.filesUnder dir) fs

/-- `LocalArtifactCache.use_cached_files`: if the cache directory for
the key exists, extract it and return the artifact (`some`); otherwise
`None`. -/
def LocalArtifactCache.useCachedFiles (root cacheRoot : FsPath)
    (keyId keyHash : String) (fs : FileSys) : Option FileSys :=
  let cacheDir := cacheRoot ++ [keyId, keyHash]
  if fs.pathExists cacheDir then
    some (DirectoryArtifact.extract root cacheDir fs)
  else none

/-- The entry list agrees with `fileContent` below `d` (true on a real
filesystem, where paths are unique). -/
def FileSys.ConsistentUnder (fs : FileSys) (d : FsPath) : Prop :=
  ∀ pr ∈ fs.files, FsPath.underEq d pr.1 = true →
    fs.fileContent pr.1 = some pr.2

theorem FileSys.consistentUnder_write (fs : FileSys) (d p : FsPath)
    (c : String) (h : fs.ConsistentUnder d) :
    (fs.write p c).ConsistentUnder d := by
  intro pr hpr hund
  rw [show (fs.write p c).files =
    fs.files.filter (fun pr => decide (pr.1 ≠ p)) ++ [(p, c)] from rfl] at hpr
  rw [FileSys.fileContent_write]
  rcases List.mem_append.mp hpr with hpr | hpr
  · rw [List.mem_filter] at hpr
    have hne : pr.1 ≠ p := of_decide_eq_true hpr.2
    rw [if_neg hne]
    exact h pr hpr.1 hund
  · rw [List.mem_singleton] at hpr
    subst hpr
    rw [if_pos rfl]

theorem FileSys.consistentUnder_rmtree (fs : FileSys) (d d0 : FsPath)
    (h : fs.ConsistentUnder d) : (fs.rmtree d0).ConsistentUnder d := by
  intro pr hpr hund
  rw [show (fs.rmtree d0).files =
    fs.files.filter (fun pr => !(FsPath.underEq d0 pr.1)) from rfl] at hpr
  rw [List.mem_filter] at hpr
  have hne : FsPath.underEq d0 pr.1 = false := by
    rcases Bool.eq_false_or_eq_true (FsPath.underEq d0 pr.1) with hc | hc
    · rw [hc] at hpr; simp at hpr
    · exact hc
  rw [FileSys.fileContent_rmtree, if_neg (by simp [hne])]
  exact h pr hpr.1 hund

theorem region_disjoint (root other : FsPath)
    (hd1 : FsPath.underEq root other = false)
    (hd2 : FsPath.underEq other root = false)
    (q : FsPath) (h : FsPath.underEq other q = true) :
    FsPath.underEq root q = false := by
  rcases Bool.eq_false_or_eq_true (FsPath.underEq root q) with hc | hc
  swap
  · exact hc
  · rcases FsPath.underEq_comparable root other q hc h with hcc | hcc
    · rw [hd1] at hcc; exact Bool.noConfusion hcc
    · rw [hd2] at hcc; exact Bool.noConfusion hcc

/-- Correctness of the `collect` loop (file inputs): the collected
filesystem is unchanged outside `dir`, holds each input path's content
at its relpath below `dir`, creates nothing else below `dir`, and stays
list/content consistent below `dir`. -/
theorem collectList_spec (root dir : FsPath)
    (hreg : ∀ q, FsPath.underEq dir q = true → FsPath.underEq root q = false) :
    ∀ (ps : List FsPath) (fs : FileSys),
      (∀ p ∈ ps, FsPath.strictUnder root p = true) →
      (∀ p ∈ ps, ∃ c, fs.fileContent p = some c) →
      (∀ p ∈ ps, fs.isDir p = false) →
      fs.ConsistentUnder dir →
      ∃ fs', collectList root dir ps fs = .ok fs' ∧
        (∀ q, FsPath.underEq dir q = false →
          fs'.fileContent q = fs.fileContent q) ∧
        (∀ p ∈ ps, fs'.fileContent (dir ++ p.drop root.length) =
          fs.fileContent p) ∧
        (∀ q, FsPath.underEq dir q = true →
          fs'.fileContent q = fs.fileContent q ∨
          ∃ p ∈ ps, q = dir ++ p.drop root.length) ∧
        fs'.ConsistentUnder dir := by
  intro ps
  induction ps with
  | nil =>
    intro fs _ _ _ hcons
    exact ⟨fs, rfl, fun q _ => rfl, by simp, fun q _ => Or.inl rfl, hcons⟩
  | cons p ps ih =>
    intro fs h1 h2 h3 hcons
    obtain ⟨c, hc⟩ := h2 p (List.mem_cons_self p ps)
    have hstrict : FsPath.strictUnder root p = true :=
      h1 p (List.mem_cons_self p ps)
    have hpund : FsPath.underEq root p = true :=
      FsPath.underEq_of_strictUnder root p hstrict
    have hdir : FsPath.underEq dir (dir ++ p.drop root.length) = true :=
      FsPath.underEq_append dir _
    have hpnotdir : FsPath.underEq root (dir ++ p.drop root.length) = false :=
      hreg _ hdir
    have hstep : collectPath root dir fs p =
        .ok (fs.write (dir ++ p.drop root.length) c) := by
      rw [collectPath, if_neg (by
        rw [h3 p (List.mem_cons_self p ps)]
        exact Bool.false_ne_true), hc]
    -- facts about the written state
    set fs1 := fs.write (dir ++ p.drop root.length) c with hfs1
    have hkeepRoot : ∀ q, FsPath.underEq root q = true →
        fs1.fileContent q = fs.fileContent q := by
      intro q hq
      rw [hfs1, FileSys.fileContent_write, if_neg (by
        intro hqe
        rw [hqe] at hq
        rw [hpnotdir] at hq
        exact Bool.noConfusion hq)]
    have h2' : ∀ p' ∈ ps, ∃ c', fs1.fileContent p' = some c' := by
      intro p' hp'
      obtain ⟨c', hc'⟩ := h2 p' (List.mem_cons_of_mem _ hp')
      exact ⟨c', by rw [hkeepRoot p' (FsPath.underEq_of_strictUnder root p'
        (h1 p' (List.mem_cons_of_mem _ hp'))), hc']⟩
    have h3' : ∀ p' ∈ ps, fs1.isDir p' = false := by
      intro p' hp'
      rcases Bool.eq_false_or_eq_true (fs1.isDir p') with hc' | hc'
      swap
      · exact hc'
      · exfalso
        rw [FileSys.isDir_iff] at hc'
        obtain ⟨q, ⟨cq, hcq⟩, hsq⟩ := hc'
        have hp'u : FsPath.underEq root p' = true :=
          FsPath.underEq_of_strictUnder root p'
            (h1 p' (List.mem_cons_of_mem _ hp'))
        by_cases hq : q = dir ++ p.drop root.length
        · -- the newly written file cannot be below a root-region path
          rw [hq] at hsq
          have : FsPath.underEq root (dir ++ p.drop root.length) = true :=
            FsPath.underEq_trans root p' _ hp'u
              (FsPath.underEq_of_strictUnder p' _ hsq)
          rw [hpnotdir] at this
          exact Bool.noConfusion this
        · rw [hfs1, FileSys.fileContent_write, if_neg hq] at hcq
          have : fs.isDir p' = true := by
            rw [FileSys.isDir_iff]
            exact ⟨q, ⟨cq, hcq⟩, hsq⟩
          rw [h3 p' (List.mem_cons_of_mem _ hp')] at this
          exact Bool.noConfusion this
    obtain ⟨fs', hrun, hout, hmem, hunder, hcons'⟩ :=
      ih fs1 (fun p' hp' => h1 p' (List.mem_cons_of_mem _ hp')) h2' h3'
        (fs.consistentUnder_write dir _ c hcons)
    refine ⟨fs', ?_, ?_, ?_, ?_, hcons'⟩
    · rw [collectList, hstep]
      exact hrun
    · intro q hq
      rw [hout q hq, hfs1, FileSys.fileContent_write, if_neg (by
        intro hqe
        rw [hqe, hdir] at hq
        exact Bool.noConfusion hq)]
    · intro p' hp'
      rcases List.mem_cons.mp hp' with hp' | hp'
      · subst hp'
        rcases hunder (dir ++ p'.drop root.length) hdir with h | ⟨p2, hp2, he⟩
        · rw [h, hfs1, FileSys.fileContent_write, if_pos rfl, hc]
        · have hpp : p2 = p' := by
            have hdrop := List.append_cancel_left he
            have h2u := FsPath.underEq_of_strictUnder root p2
              (h1 p2 (List.mem_cons_of_mem _ hp2))
            rw [← FsPath.eq_append_drop root p2 h2u,
              ← FsPath.eq_append_drop root p' hpund, hdrop]
          have h5 := hmem p2 hp2
          rw [hpp] at h5
          rw [h5, hkeepRoot p' hpund]
      · rw [hmem p' hp', hkeepRoot p' (FsPath.underEq_of_strictUnder root p'
          (h1 p' (List.mem_cons_of_mem _ hp')))]
    · intro q hq
      rcases hunder q hq with h | ⟨p2, hp2, he⟩
      · by_cases hqe : q = dir ++ p.drop root.length
        · exact Or.inr ⟨p, List.mem_cons_self p ps, hqe⟩
        · rw [h, hfs1, FileSys.fileContent_write, if_neg hqe]
          exact Or.inl rfl
      · exact Or.inr ⟨p2, List.mem_cons_of_mem _ hp2, he⟩

theorem find?_rename_dst (src dst : FsPath) (r : FsPath) :
    ∀ (l : List (FsPath × String)),
      (∀ pr ∈ l, FsPath.underEq dst pr.1 = false) →
      ((l.map (fun pr => if FsPath.underEq src pr.1 then
          (dst ++ pr.1.drop src.length, pr.2) else pr)).find?
        (fun pr => decide (pr.1 = dst ++ r))).map (fun pr => pr.2) =
      (l.find? (fun pr => decide (pr.1 = src ++ r))).map (fun pr => pr.2) := by
  intro l
  induction l with
  | nil => intro _; rfl
  | cons pr0 rest ih =>
    intro hnodst
    rw [List.map_cons]
    by_cases h0 : FsPath.underEq src pr0.1 = true
    · rw [if_pos h0]
      by_cases hmatch : pr0.1 = src ++ r
      · have hdrop : pr0.1.drop src.length = r := by
          rw [hmatch]
          exact List.drop_left src r
        rw [List.find?_cons_of_pos _ (by simp [hdrop]),
          List.find?_cons_of_pos _ (by simp [hmatch])]
        simp
      · have hne : dst ++ pr0.1.drop src.length ≠ dst ++ r := by
          intro hc
          have := List.append_cancel_left hc
          rw [← FsPath.eq_append_drop src pr0.1 h0, this] at hmatch
          exact hmatch rfl
        rw [List.find?_cons_of_neg _ (by simp [hne]),
          List.find?_cons_of_neg _ (by simp [hmatch])]
        exact ih (fun pr hpr => hnodst pr (List.mem_cons_of_mem _ hpr))
    · rw [if_neg h0]
      have hn1 : pr0.1 ≠ dst ++ r := by
        intro hc
        have : FsPath.underEq dst pr0.1 = true := by
          rw [hc]; exact FsPath.underEq_append dst r
        rw [hnodst pr0 (List.mem_cons_self _ _)] at this
        exact Bool.noConfusion this
      have hn2 : pr0.1 ≠ src ++ r := by
        intro hc
        have : FsPath.underEq src pr0.1 = true := by
          rw [hc]; exact FsPath.underEq_append src r
        exact h0 this
      rw [List.find?_cons_of_neg _ (by simp [hn1]),
        List.find?_cons_of_neg _ (by simp [hn2])]
      exact ih (fun pr hpr => hnodst pr (List.mem_cons_of_mem _ hpr))

theorem find?_rename_other (src dst q : FsPath)
    (hq1 : FsPath.underEq src q = false)
    (hq2 : FsPath.underEq dst q = false) :
    ∀ (l : List (FsPath × String)),
      ((l.map (fun pr => if FsPath.underEq src pr.1 then
          (dst ++ pr.1.drop src.length, pr.2) else pr)).find?
        (fun pr => decide (pr.1 = q))).map (fun pr => pr.2) =
      (l.find? (fun pr => decide (pr.1 = q))).map (fun pr => pr.2) := by
  intro l
  induction l with
  | nil => rfl
  | cons pr0 rest ih =>
    rw [List.map_cons]
    by_cases h0 : FsPath.underEq src pr0.1 = true
    · rw [if_pos h0]
      have hn1 : dst ++ pr0.1.drop src.length ≠ q := by
        intro hc
        rw [← hc, FsPath.underEq_append dst _] at hq2
        exact Bool.noConfusion hq2
      have hn2 : pr0.1 ≠ q := by
        intro hc
        rw [hc] at h0
        rw [h0] at hq1
        exact Bool.noConfusion hq1
      rw [List.find?_cons_of_neg _ (by simp [hn1]),
        List.find?_cons_of_neg _ (by simp [hn2])]
      exact ih
    · rw [if_neg h0]
      by_cases h1 : pr0.1 = q
      · rw [List.find?_cons_of_pos _ (by simp [h1]),
          List.find?_cons_of_pos _ (by simp [h1])]
      · rw [List.find?_cons_of_neg _ (by simp [h1]),
          List.find?_cons_of_neg _ (by simp [h1])]
        exact ih

theorem renameFS_spec (fs : FileSys) (src dst : FsPath)
    (hnodst : ∀ pr ∈ fs.files, FsPath.underEq dst pr.1 = false)
    (hex : fs.pathExists src = true) :
    ∃ fs', renameFS fs src dst = .ok fs' ∧
      (∀ r, fs'.fileContent (dst ++ r) = fs.fileContent (src ++ r)) ∧
      (∀ q, FsPath.underEq src q = false → FsPath.underEq dst q = false →
        fs'.fileContent q = fs.fileContent q) ∧
      (fs.ConsistentUnder src → fs'.ConsistentUnder dst) := by
  have hi : ∀ r, (FileSys.mk (fs.files.map (fun pr =>
      if FsPath.underEq src pr.1 then (dst ++ pr.1.drop src.length, pr.2)
      else pr))).fileContent (dst ++ r) = fs.fileContent (src ++ r) := by
    intro r
    exact find?_rename_dst src dst r fs.files hnodst
  rw [renameFS, if_pos hex]
  refine ⟨_, rfl, hi, ?_, ?_⟩
  · intro q hq1 hq2
    exact find?_rename_other src dst q hq1 hq2 fs.files
  · intro hconsS pr' hpr' hund
    have hpr2 : pr' ∈ fs.files.map (fun pr =>
        if FsPath.underEq src pr.1 then (dst ++ pr.1.drop src.length, pr.2)
        else pr) := hpr'
    rw [List.mem_map] at hpr2
    obtain ⟨pr, hpr, hmap⟩ := hpr2
    by_cases h0 : FsPath.underEq src pr.1 = true
    · rw [if_pos h0] at hmap
      rw [← hmap]
      show (FileSys.mk _).fileContent (dst ++ pr.1.drop src.length) = some pr.2
      calc (FileSys.mk (fs.files.map (fun pr =>
            if FsPath.underEq src pr.1 then
              (dst ++ pr.1.drop src.length, pr.2) else pr))).fileContent
            (dst ++ pr.1.drop src.length) =
          fs.fileContent (src ++ pr.1.drop src.length) := hi _
        _ = fs.fileContent pr.1 := by rw [FsPath.eq_append_drop src pr.1 h0]
        _ = some pr.2 := hconsS pr hpr h0
    · rw [if_neg h0] at hmap
      rw [← hmap] at hund
      rw [hnodst pr hpr] at hund
      exact Bool.noConfusion hund

/-- Removing a subtree leaves nothing below it, so the consistency
invariant below it holds vacuously. -/
theorem FileSys.consistentUnder_rmtree_self (fs : FileSys) (d : FsPath) :
    (fs.rmtree d).ConsistentUnder d := by
  intro pr hpr hund
  rw [show (fs.rmtree d).files =
    fs.files.filter (fun pr => !(FsPath.underEq d pr.1)) from rfl] at hpr
  rw [List.mem_filter, hund] at hpr
  simp at hpr

theorem FileSys.mem_rmtree_not_under (fs : FileSys) (d : FsPath)
    (pr : FsPath × String) (h : pr ∈ (fs.rmtree d).files) :
    FsPath.underEq d pr.1 = false := by
  rw [show (fs.rmtree d).files =
    fs.files.filter (fun pr => !(FsPath.underEq d pr.1)) from rfl] at h
  rw [List.mem_filter] at h
  rcases Bool.eq_false_or_eq_true (FsPath.underEq d pr.1) with hc | hc
  · rw [hc] at h; simp at h
  · exact hc

theorem FileSys.isDir_rmtree_false (fs : FileSys) (d p : FsPath)
    (h : fs.isDir p = false) : (fs.rmtree d).isDir p = false := by
  rw [FileSys.isDir] at h ⊢
  rw [show (fs.rmtree d).files =
    fs.files.filter (fun pr => !(FsPath.underEq d pr.1)) from rfl]
  rcases Bool.eq_false_or_eq_true ((fs.files.filter
      (fun pr => !(FsPath.underEq d pr.1))).any
      (fun pr => FsPath.strictUnder p pr.1)) with hc | hc
  · rw [List.any_eq_true] at hc
    obtain ⟨pr, hpr, hstr⟩ := hc
    rw [List.mem_filter] at hpr
    have hany : fs.files.any (fun pr => FsPath.strictUnder p pr.1) = true :=
      List.any_eq_true.mpr ⟨pr, hpr.1, hstr⟩
    rw [h] at hany
    exact Bool.noConfusion hany
  · exact hc

theorem FsPath.eq_of_underEq_length (a b : FsPath)
    (hlen : a.length = b.length) (h : FsPath.underEq a b = true) : a = b := by
  rw [FsPath.underEq_iff] at h
  rw [hlen, List.take_length] at h
  exact h.symm

theorem FsPath.underEq_sibling (base : FsPath) (x y : String) (hxy : x ≠ y) :
    FsPath.underEq (base ++ [x]) (base ++ [y]) = false := by
  rcases Bool.eq_false_or_eq_true
    (FsPath.underEq (base ++ [x]) (base ++ [y])) with hc | hc
  · have heq := FsPath.eq_of_underEq_length _ _ (by simp) hc
    have heq2 := List.append_cancel_left heq
    simp at heq2
    exact absurd heq2 hxy
  · exact hc

/-- Correctness of the `extract` copy loop: the result is unchanged
outside `root`, holds each entry's content at its relpath below
`root`, and everything else keeps its old content. -/
theorem extractFold_spec (root dir : FsPath) :
    ∀ (entries : List (FsPath × String)) (fs : FileSys),
      (∀ pr ∈ entries, FsPath.underEq dir pr.1 = true) →
      (∀ pr ∈ entries, ∀ pr' ∈ entries, pr.1 = pr'.1 → pr.2 = pr'.2) →
      (∀ q, FsPath.underEq root q = false →
        (extractFold root dir entries fs).fileContent q =
          fs.fileContent q) ∧
      (∀ pr ∈ entries, (extractFold root dir entries fs).fileContent
        (root ++ pr.1.drop dir.length) = some pr.2) ∧
      (∀ q, (extractFold root dir entries fs).fileContent q =
          fs.fileContent q ∨
        ∃ pr ∈ entries, q = root ++ pr.1.drop dir.length ∧
          (extractFold root dir entries fs).fileContent q = some pr.2) := by
  intro entries
  induction entries with
  | nil =>
    intro fs _ _
    exact ⟨fun q _ => rfl, by simp, fun q => Or.inl rfl⟩
  | cons e rest ih =>
    intro fs hund hfun
    obtain ⟨ha, hb, hc⟩ := ih (fs.write (root ++ e.1.drop dir.length) e.2)
      (fun pr hpr => hund pr (List.mem_cons_of_mem _ hpr))
      (fun pr hpr pr' hpr' => hfun pr (List.mem_cons_of_mem _ hpr)
        pr' (List.mem_cons_of_mem _ hpr'))
    have hstep : extractFold root dir (e :: rest) fs =
        extractFold root dir rest
          (fs.write (root ++ e.1.drop dir.length) e.2) := rfl
    refine ⟨?_, ?_, ?_⟩
    · intro q hq
      rw [hstep, ha q hq, FileSys.fileContent_write]
      have hne : q ≠ root ++ e.1.drop dir.length := by
        intro hqe
        rw [hqe, FsPath.underEq_append] at hq
        exact Bool.noConfusion hq
      rw [if_neg hne]
    · intro pr hpr
      rcases List.mem_cons.mp hpr with he | hpr'
      · rw [hstep, he]
        rcases hc (root ++ e.1.drop dir.length) with h | ⟨pr', hpr', heq, hcont⟩
        · rw [h, FileSys.fileContent_write, if_pos rfl]
        · rw [hcont]
          have hdeq := List.append_cancel_left heq
          have h1 : pr'.1 = e.1 := by
            rw [← FsPath.eq_append_drop dir pr'.1
                (hund pr' (List.mem_cons_of_mem _ hpr')),
              ← FsPath.eq_append_drop dir e.1
                (hund e (List.mem_cons_self _ _)), hdeq]
          rw [hfun pr' (List.mem_cons_of_mem _ hpr') e
            (List.mem_cons_self _ _) h1]
      · rw [hstep]
        exact hb pr hpr'
    · intro q
      rcases hc q with h | ⟨pr', hpr', heq, hcont⟩
      · by_cases hqe : q = root ++ e.1.drop dir.length
        · refine Or.inr ⟨e, List.mem_cons_self _ _, hqe, ?_⟩
          rw [hstep, h, FileSys.fileContent_write, if_pos hqe]
        · rw [hstep, h, FileSys.fileContent_write, if_neg hqe]
          exact Or.inl rfl
      · exact Or.inr ⟨pr', List.mem_cons_of_mem _ hpr', heq,
          by rw [hstep]; exact hcont⟩

theorem FileSys.pathExists_of_entry (fs : FileSys) (d q : FsPath)
    (c : String) (h : fs.fileContent q = some c)
    (hs : FsPath.strictUnder d q = true) : fs.pathExists d = true := by
  rw [FileSys.pathExists, Bool.or_eq_true]
  right
  rw [FileSys.isDir, List.any_eq_true]
  exact ⟨(q, c), fs.fileContent_entry q c h, hs⟩

/-- C5: cache round-trip.  For every cache key (id, hash) and every
non-empty list of file paths lying strictly under the artifact root
(with the cache root and artifact root disjoint), `try_insert`
succeeds, `use_cached_files` on the resulting filesystem returns a
non-`None` artifact, and extracting it into an emptied artifact root
reproduces exactly the input paths with identical contents. -/
theorem local_artifact_cache_roundtrip_spec (root cacheRoot : FsPath)
    (keyId keyHash : String) (fs : FileSys) (paths : List FsPath)
    (hne : paths ≠ [])
    (hstrictp : ∀ p ∈ paths, FsPath.strictUnder root p = true)
    (hcontent : ∀ p ∈ paths, ∃ c, fs.fileContent p = some c)
    (hnodirp : ∀ p ∈ paths, fs.isDir p = false)
    (h1 : FsPath.underEq root cacheRoot = false)
    (h2 : FsPath.underEq cacheRoot root = false) :
    ∃ fs3, LocalArtifactCache.tryInsert root cacheRoot keyId keyHash fs
        paths = .ok fs3 ∧
      ∃ fsE, LocalArtifactCache.useCachedFiles root cacheRoot keyId keyHash
          (fs3.rmtree root) = some fsE ∧
        ∀ q c, (FsPath.strictUnder root q = true ∧
            fsE.fileContent q = some c) ↔
          (q ∈ paths ∧ fs.fileContent q = some c) := by
  have hkeyne : keyHash ≠ keyHash ++ ".tmp" := by
    intro h
    have hl := congrArg String.length h
    rw [String.length_append] at hl
    have h4 : ".tmp".length = 4 := rfl
    omega
  have hkeyne2 : keyHash ++ ".tmp" ≠ keyHash := fun h => hkeyne h.symm
  have hsib1 : FsPath.underEq (cacheRoot ++ [keyId, keyHash])
      (cacheRoot ++ [keyId, keyHash ++ ".tmp"]) = false := by
    have hs := FsPath.underEq_sibling (cacheRoot ++ [keyId]) keyHash
      (keyHash ++ ".tmp") hkeyne
    simpa using hs
  have hsib2 : FsPath.underEq (cacheRoot ++ [keyId, keyHash ++ ".tmp"])
      (cacheRoot ++ [keyId, keyHash]) = false := by
    have hs := FsPath.underEq_sibling (cacheRoot ++ [keyId])
      (keyHash ++ ".tmp") keyHash hkeyne2
    simpa using hs
  have hreg_tmp : ∀ q,
      FsPath.underEq (cacheRoot ++ [keyId, keyHash ++ ".tmp"]) q = true →
      FsPath.underEq root q = false := fun q hq =>
    region_disjoint root cacheRoot h1 h2 q
      (FsPath.underEq_trans cacheRoot _ q (FsPath.underEq_append _ _) hq)
  have hreg_cd : ∀ q,
      FsPath.underEq (cacheRoot ++ [keyId, keyHash]) q = true →
      FsPath.underEq root q = false := fun q hq =>
    region_disjoint root cacheRoot h1 h2 q
      (FsPath.underEq_trans cacheRoot _ q (FsPath.underEq_append _ _) hq)
  have hunder_root : ∀ p ∈ paths, FsPath.underEq root p = true :=
    fun p hp => FsPath.underEq_of_strictUnder root p (hstrictp p hp)
  have hptmp : ∀ p ∈ paths,
      FsPath.underEq (cacheRoot ++ [keyId, keyHash ++ ".tmp"]) p = false := by
    intro p hp
    rcases Bool.eq_false_or_eq_true
      (FsPath.underEq (cacheRoot ++ [keyId, keyHash ++ ".tmp"]) p) with hc | hc
    · have hr := hreg_tmp p hc
      rw [hunder_root p hp] at hr
      exact Bool.noConfusion hr
    · exact hc
  have hcontent_a : ∀ p ∈ paths, ∃ c,
      (fs.rmtree (cacheRoot ++ [keyId, keyHash ++ ".tmp"])).fileContent p =
        some c := by
    intro p hp
    obtain ⟨c, hc⟩ := hcontent p hp
    refine ⟨c, ?_⟩
    rw [FileSys.fileContent_rmtree, if_neg (by rw [hptmp p hp]; simp)]
    exact hc
  have hdir_a : ∀ p ∈ paths,
      (fs.rmtree (cacheRoot ++ [keyId, keyHash ++ ".tmp"])).isDir p = false :=
    fun p hp => FileSys.isDir_rmtree_false fs _ p (hnodirp p hp)
  obtain ⟨fs2, hrun2, houts2, hpaths2, hchar2, hcons2⟩ :=
    collectList_spec root (cacheRoot ++ [keyId, keyHash ++ ".tmp"]) hreg_tmp
      paths (fs.rmtree (cacheRoot ++ [keyId, keyHash ++ ".tmp"])) hstrictp
      hcontent_a hdir_a (FileSys.consistentUnder_rmtree_self fs _)
  have hpaths2a : ∀ p ∈ paths,
      fs2.fileContent
        ((cacheRoot ++ [keyId, keyHash ++ ".tmp"]) ++ p.drop root.length) =
      fs.fileContent p := by
    intro p hp
    rw [hpaths2 p hp, FileSys.fileContent_rmtree,
      if_neg (by rw [hptmp p hp]; simp)]
  have hfsb_tmp : ∀ r,
      (fs2.rmtree (cacheRoot ++ [keyId, keyHash])).fileContent
        ((cacheRoot ++ [keyId, keyHash ++ ".tmp"]) ++ r) =
      fs2.fileContent ((cacheRoot ++ [keyId, keyHash ++ ".tmp"]) ++ r) := by
    intro r
    rw [FileSys.fileContent_rmtree, if_neg ?hcnd]
    case hcnd =>
      rw [region_disjoint (cacheRoot ++ [keyId, keyHash])
        (cacheRoot ++ [keyId, keyHash ++ ".tmp"]) hsib1 hsib2 _
        (FsPath.underEq_append _ r)]
      simp
  have hnodst : ∀ pr ∈ (fs2.rmtree (cacheRoot ++ [keyId, keyHash])).files,
      FsPath.underEq (cacheRoot ++ [keyId, keyHash]) pr.1 = false :=
    fun pr hpr => FileSys.mem_rmtree_not_under fs2 _ pr hpr
  obtain ⟨p0, hp0⟩ := List.exists_mem_of_ne_nil paths hne
  obtain ⟨c0, hc0⟩ := hcontent p0 hp0
  have hdst0 : (fs2.rmtree (cacheRoot ++ [keyId, keyHash])).fileContent
      ((cacheRoot ++ [keyId, keyHash ++ ".tmp"]) ++ p0.drop root.length) =
      some c0 := by
    rw [hfsb_tmp, hpaths2a p0 hp0, hc0]
  have hex : (fs2.rmtree (cacheRoot ++ [keyId, keyHash])).pathExists
      (cacheRoot ++ [keyId, keyHash ++ ".tmp"]) = true :=
    FileSys.pathExists_of_entry _ _ _ c0 hdst0
      (FsPath.strictUnder_append _ _
        (FsPath.drop_ne_nil root p0 (hstrictp p0 hp0)))
  obtain ⟨fs3, hrun3, hdst3, hother3, hconsT3⟩ :=
    renameFS_spec (fs2.rmtree (cacheRoot ++ [keyId, keyHash]))
      (cacheRoot ++ [keyId, keyHash ++ ".tmp"])
      (cacheRoot ++ [keyId, keyHash]) hnodst hex
  have htry : LocalArtifactCache.tryInsert root cacheRoot keyId keyHash fs
      paths = .ok fs3 := by
    simp only [LocalArtifactCache.tryInsert]
    rw [hrun2]
    exact hrun3
  have hfs4cd : ∀ r,
      ((fs3.rmtree root)).fileContent ((cacheRoot ++ [keyId, keyHash]) ++ r) =
      fs2.fileContent ((cacheRoot ++ [keyId, keyHash ++ ".tmp"]) ++ r) := by
    intro r
    rw [FileSys.fileContent_rmtree,
      if_neg (by rw [hreg_cd _ (FsPath.underEq_append _ r)]; simp),
      hdst3 r, hfsb_tmp r]
  have hfs2tmp : ∀ r c,
      fs2.fileContent ((cacheRoot ++ [keyId, keyHash ++ ".tmp"]) ++ r) =
        some c →
      ∃ p ∈ paths, r = p.drop root.length ∧ fs.fileContent p = some c := by
    intro r c hc
    rcases hchar2 ((cacheRoot ++ [keyId, keyHash ++ ".tmp"]) ++ r)
      (FsPath.underEq_append _ r) with h | ⟨p, hp, he⟩
    · rw [h, FileSys.fileContent_rmtree,
        if_pos (FsPath.underEq_append _ r)] at hc
      simp at hc
    · refine ⟨p, hp, List.append_cancel_left he, ?_⟩
      rw [← hpaths2a p hp, ← he]
      exact hc
  have hfs4p : ∀ p ∈ paths,
      (fs3.rmtree root).fileContent
        ((cacheRoot ++ [keyId, keyHash]) ++ p.drop root.length) =
      fs.fileContent p := by
    intro p hp
    rw [hfs4cd, hpaths2a p hp]
  have hcons4 : (fs3.rmtree root).ConsistentUnder
      (cacheRoot ++ [keyId, keyHash]) :=
    FileSys.consistentUnder_rmtree fs3 _ root
      (hconsT3 (FileSys.consistentUnder_rmtree fs2 _ _ hcons2))
  have hc0b : (fs3.rmtree root).fileContent
      ((cacheRoot ++ [keyId, keyHash]) ++ p0.drop root.length) = some c0 := by
    rw [hfs4p p0 hp0, hc0]
  have hpe : (fs3.rmtree root).pathExists (cacheRoot ++ [keyId, keyHash]) =
      true :=
    FileSys.pathExists_of_entry _ _ _ c0 hc0b
      (FsPath.strictUnder_append _ _
        (FsPath.drop_ne_nil root p0 (hstrictp p0 hp0)))
  have hentries_und : ∀ pr ∈ (fs3.rmtree root).filesUnder
      (cacheRoot ++ [keyId, keyHash]),
      FsPath.underEq (cacheRoot ++ [keyId, keyHash]) pr.1 = true := by
    intro pr hpr
    rw [FileSys.filesUnder, List.mem_filter] at hpr
    exact hpr.2
  have hentries_content : ∀ pr ∈ (fs3.rmtree root).filesUnder
      (cacheRoot ++ [keyId, keyHash]),
      (fs3.rmtree root).fileContent pr.1 = some pr.2 := by
    intro pr hpr
    have hm : pr ∈ (fs3.rmtree root).files := by
      rw [FileSys.filesUnder, List.mem_filter] at hpr
      exact hpr.1
    exact hcons4 pr hm (hentries_und pr hpr)
  have hfun : ∀ pr ∈ (fs3.rmtree root).filesUnder
      (cacheRoot ++ [keyId, keyHash]),
      ∀ pr' ∈ (fs3.rmtree root).filesUnder (cacheRoot ++ [keyId, keyHash]),
      pr.1 = pr'.1 → pr.2 = pr'.2 := by
    intro pr hpr pr' hpr' heq
    have ha := hentries_content pr hpr
    have hb := hentries_content pr' hpr'
    rw [heq, hb] at ha
    exact (Option.some.inj ha).symm
  obtain ⟨hea, heb, hec⟩ :=
    extractFold_spec root (cacheRoot ++ [keyId, keyHash])
      ((fs3.rmtree root).filesUnder (cacheRoot ++ [keyId, keyHash]))
      (fs3.rmtree root) hentries_und hfun
  have huse : LocalArtifactCache.useCachedFiles root cacheRoot keyId keyHash
      (fs3.rmtree root) = some (extractFold root
        (cacheRoot ++ [keyId, keyHash])
        ((fs3.rmtree root).filesUnder (cacheRoot ++ [keyId, keyHash]))
        (fs3.rmtree root)) := by
    simp only [LocalArtifactCache.useCachedFiles, DirectoryArtifact.extract]
    rw [if_pos hpe]
  refine ⟨fs3, htry, _, huse, ?_⟩
  intro q c
  constructor
  · rintro ⟨hsq, hqc⟩
    have hqroot : FsPath.underEq root q = true :=
      FsPath.underEq_of_strictUnder root q hsq
    rcases hec q with h | ⟨pr, hpr, heq, hcont⟩
    · rw [h, FileSys.fileContent_rmtree, if_pos hqroot] at hqc
      simp at hqc
    · rw [hqc] at hcont
      have hceq : c = pr.2 := Option.some.inj hcont
      have hprc := hentries_content pr hpr
      have hpr1 : (cacheRoot ++ [keyId, keyHash]) ++
          pr.1.drop (cacheRoot ++ [keyId, keyHash]).length = pr.1 :=
        FsPath.eq_append_drop _ pr.1 (hentries_und pr hpr)
      rw [← hpr1, hfs4cd] at hprc
      obtain ⟨p, hp, hr, hpc⟩ := hfs2tmp _ pr.2 hprc
      have hqp : q = p := by
        rw [heq, hr, FsPath.eq_append_drop root p (hunder_root p hp)]
      refine ⟨by rw [hqp]; exact hp, ?_⟩
      rw [hqp, hpc, hceq]
  · rintro ⟨hqp, hqc⟩
    refine ⟨hstrictp q hqp, ?_⟩
    have h6 : (fs3.rmtree root).fileContent
        ((cacheRoot ++ [keyId, keyHash]) ++ q.drop root.length) = some c := by
      rw [hfs4p q hqp, hqc]
    have hmem := FileSys.fileContent_entry (fs3.rmtree root) _ c h6
    have hmemu : ((cacheRoot ++ [keyId, keyHash]) ++ q.drop root.length, c) ∈
        (fs3.rmtree root).filesUnder (cacheRoot ++ [keyId, keyHash]) := by
      rw [FileSys.filesUnder, List.mem_filter]
      exact ⟨hmem, FsPath.underEq_append _ _⟩
    have h7 : (extractFold root (cacheRoot ++ [keyId, keyHash])
        ((fs3.rmtree root).filesUnder (cacheRoot ++ [keyId, keyHash]))
        (fs3.rmtree root)).fileContent (root ++
          ((cacheRoot ++ [keyId, keyHash]) ++ q.drop root.length).drop
            (cacheRoot ++ [keyId, keyHash]).length) = some c := heb _ hmemu
    rw [List.drop_left, FsPath.eq_append_drop root q
      (hunder_root q hqp)] at h7
    exact h7

theorem local_artifact_cache_roundtrip_spec_witness :
    ∃ fs3, LocalArtifactCache.tryInsert ["build"] ["cache"] "k" "h"
        ⟨[(["build", "x.class"], "A"), (["build", "q", "y.class"], "B")]⟩
        [["build", "x.class"], ["build", "q", "y.class"]] = .ok fs3 ∧
      ∃ fsE, LocalArtifactCache.useCachedFiles ["build"] ["cache"] "k" "h"
          (fs3.rmtree ["build"]) = some fsE ∧
        ∀ q c, (FsPath.strictUnder ["build"] q = true ∧
            fsE.fileContent q = some c) ↔
          (q ∈ [["build", "x.class"], ["build", "q", "y.class"]] ∧
            FileSys.fileContent ⟨[(["build", "x.class"], "A"),
              (["build", "q", "y.class"], "B")]⟩ q = some c) :=
  local_artifact_cache_roundtrip_spec ["build"] ["cache"] "k" "h"
    ⟨[(["build", "x.class"], "A"), (["build", "q", "y.class"], "B")]⟩
    [["build", "x.class"], ["build", "q", "y.class"]]
    (by decide)
    (by decide)
    (by
      intro p hp
      rcases List.mem_cons.mp hp with rfl | hp
      · exact ⟨"A", rfl⟩
      · rcases List.mem_cons.mp hp with rfl | hp
        · exact ⟨"B", rfl⟩
        · simp at hp)
    (by decide)
    (by decide)
    (by decide)

/-! ## sort_targets (`graph/build_graph.py`)

Targets are numbered `0, ..., n-1`; `deps t` is `t.dependencies` in
declaration order.  `OrderedSet` is a duplicate-free list in insertion
order; `defaultdict(OrderedSet)` is a function defaulting to `[]`. -/

structure SGraph where
  n : Nat
  deps : Nat → List Nat

/-- `a → b` when `b` is a direct dependency of `a`. -/
def SGraph.Step (G : SGraph) (a b : Nat) : Prop := b ∈ G.deps a

/-- Reachability along dependency edges. -/
def SGraph.Reaches (G : SGraph) (a b : Nat) : Prop :=
  Relation.ReflTransGen G.Step a b

/-- `OrderedSet.add`: append if not yet present. -/
def addOnce (l : List Nat) (x : Nat) : List Nat :=
  if x ∈ l then l else l ++ [x]

/-- The mutable state of the first pass of `sort_targets`:
`roots`, `inverted_deps`, `visited` and `path`. -/
structure SState where
  roots : List Nat
  inv : Nat → List Nat
  visited : List Nat
  path : List Nat

/-- Result of `invert`: normal return, `CycleException(cycle)`, or
out of fuel. -/
inductive InvRes where
  | ok : SState → InvRes
  | cycle : List Nat → InvRes
  | out : InvRes

mutual

/-- `invert(target)`: raise on a back-edge into `path`, push onto
`path`, and on first visit record inverted edges, recurse into the
dependencies, and append the target to `roots` (the `for`-`else`
always runs since the loop has no `break`); finally pop `path`. -/
def SGraph.invert (G : SGraph) : Nat → Nat → SState → InvRes
  | 0, _, _ => .out
  | fuel + 1, t, s =>
    if t ∈ s.path then
      .cycle (s.path.drop (s.path.indexOf t) ++ [t])
    else
      if t ∈ s.visited then
        .ok { s with path := (s.path ++ [t]).erase t }
      else
        match G.invertFold fuel t (G.deps t)
            { s with visited := s.visited ++ [t], path := s.path ++ [t] } with
        | .ok s3 => .ok { s3 with roots := addOnce s3.roots t,
                                  path := s3.path.erase t }
        | r => r
termination_by fuel _ _ => (fuel, 0)

/-- The `for dependency in target.dependencies` loop of `invert`:
record `inverted_deps[dependency].add(target)` then recurse. -/
def SGraph.invertFold (G : SGraph) : Nat → Nat → List Nat → SState → InvRes
  | _, _, [], s => .ok s
  | fuel, t, d :: ds, s =>
    match G.invert fuel d
        { s with inv := fun x => if x = d then addOnce (s.inv d) t
                                 else s.inv x } with
    | .ok s2 => G.invertFold fuel t ds s2
    | r => r
termination_by fuel _ ds _ => (fuel, ds.length + 1)

end

/-- The `for target in targets: invert(target)` loop. -/
def SGraph.invertList (G : SGraph) (fuel : Nat) :
    List Nat → SState → InvRes
  | [], s => .ok s
  | t :: ts, s =>
    match G.invert fuel t s with
    | .ok s2 => G.invertList fuel ts s2
    | r => r

/-- The state of the second pass: `ordered` and the cleared
`visited`. -/
structure TState where
  ordered : List Nat
  visited : List Nat

mutual

/-- `topological_sort(target)`: on first visit recurse into the
target's recorded dependents, then append the target to `ordered`
(an absent `inverted_deps` key reads as the empty set). -/
def SGraph.topoSort (G : SGraph) (inv : Nat → List Nat) :
    Nat → Nat → TState → Option TState
  | 0, _, _ => none
  | fuel + 1, t, s =>
    if t ∈ s.visited then some s
    else
      match G.topoFold inv fuel (inv t)
          { s with visited := s.visited ++ [t] } with
      | some s2 => some { s2 with ordered := s2.ordered ++ [t] }
      | none => none
termination_by fuel _ _ => (fuel, 0)

/-- The `for dep in inverted_deps[target]` loop (also used for the
final `for root in roots` loop, which has the same shape). -/
def SGraph.topoFold (G : SGraph) (inv : Nat → List Nat) :
    Nat → List Nat → TState → Option TState
  | _, [], s => some s
  | fuel, d :: ds, s =>
    match G.topoSort inv fuel d s with
    | some s2 => G.topoFold inv fuel ds s2
    | none => none
termination_by fuel ds _ => (fuel, ds.length + 1)

end

/-- Result of `sort_targets`: the ordered list, a raised
`CycleException(cycle)`, or out of fuel. -/
inductive SortRes where
  | ok : List Nat → SortRes
  | cycleFound : List Nat → SortRes
  | out : SortRes
deriving Repr, DecidableEq

/-- `sort_targets(targets)`: invert every target, then topologically
sort from the collected `roots`. -/
def SGraph.sortTargets (G : SGraph) (targets : List Nat) : SortRes :=
  match G.invertList (G.n + 1) targets ⟨[], fun _ => [], [], []⟩ with
  | .cycle c => .cycleFound c
  | .out => .out
  | .ok s =>
    match G.topoFold s.inv (G.n + 1) s.roots ⟨[], []⟩ with
    | some ts => .ok ts.ordered
    | none => .out

/-- A raised cycle is genuine: at least two entries, closed, and each
entry is a dependency of its predecessor. -/
def SGraph.CycleProp (G : SGraph) (c : List Nat) : Prop :=
  2 ≤ c.length ∧ c.head? = c.getLast? ∧
    List.Chain' (fun a b => b ∈ G.deps a) c

/-- All dependencies of in-range targets are in range. -/
def SGraph.Wf (G : SGraph) : Prop :=
  ∀ x, x < G.n → ∀ d ∈ G.deps x, d < G.n

def SGraph.budget (G : SGraph) (w : List Nat) : Nat :=
  ((Finset.range G.n).filter (fun x => x ∉ w)).card

theorem addOnce_of_not_mem (l : List Nat) (x : Nat) (h : x ∉ l) :
    addOnce l x = l ++ [x] := by
  rw [addOnce, if_neg h]

theorem mem_addOnce (l : List Nat) (x y : Nat) :
    y ∈ addOnce l x ↔ y ∈ l ∨ y = x := by
  rw [addOnce]
  by_cases hx : x ∈ l
  · rw [if_pos hx]
    constructor
    · exact Or.inl
    · rintro (h | rfl)
      · exact h
      · exact hx
  · rw [if_neg hx]
    simp

theorem self_mem_addOnce (l : List Nat) (x : Nat) : x ∈ addOnce l x := by
  rw [mem_addOnce]
  exact Or.inr rfl

theorem mem_addOnce_of_mem (l : List Nat) (x y : Nat) (h : y ∈ l) :
    y ∈ addOnce l x := by
  rw [mem_addOnce]
  exact Or.inl h

theorem indexOf_append_of_mem (a : Nat) (l l' : List Nat) (h : a ∈ l) :
    (l ++ l').indexOf a = l.indexOf a := by
  induction l with
  | nil => simp at h
  | cons b l ih =>
    by_cases hb : b = a
    · simp [List.indexOf_cons, hb]
    · rcases List.mem_cons.mp h with h | h
      · exact absurd h.symm hb
      · simp [List.indexOf_cons, hb, ih h]

theorem indexOf_concat_self (a : Nat) (l : List Nat) (h : a ∉ l) :
    (l ++ [a]).indexOf a = l.length := by
  induction l with
  | nil => simp [List.indexOf_cons]
  | cons b l ih =>
    have hb : b ≠ a := fun hc => h (hc ▸ List.mem_cons_self b l)
    have h2 : a ∉ l := fun hc => h (List.mem_cons_of_mem _ hc)
    simp [List.indexOf_cons, hb, ih h2]

theorem drop_indexOf_cons (t : Nat) (l : List Nat) (h : t ∈ l) :
    ∃ rest, l.drop (l.indexOf t) = t :: rest := by
  induction l with
  | nil => simp at h
  | cons b l ih =>
    by_cases hb : b = t
    · exact ⟨l, by simp [List.indexOf_cons, hb]⟩
    · rcases List.mem_cons.mp h with h | h
      · exact absurd h.symm hb
      · obtain ⟨rest, hrest⟩ := ih h
        exact ⟨rest, by simp [List.indexOf_cons, hb, hrest]⟩

theorem erase_concat_of_not_mem (t : Nat) (l : List Nat) (h : t ∉ l) :
    (l ++ [t]).erase t = l := by
  rw [List.erase_append_right _ h, List.erase_cons_head]
  simp

theorem SGraph.sbudget_le_of_sub (G : SGraph) (w w' : List Nat)
    (h : ∀ x ∈ w, x ∈ w') : G.budget w' ≤ G.budget w := by
  refine Finset.card_le_card ?_
  intro x hx
  rw [Finset.mem_filter] at hx ⊢
  exact ⟨hx.1, fun hc => hx.2 (h x hc)⟩

theorem SGraph.sbudget_push (G : SGraph) (w : List Nat) (t : Nat)
    (ht : t < G.n) (hw : t ∉ w) : G.budget (w ++ [t]) = G.budget w - 1 := by
  have hmem : t ∈ (Finset.range G.n).filter (fun x => x ∉ w) := by
    rw [Finset.mem_filter, Finset.mem_range]
    exact ⟨ht, hw⟩
  have hset : (Finset.range G.n).filter (fun x => x ∉ w ++ [t]) =
      ((Finset.range G.n).filter (fun x => x ∉ w)).erase t := by
    ext x
    simp only [Finset.mem_filter, Finset.mem_erase, Finset.mem_range,
      List.mem_append, List.mem_singleton]
    constructor
    · intro ⟨h1, h2⟩
      push_neg at h2
      exact ⟨h2.2, h1, h2.1⟩
    · intro ⟨h1, h2, h3⟩
      refine ⟨h2, ?_⟩
      push_neg
      exact ⟨h3, h1⟩
  rw [SGraph.budget, hset, Finset.card_erase_of_mem hmem]
  rfl

theorem SGraph.sbudget_pos (G : SGraph) (w : List Nat) (t : Nat)
    (ht : t < G.n) (hw : t ∉ w) : 0 < G.budget w := by
  refine Finset.card_pos.mpr ⟨t, ?_⟩
  rw [Finset.mem_filter, Finset.mem_range]
  exact ⟨ht, hw⟩

theorem SGraph.cycleProp_of_path (G : SGraph) (t : Nat) (path : List Nat)
    (hmem : t ∈ path)
    (hchain : List.Chain' (fun a b => b ∈ G.deps a) path)
    (hlink : ∀ last, path.getLast? = some last → t ∈ G.deps last) :
    G.CycleProp (path.drop (path.indexOf t) ++ [t]) := by
  obtain ⟨rest, hrest⟩ := drop_indexOf_cons t path hmem
  have hne : path.drop (path.indexOf t) ≠ [] := by
    rw [hrest]
    simp
  refine ⟨?_, ?_, ?_⟩
  · rw [hrest]
    simp
  · rw [List.getLast?_concat, hrest]
    simp
  · rw [List.chain'_append]
    refine ⟨?_, by simp, ?_⟩
    · have h2 := hchain
      rw [← List.take_append_drop (path.indexOf t) path] at h2
      exact (List.chain'_append.mp h2).2.1
    · intro x hx y hy
      simp only [List.head?_cons, Option.mem_def, Option.some.injEq] at hy
      have hlast : (path.drop (path.indexOf t)).getLast? = path.getLast? := by
        conv_rhs => rw [← List.take_append_drop (path.indexOf t) path]
        rw [List.getLast?_append_of_ne_nil _ hne]
      rw [Option.mem_def, hlast] at hx
      rw [← hy]
      exact hlink x hx

/-- Invariant of the first pass.  Completed (black) targets are
exactly `roots`; `path` holds the in-progress (grey) ones; a completed
target has all dependencies completed, recorded in `inverted_deps`,
and appearing earlier in `roots` (postorder rank). -/
structure SGraph.Inv1 (G : SGraph) (s : SState) : Prop where
  black : ∀ x ∈ s.visited, x ∈ s.path ∨ x ∈ s.roots
  rootsVis : ∀ x ∈ s.roots, x ∈ s.visited
  pathRoots : ∀ x ∈ s.path, x ∉ s.roots
  closed : ∀ x ∈ s.visited, x ∈ s.path ∨
    ∀ d ∈ G.deps x, d ∈ s.visited ∧ x ∈ s.inv d
  rp : ∀ u ∈ s.roots, ∀ d ∈ G.deps u,
    d ∈ s.roots ∧ s.roots.indexOf d < s.roots.indexOf u
  invSound : ∀ d x, x ∈ s.inv d → d ∈ G.deps x ∧ x ∈ s.visited
  bound : ∀ x ∈ s.visited, x < G.n

/-- Postcondition of `invert`. -/
def SGraph.IPost (G : SGraph) (t : Nat) (s : SState) : InvRes → Prop
  | .ok s2 => G.Inv1 s2 ∧ s2.path = s.path ∧
      (∀ x ∈ s.visited, x ∈ s2.visited) ∧
      (∃ ext, s2.roots = s.roots ++ ext) ∧ t ∈ s2.roots ∧
      (∀ d x, x ∈ s.inv d → x ∈ s2.inv d) ∧
      (∀ x ∈ s2.visited, x ∈ s.visited ∨ G.Reaches t x)
  | .cycle c => G.CycleProp c
  | .out => True

/-- Postcondition of the dependency loop of `invert`. -/
def SGraph.FPost (G : SGraph) (t : Nat) (ds : List Nat) (s : SState) :
    InvRes → Prop
  | .ok s2 => G.Inv1 s2 ∧ s2.path = s.path ∧
      (∀ x ∈ s.visited, x ∈ s2.visited) ∧
      (∃ ext, s2.roots = s.roots ++ ext) ∧
      (∀ d ∈ ds, d ∈ s2.roots ∧ t ∈ s2.inv d) ∧
      (∀ d x, x ∈ s.inv d → x ∈ s2.inv d) ∧
      (∀ x ∈ s2.visited, x ∈ s.visited ∨ ∃ d ∈ ds, G.Reaches d x)
  | .cycle c => G.CycleProp c
  | .out => True

theorem SGraph.invert_spec_all (G : SGraph) (hwf : G.Wf) : ∀ fuel,
    (∀ t s, G.Inv1 s → t < G.n →
      List.Chain' (fun a b => b ∈ G.deps a) s.path →
      (∀ last, s.path.getLast? = some last → t ∈ G.deps last) →
      G.IPost t s (G.invert fuel t s)) ∧
    (∀ t ds s, G.Inv1 s → t < G.n → t ∈ s.visited →
      (∀ d ∈ ds, d ∈ G.deps t) →
      List.Chain' (fun a b => b ∈ G.deps a) s.path →
      s.path.getLast? = some t →
      G.FPost t ds s (G.invertFold fuel t ds s)) := by
  intro fuel
  induction fuel with
  | zero =>
    constructor
    · intro t s _ _ _ _
      rw [SGraph.invert]
      trivial
    · intro t ds
      cases ds with
      | nil =>
        intro s hInv _ _ _ _ _
        rw [SGraph.invertFold]
        exact ⟨hInv, rfl, fun x hx => hx, ⟨[], by simp⟩,
          fun d hd => absurd hd (List.not_mem_nil d), fun d x hx => hx,
          fun x hx => Or.inl hx⟩
      | cons d ds =>
        intro s _ _ _ _ _ _
        rw [SGraph.invertFold, SGraph.invert]
        trivial
  | succ fuel ih =>
    have hP : ∀ t s, G.Inv1 s → t < G.n →
        List.Chain' (fun a b => b ∈ G.deps a) s.path →
        (∀ last, s.path.getLast? = some last → t ∈ G.deps last) →
        G.IPost t s (G.invert (fuel + 1) t s) := by
      intro t s hInv ht hchain hlink
      rw [SGraph.invert]
      by_cases hpath : t ∈ s.path
      · rw [if_pos hpath]
        exact G.cycleProp_of_path t s.path hpath hchain hlink
      · rw [if_neg hpath]
        by_cases hvis : t ∈ s.visited
        · rw [if_pos hvis]
          have hss : ({ s with path := (s.path ++ [t]).erase t } : SState) =
              s := by
            rw [erase_concat_of_not_mem t s.path hpath]
          rw [hss]
          have htr : t ∈ s.roots := by
            rcases hInv.black t hvis with h | h
            · exact absurd h hpath
            · exact h
          exact ⟨hInv, rfl, fun x hx => hx, ⟨[], by simp⟩, htr,
            fun d x hx => hx, fun x hx => Or.inl hx⟩
        · rw [if_neg hvis]
          have hInv2 : G.Inv1
              { s with visited := s.visited ++ [t], path := s.path ++ [t] } := by
            refine ⟨?_, ?_, ?_, ?_, ?_, ?_, ?_⟩
            · intro x hx
              rcases List.mem_append.mp hx with hx | hx
              · rcases hInv.black x hx with h | h
                · exact Or.inl (List.mem_append_left _ h)
                · exact Or.inr h
              · rw [List.mem_singleton] at hx
                subst hx
                exact Or.inl (List.mem_append_right _ (List.mem_singleton_self x))
            · intro x hx
              exact List.mem_append_left _ (hInv.rootsVis x hx)
            · intro x hx
              rcases List.mem_append.mp hx with hx | hx
              · exact hInv.pathRoots x hx
              · rw [List.mem_singleton] at hx
                subst hx
                exact fun hc => hvis (hInv.rootsVis x hc)
            · intro x hx
              rcases List.mem_append.mp hx with hx | hx
              · rcases hInv.closed x hx with h | h
                · exact Or.inl (List.mem_append_left _ h)
                · exact Or.inr (fun dd hdd =>
                    ⟨List.mem_append_left _ (h dd hdd).1, (h dd hdd).2⟩)
              · rw [List.mem_singleton] at hx
                subst hx
                exact Or.inl (List.mem_append_right _ (List.mem_singleton_self x))
            · exact hInv.rp
            · intro dd x hx
              obtain ⟨h1, h2⟩ := hInv.invSound dd x hx
              exact ⟨h1, List.mem_append_left _ h2⟩
            · intro x hx
              rcases List.mem_append.mp hx with hx | hx
              · exact hInv.bound x hx
              · rw [List.mem_singleton] at hx
                subst hx
                exact ht
          have hchain2 : List.Chain' (fun a b => b ∈ G.deps a)
              (s.path ++ [t]) := by
            rw [List.chain'_append]
            refine ⟨hchain, by simp, ?_⟩
            intro x hx y hy
            simp only [List.head?_cons, Option.mem_def, Option.some.injEq] at hy
            rw [← hy]
            exact hlink x hx
          have hQ := ih.2 t (G.deps t)
            { s with visited := s.visited ++ [t], path := s.path ++ [t] }
            hInv2 ht (List.mem_append_right _ (List.mem_singleton_self t))
            (fun d hd => hd) hchain2
            (show (s.path ++ [t]).getLast? = some t from List.getLast?_concat _)
          cases hres : G.invertFold fuel t (G.deps t)
              { s with visited := s.visited ++ [t], path := s.path ++ [t] } with
          | ok s3 =>
            rw [hres] at hQ
            obtain ⟨hInv3, hpath3, hvmono3, ⟨ext3, hroots3⟩, hds3,
              hinvmono3, hsound3⟩ := hQ
            have hpath3a : s3.path = s.path ++ [t] := hpath3
            have hvmono3a : ∀ x ∈ s.visited ++ [t], x ∈ s3.visited := hvmono3
            have hroots3a : s3.roots = s.roots ++ ext3 := hroots3
            have hds3a : ∀ d ∈ G.deps t, d ∈ s3.roots ∧ t ∈ s3.inv d := hds3
            have hinvmono3a : ∀ d x, x ∈ s.inv d → x ∈ s3.inv d := hinvmono3
            have hsound3a : ∀ x ∈ s3.visited,
                x ∈ s.visited ++ [t] ∨ ∃ d ∈ G.deps t, G.Reaches d x := hsound3
            have htp3 : t ∈ s3.path := by
              rw [hpath3a]
              exact List.mem_append_right _ (List.mem_singleton_self t)
            have htnr : t ∉ s3.roots := hInv3.pathRoots t htp3
            have hpe : s3.path.erase t = s.path := by
              rw [hpath3a]
              exact erase_concat_of_not_mem t s.path hpath
            have hao : addOnce s3.roots t = s3.roots ++ [t] :=
              addOnce_of_not_mem _ _ htnr
            show G.IPost t s (.ok { s3 with roots := addOnce s3.roots t, path := s3.path.erase t })
            rw [hpe, hao]
            refine ⟨?_, rfl, ?_, ?_, ?_, ?_, ?_⟩
            · refine ⟨?_, ?_, ?_, ?_, ?_, ?_, ?_⟩
              · intro x hx
                rcases hInv3.black x hx with h | h
                · rw [hpath3a] at h
                  rcases List.mem_append.mp h with h | h
                  · exact Or.inl h
                  · rw [List.mem_singleton] at h
                    subst h
                    exact Or.inr (List.mem_append_right _
                      (List.mem_singleton_self x))
                · exact Or.inr (List.mem_append_left _ h)
              · intro x hx
                rcases List.mem_append.mp hx with h | h
                · exact hInv3.rootsVis x h
                · rw [List.mem_singleton] at h
                  subst h
                  exact hvmono3a x (List.mem_append_right _
                    (List.mem_singleton_self x))
              · intro x hx hc
                rcases List.mem_append.mp hc with h | h
                · exact hInv3.pathRoots x
                    (by rw [hpath3a]; exact List.mem_append_left _ hx) h
                · rw [List.mem_singleton] at h
                  subst h
                  exact hpath hx
              · intro x hx
                rcases hInv3.closed x hx with h | h
                · rw [hpath3a] at h
                  rcases List.mem_append.mp h with h | h
                  · exact Or.inl h
                  · rw [List.mem_singleton] at h
                    subst h
                    exact Or.inr (fun dd hdd =>
                      ⟨hInv3.rootsVis dd (hds3a dd hdd).1, (hds3a dd hdd).2⟩)
                · exact Or.inr h
              · intro u hu dd hdd
                rcases List.mem_append.mp hu with hu | hu
                · obtain ⟨h1, h2⟩ := hInv3.rp u hu dd hdd
                  refine ⟨List.mem_append_left _ h1, ?_⟩
                  rw [indexOf_append_of_mem dd _ _ h1,
                    indexOf_append_of_mem u _ _ hu]
                  exact h2
                · rw [List.mem_singleton] at hu
                  subst hu
                  have h1 := (hds3a dd hdd).1
                  refine ⟨List.mem_append_left _ h1, ?_⟩
                  rw [indexOf_append_of_mem dd _ _ h1,
                    indexOf_concat_self u _ htnr]
                  exact List.indexOf_lt_length.mpr h1
              · exact hInv3.invSound
              · exact hInv3.bound
            · intro x hx
              exact hvmono3a x (List.mem_append_left _ hx)
            · exact ⟨ext3 ++ [t], by rw [hroots3a, List.append_assoc]⟩
            · exact List.mem_append_right _ (List.mem_singleton_self t)
            · exact hinvmono3a
            · intro x hx
              rcases hsound3a x hx with h | ⟨d, hd, hr⟩
              · rcases List.mem_append.mp h with h | h
                · exact Or.inl h
                · rw [List.mem_singleton] at h
                  subst h
                  exact Or.inr Relation.ReflTransGen.refl
              · exact Or.inr (Relation.ReflTransGen.head hd hr)
          | cycle c =>
            rw [hres] at hQ
            exact hQ
          | out =>
            rw [hres] at hQ
            trivial
    refine ⟨hP, ?_⟩
    intro t ds
    induction ds with
    | nil =>
      intro s hInv _ _ _ _ _
      rw [SGraph.invertFold]
      exact ⟨hInv, rfl, fun x hx => hx, ⟨[], by simp⟩,
        fun d hd => absurd hd (List.not_mem_nil d), fun d x hx => hx,
        fun x hx => Or.inl hx⟩
    | cons d ds ihds =>
      intro s hInv ht htvis hds hchain hlast
      rw [SGraph.invertFold]
      have hinvup : ∀ dd x, x ∈ s.inv dd →
          x ∈ ({ s with inv := fun y => if y = d then addOnce (s.inv d) t
                                        else s.inv y } : SState).inv dd := by
        intro dd x hx
        show x ∈ (if dd = d then addOnce (s.inv d) t else s.inv dd)
        by_cases hdd : dd = d
        · rw [if_pos hdd]
          rw [hdd] at hx
          exact mem_addOnce_of_mem _ _ _ hx
        · rw [if_neg hdd]
          exact hx
      have hInv2 : G.Inv1 { s with
          inv := fun y => if y = d then addOnce (s.inv d) t else s.inv y } := by
        refine ⟨hInv.black, hInv.rootsVis, hInv.pathRoots, ?_, hInv.rp,
          ?_, hInv.bound⟩
        · intro x hx
          rcases hInv.closed x hx with h | h
          · exact Or.inl h
          · exact Or.inr (fun dd hdd =>
              ⟨(h dd hdd).1, hinvup dd x (h dd hdd).2⟩)
        · intro dd x hx
          have hx2 : x ∈ (if dd = d then addOnce (s.inv d) t else s.inv dd) :=
            hx
          by_cases hdd : dd = d
          · rw [if_pos hdd] at hx2
            rw [mem_addOnce] at hx2
            rcases hx2 with hx2 | hx2
            · rw [hdd]
              exact hInv.invSound d x hx2
            · rw [hx2, hdd]
              exact ⟨hds d (List.mem_cons_self d ds), htvis⟩
          · rw [if_neg hdd] at hx2
            exact hInv.invSound dd x hx2
      have hPd := hP d
        { s with inv := fun y => if y = d then addOnce (s.inv d) t
                                 else s.inv y }
        hInv2 (hwf t ht d (hds d (List.mem_cons_self d ds))) hchain
        (fun last hl => by
          rw [hlast] at hl
          have hl2 := Option.some.inj hl
          rw [← hl2]
          exact hds d (List.mem_cons_self d ds))
      cases hres : G.invert (fuel + 1) d
          { s with inv := fun y => if y = d then addOnce (s.inv d) t
                                   else s.inv y } with
      | ok s2 =>
        rw [hres] at hPd
        obtain ⟨hInv3, hpath3, hvmono3, ⟨ext2, hroots2⟩, hdmem2,
          hinvmono2, hsound2⟩ := hPd
        have hpath2a : s2.path = s.path := hpath3
        have hvmono2a : ∀ x ∈ s.visited, x ∈ s2.visited := hvmono3
        have hroots2a : s2.roots = s.roots ++ ext2 := hroots2
        have hsound2a : ∀ x ∈ s2.visited,
            x ∈ s.visited ∨ G.Reaches d x := hsound2
        have hinvmono2a : ∀ dd x, x ∈ s.inv dd → x ∈ s2.inv dd :=
          fun dd x hx => hinvmono2 dd x (hinvup dd x hx)
        have hchain2 : List.Chain' (fun a b => b ∈ G.deps a) s2.path := by
          rw [hpath2a]
          exact hchain
        have hlast2 : s2.path.getLast? = some t := by
          rw [hpath2a]
          exact hlast
        have hF := ihds s2 hInv3 ht (hvmono2a t htvis)
          (fun dd hdd => hds dd (List.mem_cons_of_mem d hdd)) hchain2 hlast2
        show G.FPost t (d :: ds) s (G.invertFold (fuel + 1) t ds s2)
        cases hres2 : G.invertFold (fuel + 1) t ds s2 with
        | ok s3 =>
          rw [hres2] at hF
          obtain ⟨hInv4, hpath4, hvmono4, ⟨ext3, hroots4⟩, hds4,
            hinvmono4, hsound4⟩ := hF
          show G.FPost t (d :: ds) s (.ok s3)
          refine ⟨hInv4, by rw [hpath4, hpath2a],
            fun x hx => hvmono4 x (hvmono2a x hx),
            ⟨ext2 ++ ext3, by rw [hroots4, hroots2a, List.append_assoc]⟩,
            ?_, fun dd x hx => hinvmono4 dd x (hinvmono2a dd x hx), ?_⟩
          · intro dd hdd
            rcases List.mem_cons.mp hdd with hdd | hdd
            · rw [hdd]
              constructor
              · rw [hroots4]
                exact List.mem_append_left _ hdmem2
              · refine hinvmono4 d t (hinvmono2 d t ?_)
                show t ∈ (if d = d then addOnce (s.inv d) t else s.inv d)
                rw [if_pos rfl]
                exact self_mem_addOnce _ _
            · exact hds4 dd hdd
          · intro x hx
            rcases hsound4 x hx with h | ⟨dd, hdd, hr⟩
            · rcases hsound2a x h with h2 | h2
              · exact Or.inl h2
              · exact Or.inr ⟨d, List.mem_cons_self d ds, h2⟩
            · exact Or.inr ⟨dd, List.mem_cons_of_mem d hdd, hr⟩
        | cycle c =>
          rw [hres2] at hF
          exact hF
        | out =>
          rw [hres2] at hF
          trivial
      | cycle c =>
        rw [hres] at hPd
        exact hPd
      | out =>
        rw [hres] at hPd
        trivial

theorem SGraph.invert_fuel_all (G : SGraph) (hwf : G.Wf) : ∀ fuel,
    (∀ t s, t < G.n → (∀ x ∈ s.visited, x < G.n) →
      G.budget s.visited < fuel →
      G.invert fuel t s ≠ .out ∧
      ∀ s2, G.invert fuel t s = .ok s2 →
        (∀ x ∈ s2.visited, x < G.n) ∧ ∀ x ∈ s.visited, x ∈ s2.visited) ∧
    (∀ t ds s, (∀ d ∈ ds, d < G.n) → (∀ x ∈ s.visited, x < G.n) →
      G.budget s.visited < fuel →
      G.invertFold fuel t ds s ≠ .out ∧
      ∀ s2, G.invertFold fuel t ds s = .ok s2 →
        (∀ x ∈ s2.visited, x < G.n) ∧ ∀ x ∈ s.visited, x ∈ s2.visited) := by
  intro fuel
  induction fuel with
  | zero =>
    constructor
    · intro t s _ _ hbud
      exact absurd hbud (Nat.not_lt_zero _)
    · intro t ds s _ _ hbud
      exact absurd hbud (Nat.not_lt_zero _)
  | succ fuel ih =>
    have hP : ∀ t s, t < G.n → (∀ x ∈ s.visited, x < G.n) →
        G.budget s.visited < fuel + 1 →
        G.invert (fuel + 1) t s ≠ .out ∧
        ∀ s2, G.invert (fuel + 1) t s = .ok s2 →
          (∀ x ∈ s2.visited, x < G.n) ∧ ∀ x ∈ s.visited, x ∈ s2.visited := by
      intro t s ht hb hbud
      rw [SGraph.invert]
      by_cases hpath : t ∈ s.path
      · rw [if_pos hpath]
        exact ⟨fun h => InvRes.noConfusion h, fun s2 h => InvRes.noConfusion h⟩
      · rw [if_neg hpath]
        by_cases hvis : t ∈ s.visited
        · rw [if_pos hvis]
          refine ⟨fun h => InvRes.noConfusion h, ?_⟩
          intro s2 h
          rw [← InvRes.ok.inj h]
          exact ⟨hb, fun x hx => hx⟩
        · rw [if_neg hvis]
          have hbud2 : G.budget (s.visited ++ [t]) < fuel := by
            rw [G.sbudget_push s.visited t ht hvis]
            have hpos := G.sbudget_pos s.visited t ht hvis
            omega
          have hb2 : ∀ x ∈ s.visited ++ [t], x < G.n := by
            intro x hx
            rcases List.mem_append.mp hx with hx | hx
            · exact hb x hx
            · rw [List.mem_singleton] at hx
              rw [hx]
              exact ht
          have hQ := ih.2 t (G.deps t)
            { s with visited := s.visited ++ [t], path := s.path ++ [t] }
            (fun d hd => hwf t ht d hd) hb2 hbud2
          cases hres : G.invertFold fuel t (G.deps t)
              { s with visited := s.visited ++ [t], path := s.path ++ [t] } with
          | ok s3 =>
            refine ⟨fun h => InvRes.noConfusion h, ?_⟩
            intro s2 h
            obtain ⟨hA, hB⟩ := hQ.2 s3 hres
            rw [← InvRes.ok.inj h]
            constructor
            · exact fun x hx => hA x hx
            · intro x hx
              exact hB x (List.mem_append_left _ hx)
          | cycle c =>
            exact ⟨fun h => InvRes.noConfusion h,
              fun s2 h => InvRes.noConfusion h⟩
          | out =>
            exact absurd hres hQ.1
    refine ⟨hP, ?_⟩
    intro t ds
    induction ds with
    | nil =>
      intro s _ hb hbud
      rw [SGraph.invertFold]
      refine ⟨fun h => InvRes.noConfusion h, ?_⟩
      intro s2 h
      rw [← InvRes.ok.inj h]
      exact ⟨hb, fun x hx => hx⟩
    | cons d ds ihds =>
      intro s hds hb hbud
      rw [SGraph.invertFold]
      have hPd := hP d
        { s with inv := fun y => if y = d then addOnce (s.inv d) t
                                 else s.inv y }
        (hds d (List.mem_cons_self d ds)) hb hbud
      cases hres : G.invert (fuel + 1) d
          { s with inv := fun y => if y = d then addOnce (s.inv d) t
                                   else s.inv y } with
      | ok s2 =>
        obtain ⟨hA, hB⟩ := hPd.2 s2 hres
        have hsub : ∀ x ∈ s.visited, x ∈ s2.visited := fun x hx => hB x hx
        have hbud2 : G.budget s2.visited < fuel + 1 := by
          have hle := G.sbudget_le_of_sub s.visited s2.visited hsub
          omega
        have hF := ihds s2 (fun dd hdd => hds dd (List.mem_cons_of_mem d hdd))
          hA hbud2
        refine ⟨hF.1, ?_⟩
        intro s3 h
        obtain ⟨hA2, hB2⟩ := hF.2 s3 h
        exact ⟨hA2, fun x hx => hB2 x (hsub x hx)⟩
      | cycle c =>
        exact ⟨fun h => InvRes.noConfusion h, fun s2 h => InvRes.noConfusion h⟩
      | out =>
        exact absurd hres hPd.1

/-- Postcondition of the `for target in targets` loop. -/
def SGraph.LPost (G : SGraph) (ts : List Nat) (s : SState) : InvRes → Prop
  | .ok s2 => G.Inv1 s2 ∧ s2.path = [] ∧
      (∀ x ∈ s.visited, x ∈ s2.visited) ∧
      (∃ ext, s2.roots = s.roots ++ ext) ∧
      (∀ t ∈ ts, t ∈ s2.roots) ∧
      (∀ x ∈ s2.visited, x ∈ s.visited ∨ ∃ t ∈ ts, G.Reaches t x)
  | .cycle c => G.CycleProp c
  | .out => False

theorem SGraph.invertList_spec (G : SGraph) (hwf : G.Wf) (fuel : Nat) :
    ∀ (ts : List Nat) (s : SState), G.Inv1 s → s.path = [] →
      (∀ t ∈ ts, t < G.n) → G.budget s.visited < fuel →
      G.LPost ts s (G.invertList fuel ts s) := by
  intro ts
  induction ts with
  | nil =>
    intro s hInv hpath0 _ _
    rw [SGraph.invertList]
    exact ⟨hInv, hpath0, fun x hx => hx, ⟨[], by simp⟩,
      fun t ht => absurd ht (List.not_mem_nil t), fun x hx => Or.inl hx⟩
  | cons t ts ih =>
    intro s hInv hpath0 htn hbud
    rw [SGraph.invertList]
    have hchain0 : List.Chain' (fun a b => b ∈ G.deps a) s.path := by
      rw [hpath0]
      simp
    have hlink0 : ∀ last, s.path.getLast? = some last → t ∈ G.deps last := by
      intro last hl
      rw [hpath0] at hl
      simp at hl
    have hspec := (G.invert_spec_all hwf fuel).1 t s hInv
      (htn t (List.mem_cons_self t ts)) hchain0 hlink0
    have hfuel := (G.invert_fuel_all hwf fuel).1 t s
      (htn t (List.mem_cons_self t ts)) hInv.bound hbud
    cases hres : G.invert fuel t s with
    | ok s2 =>
      rw [hres] at hspec
      obtain ⟨hInv2, hpath2, hvmono2, ⟨ext2, hroots2⟩, htmem2, hinvmono2,
        hsound2⟩ := hspec
      have hbud2 : G.budget s2.visited < fuel := by
        have hle := G.sbudget_le_of_sub s.visited s2.visited hvmono2
        omega
      have hpath20 : s2.path = [] := by rw [hpath2, hpath0]
      have hind := ih s2 hInv2 hpath20
        (fun u hu => htn u (List.mem_cons_of_mem t hu)) hbud2
      show G.LPost (t :: ts) s (G.invertList fuel ts s2)
      cases hres2 : G.invertList fuel ts s2 with
      | ok s3 =>
        rw [hres2] at hind
        obtain ⟨hInv3, hpath30, hvmono3, ⟨ext3, hroots3⟩, hts3, hsound3⟩ :=
          hind
        refine ⟨hInv3, hpath30, fun x hx => hvmono3 x (hvmono2 x hx),
          ⟨ext2 ++ ext3, by rw [hroots3, hroots2, List.append_assoc]⟩, ?_, ?_⟩
        · intro u hu
          rcases List.mem_cons.mp hu with hu | hu
          · rw [hu, hroots3]
            exact List.mem_append_left _ htmem2
          · exact hts3 u hu
        · intro x hx
          rcases hsound3 x hx with h | ⟨u, hu, hr⟩
          · rcases hsound2 x h with h2 | h2
            · exact Or.inl h2
            · exact Or.inr ⟨t, List.mem_cons_self t ts, h2⟩
          · exact Or.inr ⟨u, List.mem_cons_of_mem t hu, hr⟩
      | cycle c =>
        rw [hres2] at hind
        exact hind
      | out =>
        rw [hres2] at hind
        exact hind
    | cycle c =>
      rw [hres] at hspec
      exact hspec
    | out =>
      exact absurd hres hfuel.1

/-- Invariant of the second pass, relative to the postorder list `R`
(the final `roots`) and the recorded `inverted_deps`.  Appended
targets are visited, visited targets come from `R`, `ordered` is
duplicate-free, and every appended target comes after all of its
appended dependents. -/
structure TInv (R : List Nat) (inv : Nat → List Nat) (s : TState) :
    Prop where
  oSub : ∀ x ∈ s.ordered, x ∈ s.visited
  vSub : ∀ x ∈ s.visited, x ∈ R
  nodup : s.ordered.Nodup
  e2 : ∀ u ∈ s.ordered, ∀ x ∈ inv u, x ∈ s.ordered ∧
    s.ordered.indexOf x < s.ordered.indexOf u

/-- Postcondition of `topological_sort`, with ghost recursion stack
`σ`. -/
def TPost (R : List Nat) (inv : Nat → List Nat) (t : Nat) (σ : List Nat)
    (s : TState) : Option TState → Prop
  | some s2 => TInv R inv s2 ∧ (∀ x ∈ s.visited, x ∈ s2.visited) ∧
      t ∈ s2.visited ∧ (∃ ext, s2.ordered = s.ordered ++ ext) ∧
      (∀ x ∈ σ, x ∉ s2.ordered) ∧
      (∀ x ∈ s2.visited, x ∈ σ ∨ x ∈ s2.ordered)
  | none => True

/-- Postcondition of the dependent loop of `topological_sort`. -/
def TFPost (R : List Nat) (inv : Nat → List Nat) (σ : List Nat)
    (ys : List Nat) (s : TState) : Option TState → Prop
  | some s2 => TInv R inv s2 ∧ (∀ x ∈ s.visited, x ∈ s2.visited) ∧
      (∀ y ∈ ys, y ∈ s2.visited) ∧
      (∃ ext, s2.ordered = s.ordered ++ ext) ∧
      (∀ x ∈ σ, x ∉ s2.ordered) ∧
      (∀ x ∈ s2.visited, x ∈ σ ∨ x ∈ s2.ordered)
  | none => True

theorem SGraph.topo_spec_all (G : SGraph) (R : List Nat)
    (inv : Nat → List Nat)
    (hRrp : ∀ u ∈ R, ∀ d ∈ G.deps u, d ∈ R ∧ R.indexOf d < R.indexOf u)
    (hinvR : ∀ d x, x ∈ inv d → d ∈ G.deps x ∧ x ∈ R) : ∀ fuel,
    (∀ t σ s, TInv R inv s → t ∈ R →
      (∀ x ∈ σ, x ∈ s.visited ∧ x ∉ s.ordered) →
      (∀ x ∈ σ, R.indexOf x < R.indexOf t) →
      (∀ x ∈ s.visited, x ∈ σ ∨ x ∈ s.ordered) →
      TPost R inv t σ s (G.topoSort inv fuel t s)) ∧
    (∀ t σ ys s, TInv R inv s → t ∈ R → (∀ y ∈ ys, y ∈ inv t) →
      (∀ x ∈ σ, x ∈ s.visited ∧ x ∉ s.ordered) →
      (∀ x ∈ σ, R.indexOf x ≤ R.indexOf t) →
      (∀ x ∈ s.visited, x ∈ σ ∨ x ∈ s.ordered) →
      TFPost R inv σ ys s (G.topoFold inv fuel ys s)) := by
  intro fuel
  induction fuel with
  | zero =>
    constructor
    · intro t σ s _ _ _ _ _
      rw [SGraph.topoSort]
      trivial
    · intro t σ ys s hInv _ _ hσv _ hσF
      cases ys with
      | nil =>
        rw [SGraph.topoFold]
        exact ⟨hInv, fun x hx => hx,
          fun y hy => absurd hy (List.not_mem_nil y), ⟨[], by simp⟩,
          fun x hx => (hσv x hx).2, hσF⟩
      | cons y ys =>
        rw [SGraph.topoFold, SGraph.topoSort]
        trivial
  | succ fuel ih =>
    have hP : ∀ t σ s, TInv R inv s → t ∈ R →
        (∀ x ∈ σ, x ∈ s.visited ∧ x ∉ s.ordered) →
        (∀ x ∈ σ, R.indexOf x < R.indexOf t) →
        (∀ x ∈ s.visited, x ∈ σ ∨ x ∈ s.ordered) →
        TPost R inv t σ s (G.topoSort inv (fuel + 1) t s) := by
      intro t σ s hInv ht hσv hσρ hσF
      rw [SGraph.topoSort]
      by_cases hvis : t ∈ s.visited
      · rw [if_pos hvis]
        exact ⟨hInv, fun x hx => hx, hvis, ⟨[], by simp⟩,
          fun x hx => (hσv x hx).2, hσF⟩
      · rw [if_neg hvis]
        have hInv1 : TInv R inv { s with visited := s.visited ++ [t] } := by
          refine ⟨?_, ?_, hInv.nodup, hInv.e2⟩
          · intro x hx
            exact List.mem_append_left _ (hInv.oSub x hx)
          · intro x hx
            rcases List.mem_append.mp hx with hx | hx
            · exact hInv.vSub x hx
            · rw [List.mem_singleton] at hx
              rw [hx]
              exact ht
        have hσv1 : ∀ x ∈ σ ++ [t],
            x ∈ ({ s with visited := s.visited ++ [t] } : TState).visited ∧
            x ∉ ({ s with visited := s.visited ++ [t] } : TState).ordered := by
          intro x hx
          rcases List.mem_append.mp hx with hx | hx
          · exact ⟨List.mem_append_left _ (hσv x hx).1, (hσv x hx).2⟩
          · rw [List.mem_singleton] at hx
            rw [hx]
            exact ⟨List.mem_append_right _ (List.mem_singleton_self t),
              fun hc => hvis (hInv.oSub t hc)⟩
        have hσρ1 : ∀ x ∈ σ ++ [t], R.indexOf x ≤ R.indexOf t := by
          intro x hx
          rcases List.mem_append.mp hx with hx | hx
          · exact Nat.le_of_lt (hσρ x hx)
          · rw [List.mem_singleton] at hx
            rw [hx]
        have hσF1 : ∀ x ∈ s.visited ++ [t],
            x ∈ σ ++ [t] ∨ x ∈ s.ordered := by
          intro x hx
          rcases List.mem_append.mp hx with hx | hx
          · rcases hσF x hx with h | h
            · exact Or.inl (List.mem_append_left _ h)
            · exact Or.inr h
          · exact Or.inl (List.mem_append_right _ hx)
        have hQ := ih.2 t (σ ++ [t]) (inv t)
          { s with visited := s.visited ++ [t] }
          hInv1 ht (fun y hy => hy) hσv1 hσρ1 hσF1
        cases hres : G.topoFold inv fuel (inv t)
            { s with visited := s.visited ++ [t] } with
        | some s2 =>
          rw [hres] at hQ
          obtain ⟨hInv2, hvmono2, hys2, ⟨ext2, hord2⟩, hσno2, hF2⟩ := hQ
          have hord2a : s2.ordered = s.ordered ++ ext2 := hord2
          have htno : t ∉ s2.ordered :=
            hσno2 t (List.mem_append_right _ (List.mem_singleton_self t))
          have htv2 : t ∈ s2.visited :=
            hvmono2 t (List.mem_append_right _ (List.mem_singleton_self t))
          show TPost R inv t σ s
            (some { s2 with ordered := s2.ordered ++ [t] })
          refine ⟨⟨?_, hInv2.vSub, ?_, ?_⟩, ?_, htv2, ?_, ?_, ?_⟩
          · intro x hx
            rcases List.mem_append.mp hx with hx | hx
            · exact hInv2.oSub x hx
            · rw [List.mem_singleton] at hx
              rw [hx]
              exact htv2
          · rw [List.nodup_append]
            refine ⟨hInv2.nodup, List.nodup_singleton t, ?_⟩
            intro a ha hb
            rw [List.mem_singleton] at hb
            rw [hb] at ha
            exact htno ha
          · intro u hu x hx
            rcases List.mem_append.mp hu with hu | hu
            · obtain ⟨h1, h2⟩ := hInv2.e2 u hu x hx
              refine ⟨List.mem_append_left _ h1, ?_⟩
              rw [indexOf_append_of_mem x _ _ h1,
                indexOf_append_of_mem u _ _ hu]
              exact h2
            · rw [List.mem_singleton] at hu
              rw [hu] at hx
              have hxv2 : x ∈ s2.visited := hys2 x hx
              obtain ⟨hxdep, hxR⟩ := hinvR t x hx
              rcases hF2 x hxv2 with hxσ | hxo
              · rcases List.mem_append.mp hxσ with hxσ | hxσ
                · have h3 := hσρ1 x (List.mem_append_left _ hxσ)
                  have h4 := (hRrp x hxR t hxdep).2
                  omega
                · rw [List.mem_singleton] at hxσ
                  rw [hxσ] at hxdep hxR
                  have h4 := (hRrp t hxR t hxdep).2
                  omega
              · refine ⟨List.mem_append_left _ hxo, ?_⟩
                rw [hu, indexOf_append_of_mem x _ _ hxo,
                  indexOf_concat_self t _ htno]
                exact List.indexOf_lt_length.mpr hxo
          · intro x hx
            exact hvmono2 x (List.mem_append_left _ hx)
          · exact ⟨ext2 ++ [t], by rw [hord2a, List.append_assoc]⟩
          · intro x hxσ hc
            rcases List.mem_append.mp hc with hc | hc
            · exact hσno2 x (List.mem_append_left _ hxσ) hc
            · rw [List.mem_singleton] at hc
              rw [hc] at hxσ
              exact hvis (hσv t hxσ).1
          · intro x hx
            rcases hF2 x hx with h | h
            · rcases List.mem_append.mp h with h | h
              · exact Or.inl h
              · exact Or.inr (List.mem_append_right _ h)
            · exact Or.inr (List.mem_append_left _ h)
        | none =>
          trivial
    refine ⟨hP, ?_⟩
    intro t σ ys
    induction ys with
    | nil =>
      intro s hInv _ _ hσv _ hσF
      rw [SGraph.topoFold]
      exact ⟨hInv, fun x hx => hx,
        fun y hy => absurd hy (List.not_mem_nil y), ⟨[], by simp⟩,
        fun x hx => (hσv x hx).2, hσF⟩
    | cons y ys ihys =>
      intro s hInv ht hys hσv hσρ hσF
      rw [SGraph.topoFold]
      obtain ⟨htdep, hyR⟩ := hinvR t y (hys y (List.mem_cons_self y ys))
      have hty := (hRrp y hyR t htdep).2
      have hPy := hP y σ s hInv hyR hσv
        (fun x hxσ => Nat.lt_of_le_of_lt (hσρ x hxσ) hty) hσF
      cases hres : G.topoSort inv (fuel + 1) y s with
      | some s2 =>
        rw [hres] at hPy
        obtain ⟨hInv2, hvmono2, hyv2, ⟨ext2, hord2⟩, hσno2, hF2⟩ := hPy
        have hσv2 : ∀ x ∈ σ, x ∈ s2.visited ∧ x ∉ s2.ordered := by
          intro x hx
          exact ⟨hvmono2 x (hσv x hx).1, hσno2 x hx⟩
        have hF := ihys s2 hInv2 ht
          (fun z hz => hys z (List.mem_cons_of_mem y hz)) hσv2 hσρ hF2
        show TFPost R inv σ (y :: ys) s (G.topoFold inv (fuel + 1) ys s2)
        cases hres2 : G.topoFold inv (fuel + 1) ys s2 with
        | some s3 =>
          rw [hres2] at hF
          obtain ⟨hInv3, hvmono3, hys3, ⟨ext3, hord3⟩, hσno3, hF3⟩ := hF
          refine ⟨hInv3, fun x hx => hvmono3 x (hvmono2 x hx), ?_,
            ⟨ext2 ++ ext3, by rw [hord3, hord2, List.append_assoc]⟩,
            hσno3, hF3⟩
          intro z hz
          rcases List.mem_cons.mp hz with hz | hz
          · rw [hz]
            exact hvmono3 y hyv2
          · exact hys3 z hz
        | none =>
          trivial
      | none =>
        trivial

theorem SGraph.topo_fuel_all (G : SGraph) (inv : Nat → List Nat)
    (hinvB : ∀ d y, y ∈ inv d → y < G.n) : ∀ fuel,
    (∀ t s, t < G.n → (∀ x ∈ TState.visited s, x < G.n) →
      G.budget (TState.visited s) < fuel →
      G.topoSort inv fuel t s ≠ none ∧
      ∀ s2, G.topoSort inv fuel t s = some s2 →
        (∀ x ∈ TState.visited s2, x < G.n) ∧
        ∀ x ∈ TState.visited s, x ∈ TState.visited s2) ∧
    (∀ ys s, (∀ y ∈ ys, y < G.n) → (∀ x ∈ TState.visited s, x < G.n) →
      G.budget (TState.visited s) < fuel →
      G.topoFold inv fuel ys s ≠ none ∧
      ∀ s2, G.topoFold inv fuel ys s = some s2 →
        (∀ x ∈ TState.visited s2, x < G.n) ∧
        ∀ x ∈ TState.visited s, x ∈ TState.visited s2) := by
  intro fuel
  induction fuel with
  | zero =>
    constructor
    · intro t s _ _ hbud
      exact absurd hbud (Nat.not_lt_zero _)
    · intro ys s _ _ hbud
      exact absurd hbud (Nat.not_lt_zero _)
  | succ fuel ih =>
    have hP : ∀ t s, t < G.n → (∀ x ∈ TState.visited s, x < G.n) →
        G.budget (TState.visited s) < fuel + 1 →
        G.topoSort inv (fuel + 1) t s ≠ none ∧
        ∀ s2, G.topoSort inv (fuel + 1) t s = some s2 →
          (∀ x ∈ TState.visited s2, x < G.n) ∧
          ∀ x ∈ TState.visited s, x ∈ TState.visited s2 := by
      intro t s ht hb hbud
      rw [SGraph.topoSort]
      by_cases hvis : t ∈ s.visited
      · rw [if_pos hvis]
        refine ⟨fun h => Option.noConfusion h, ?_⟩
        intro s2 h
        rw [← Option.some.inj h]
        exact ⟨hb, fun x hx => hx⟩
      · rw [if_neg hvis]
        have hbud2 : G.budget (s.visited ++ [t]) < fuel := by
          rw [G.sbudget_push s.visited t ht hvis]
          have hpos := G.sbudget_pos s.visited t ht hvis
          omega
        have hb2 : ∀ x ∈ s.visited ++ [t], x < G.n := by
          intro x hx
          rcases List.mem_append.mp hx with hx | hx
          · exact hb x hx
          · rw [List.mem_singleton] at hx
            rw [hx]
            exact ht
        have hQ := ih.2 (inv t) { s with visited := s.visited ++ [t] }
          (fun y hy => hinvB t y hy) hb2 hbud2
        cases hres : G.topoFold inv fuel (inv t)
            { s with visited := s.visited ++ [t] } with
        | some s2 =>
          refine ⟨fun h => Option.noConfusion h, ?_⟩
          intro s3 h
          obtain ⟨hA, hB⟩ := hQ.2 s2 hres
          rw [← Option.some.inj h]
          constructor
          · exact fun x hx => hA x hx
          · intro x hx
            exact hB x (List.mem_append_left _ hx)
        | none =>
          exact absurd hres hQ.1
    refine ⟨hP, ?_⟩
    intro ys
    induction ys with
    | nil =>
      intro s _ hb _
      rw [SGraph.topoFold]
      refine ⟨fun h => Option.noConfusion h, ?_⟩
      intro s2 h
      rw [← Option.some.inj h]
      exact ⟨hb, fun x hx => hx⟩
    | cons y ys ihys =>
      intro s hys hb hbud
      rw [SGraph.topoFold]
      have hPy := hP y s (hys y (List.mem_cons_self y ys)) hb hbud
      cases hres : G.topoSort inv (fuel + 1) y s with
      | some s2 =>
        obtain ⟨hA, hB⟩ := hPy.2 s2 hres
        have hbud2 : G.budget (TState.visited s2) < fuel + 1 := by
          have hle := G.sbudget_le_of_sub (TState.visited s)
            (TState.visited s2) hB
          omega
        have hF := ihys s2 (fun z hz => hys z (List.mem_cons_of_mem y hz))
          hA hbud2
        refine ⟨hF.1, ?_⟩
        intro s3 h
        obtain ⟨hA2, hB2⟩ := hF.2 s3 h
        exact ⟨hA2, fun x hx => hB2 x (hB x hx)⟩
      | none =>
        exact absurd hres hPy.1

theorem SGraph.topoRoots_spec (G : SGraph) (R : List Nat)
    (inv : Nat → List Nat)
    (hRrp : ∀ u ∈ R, ∀ d ∈ G.deps u, d ∈ R ∧ R.indexOf d < R.indexOf u)
    (hinvR : ∀ d x, x ∈ inv d → d ∈ G.deps x ∧ x ∈ R) (fuel : Nat) :
    ∀ (rs : List Nat) (s : TState), TInv R inv s → (∀ r ∈ rs, r ∈ R) →
      (∀ x ∈ TState.visited s, x ∈ TState.ordered s) →
      TFPost R inv [] rs s (G.topoFold inv fuel rs s) := by
  intro rs
  induction rs with
  | nil =>
    intro s hInv _ hvo
    rw [SGraph.topoFold]
    exact ⟨hInv, fun x hx => hx, fun y hy => absurd hy (List.not_mem_nil y),
      ⟨[], by simp⟩, fun x hx => absurd hx (List.not_mem_nil x),
      fun x hx => Or.inr (hvo x hx)⟩
  | cons r rs ihrs =>
    intro s hInv hrs hvo
    rw [SGraph.topoFold]
    have hPr := (G.topo_spec_all R inv hRrp hinvR fuel).1 r [] s hInv
      (hrs r (List.mem_cons_self r rs))
      (fun x hx => absurd hx (List.not_mem_nil x))
      (fun x hx => absurd hx (List.not_mem_nil x))
      (fun x hx => Or.inr (hvo x hx))
    cases hres : G.topoSort inv fuel r s with
    | some s2 =>
      rw [hres] at hPr
      obtain ⟨hInv2, hvmono2, hrv2, ⟨ext2, hord2⟩, _, hF2⟩ := hPr
      have hvo2 : ∀ x ∈ TState.visited s2, x ∈ TState.ordered s2 := by
        intro x hx
        rcases hF2 x hx with h | h
        · exact absurd h (List.not_mem_nil x)
        · exact h
      have hF := ihrs s2 hInv2
        (fun z hz => hrs z (List.mem_cons_of_mem r hz)) hvo2
      show TFPost R inv [] (r :: rs) s (G.topoFold inv fuel rs s2)
      cases hres2 : G.topoFold inv fuel rs s2 with
      | some s3 =>
        rw [hres2] at hF
        obtain ⟨hInv3, hvmono3, hrs3, ⟨ext3, hord3⟩, hno3, hF3⟩ := hF
        refine ⟨hInv3, fun x hx => hvmono3 x (hvmono2 x hx), ?_,
          ⟨ext2 ++ ext3, by rw [hord3, hord2, List.append_assoc]⟩, hno3, hF3⟩
        intro z hz
        rcases List.mem_cons.mp hz with hz | hz
        · rw [hz]
          exact hvmono3 r hrv2
        · exact hrs3 z hz
      | none =>
        trivial
    | none =>
      trivial

theorem SGraph.rank_decreasing (G : SGraph) (R : List Nat)
    (hRrp : ∀ u ∈ R, ∀ d ∈ G.deps u, d ∈ R ∧ R.indexOf d < R.indexOf u) :
    ∀ a b, Relation.TransGen G.Step a b → a ∈ R →
      b ∈ R ∧ R.indexOf b < R.indexOf a := by
  intro a b h
  induction h with
  | single hstep =>
    intro ha
    exact hRrp a ha _ hstep
  | tail hab hstep ih =>
    intro ha
    obtain ⟨hbR, hlt⟩ := ih ha
    obtain ⟨hcR, hlt2⟩ := hRrp _ hbR _ hstep
    exact ⟨hcR, Nat.lt_trans hlt2 hlt⟩

theorem transGen_of_chain_getLast (S : Nat → Nat → Prop) :
    ∀ (l : List Nat), l ≠ [] → ∀ b, List.Chain' S (b :: l) →
      ∀ a, l.getLast? = some a → Relation.TransGen S b a := by
  intro l
  induction l with
  | nil =>
    intro h
    exact absurd rfl h
  | cons y l ih =>
    intro _ b hchain a hlast
    obtain ⟨hby, hchain2⟩ := List.chain'_cons.mp hchain
    cases l with
    | nil =>
      simp only [List.getLast?_singleton, Option.some.injEq] at hlast
      rw [← hlast]
      exact Relation.TransGen.single hby
    | cons z l2 =>
      rw [List.getLast?_cons_cons] at hlast
      exact Relation.TransGen.head hby
        (ih (by simp) y hchain2 a hlast)

/-- A list satisfying `CycleProp` witnesses a genuine dependency
cycle. -/
theorem SGraph.cycleProp_transGen (G : SGraph) (c : List Nat)
    (h : G.CycleProp c) : ∃ x, Relation.TransGen G.Step x x := by
  obtain ⟨hlen, hhl, hchain⟩ := h
  cases c with
  | nil => simp at hlen
  | cons b l =>
    cases l with
    | nil => simp at hlen
    | cons y l2 =>
      have hlast : (y :: l2).getLast? = some b := by
        rw [List.getLast?_cons_cons] at hhl
        simp only [List.head?_cons] at hhl
        exact hhl.symm
      exact ⟨b, transGen_of_chain_getLast (fun a b2 => b2 ∈ G.deps a)
        (y :: l2) (by simp) b hchain b hlast⟩

/-- Acyclicity from any strictly decreasing rank function. -/
theorem SGraph.acyclic_of_rank (G : SGraph) (rank : Nat → Nat)
    (h : ∀ u v, v ∈ G.deps u → rank v < rank u) :
    ∀ x, ¬ Relation.TransGen G.Step x x := by
  have hdec : ∀ a b, Relation.TransGen G.Step a b → rank b < rank a := by
    intro a b hab
    induction hab with
    | single hstep => exact h _ _ hstep
    | tail hab2 hstep ih => exact Nat.lt_trans (h _ _ hstep) ih
  intro x hx
  exact absurd (hdec x x hx) (lt_irrefl _)

/-- C2: for an acyclic dependency relation, `sort_targets` returns
exactly the targets reachable from the input, without duplicates, in
topological order with every target placed before each of its
dependencies; and when a cycle is reachable it raises
`CycleException` carrying a genuine closed dependency path. -/
theorem buildgraph_sort_targets_spec (G : SGraph) (targets : List Nat)
    (hwf : G.Wf) (htg : ∀ t ∈ targets, t < G.n) :
    ((∀ x, ¬ Relation.TransGen G.Step x x) →
      ∃ l, G.sortTargets targets = .ok l ∧ l.Nodup ∧
        (∀ x, x ∈ l ↔ ∃ t ∈ targets, G.Reaches t x) ∧
        (∀ u ∈ l, ∀ d ∈ G.deps u, d ∈ l ∧ l.indexOf u < l.indexOf d)) ∧
    ((∃ t ∈ targets, ∃ x, G.Reaches t x ∧ Relation.TransGen G.Step x x) →
      ∃ c, G.sortTargets targets = .cycleFound c ∧ G.CycleProp c) := by
  have hInv0 : G.Inv1 ⟨[], fun _ => [], [], []⟩ :=
    ⟨fun x hx => absurd hx (List.not_mem_nil x),
     fun x hx => absurd hx (List.not_mem_nil x),
     fun x hx => absurd hx (List.not_mem_nil x),
     fun x hx => absurd hx (List.not_mem_nil x),
     fun u hu => absurd hu (List.not_mem_nil u),
     fun d x hx => absurd hx (List.not_mem_nil x),
     fun x hx => absurd hx (List.not_mem_nil x)⟩
  have hbud0 : G.budget ([] : List Nat) < G.n + 1 := by
    have h1 : G.budget ([] : List Nat) ≤ G.n := by
      rw [SGraph.budget]
      calc ((Finset.range G.n).filter
            (fun x => x ∉ ([] : List Nat))).card
          ≤ (Finset.range G.n).card := Finset.card_filter_le _ _
        _ = G.n := Finset.card_range _
    omega
  have hL := G.invertList_spec hwf (G.n + 1) targets ⟨[], fun _ => [], [], []⟩
    hInv0 rfl htg hbud0
  cases hres : G.invertList (G.n + 1) targets ⟨[], fun _ => [], [], []⟩ with
  | cycle c =>
    rw [hres] at hL
    have hsort : G.sortTargets targets = .cycleFound c := by
      rw [SGraph.sortTargets, hres]
    constructor
    · intro hacyc
      obtain ⟨x, hx⟩ := G.cycleProp_transGen c hL
      exact absurd hx (hacyc x)
    · intro _
      exact ⟨c, hsort, hL⟩
  | out =>
    rw [hres] at hL
    exact hL.elim
  | ok s1 =>
    rw [hres] at hL
    obtain ⟨hInv1, hpath1, _, ⟨ext1, hroots1⟩, hts1, hsound1⟩ := hL
    have hVR : ∀ x, x ∈ s1.visited ↔ x ∈ s1.roots := by
      intro x
      constructor
      · intro hx
        rcases hInv1.black x hx with h | h
        · rw [hpath1] at h
          exact absurd h (List.not_mem_nil x)
        · exact h
      · exact hInv1.rootsVis x
    have hRrp := hInv1.rp
    have hinvR : ∀ d x, x ∈ s1.inv d → d ∈ G.deps x ∧ x ∈ s1.roots := by
      intro d x hx
      obtain ⟨h1, h2⟩ := hInv1.invSound d x hx
      exact ⟨h1, (hVR x).mp h2⟩
    have hclosed : ∀ x ∈ s1.roots, ∀ d ∈ G.deps x,
        d ∈ s1.roots ∧ x ∈ s1.inv d := by
      intro x hxr d hd
      rcases hInv1.closed x (hInv1.rootsVis x hxr) with h | h
      · rw [hpath1] at h
        exact absurd h (List.not_mem_nil x)
      · exact ⟨(hVR d).mp (h d hd).1, (h d hd).2⟩
    have hRclosedReach : ∀ a b, G.Reaches a b → a ∈ s1.roots →
        b ∈ s1.roots := by
      intro a b hr
      have hr2 : Relation.ReflTransGen G.Step a b := hr
      clear hr
      induction hr2 with
      | refl => exact fun h => h
      | tail hab hstep ih => exact fun ha => (hclosed _ (ih ha) _ hstep).1
    have hreach : ∀ x, x ∈ s1.roots ↔ ∃ t ∈ targets, G.Reaches t x := by
      intro x
      constructor
      · intro hx
        rcases hsound1 x ((hVR x).mpr hx) with h | h
        · exact absurd h (List.not_mem_nil x)
        · exact h
      · rintro ⟨t, ht, hr⟩
        exact hRclosedReach t x hr (hts1 t ht)
    have hinvB : ∀ d y, y ∈ s1.inv d → y < G.n :=
      fun d y hy => hInv1.bound y (hInv1.invSound d y hy).2
    have hRn : ∀ r ∈ s1.roots, r < G.n :=
      fun r hr => hInv1.bound r (hInv1.rootsVis r hr)
    have hTInv0 : TInv s1.roots s1.inv ⟨[], []⟩ :=
      ⟨fun x hx => absurd hx (List.not_mem_nil x),
       fun x hx => absurd hx (List.not_mem_nil x),
       List.nodup_nil,
       fun u hu => absurd hu (List.not_mem_nil u)⟩
    have hT := G.topoRoots_spec s1.roots s1.inv hRrp hinvR (G.n + 1)
      s1.roots ⟨[], []⟩ hTInv0 (fun r hr => hr)
      (fun x hx => absurd hx (List.not_mem_nil x))
    have hTfuel := (G.topo_fuel_all s1.inv hinvB (G.n + 1)).2 s1.roots
      ⟨[], []⟩ hRn (fun x hx => absurd hx (List.not_mem_nil x)) hbud0
    cases hres2 : G.topoFold s1.inv (G.n + 1) s1.roots ⟨[], []⟩ with
    | none =>
      exact absurd hres2 hTfuel.1
    | some ts =>
      rw [hres2] at hT
      obtain ⟨hTInv, _, hrv, ⟨ext2, hord⟩, _, hF⟩ := hT
      have hsort : G.sortTargets targets = .ok (TState.ordered ts) := by
        have h1 : G.sortTargets targets =
            (match G.topoFold s1.inv (G.n + 1) s1.roots ⟨[], []⟩ with
             | some ts2 => SortRes.ok ts2.ordered
             | none => SortRes.out) := by
          rw [SGraph.sortTargets, hres]
        rw [h1, hres2]
      have hvo : ∀ x ∈ TState.visited ts, x ∈ TState.ordered ts := by
        intro x hx
        rcases hF x hx with h | h
        · exact absurd h (List.not_mem_nil x)
        · exact h
      have hmemord : ∀ x, x ∈ TState.ordered ts ↔ x ∈ s1.roots := by
        intro x
        constructor
        · intro hx
          exact hTInv.vSub x (hTInv.oSub x hx)
        · intro hx
          exact hvo x (hrv x hx)
      constructor
      · intro _
        refine ⟨TState.ordered ts, hsort, hTInv.nodup, ?_, ?_⟩
        · intro x
          rw [hmemord x]
          exact hreach x
        · intro u hu d hd
          have huR : u ∈ s1.roots := (hmemord u).mp hu
          obtain ⟨hdR, hinv_ud⟩ := hclosed u huR d hd
          have hdord : d ∈ TState.ordered ts := (hmemord d).mpr hdR
          obtain ⟨h1, h2⟩ := hTInv.e2 d hdord u hinv_ud
          exact ⟨hdord, h2⟩
      · rintro ⟨t, ht, x, hr, hcyc⟩
        have hxR : x ∈ s1.roots := (hreach x).mpr ⟨t, ht, hr⟩
        have hlt := (G.rank_decreasing s1.roots hRrp x x hcyc hxR).2
        omega

/-- A three-target acyclic graph: 0 depends on 1 and 2, 1 depends
on 2. -/
def sampleSortA : SGraph :=
  ⟨3, fun t => if t = 0 then [1, 2] else if t = 1 then [2] else []⟩

/-- A three-target graph with the cycle 1 → 2 → 1 reachable from 0. -/
def sampleSortC : SGraph :=
  ⟨3, fun t => if t = 0 then [1]
      else if t = 1 then [2] else if t = 2 then [1] else []⟩

theorem buildgraph_sort_targets_spec_witness :
    (∃ l, sampleSortA.sortTargets [0] = .ok l ∧ l.Nodup ∧
      (∀ x, x ∈ l ↔ ∃ t ∈ [0], sampleSortA.Reaches t x) ∧
      (∀ u ∈ l, ∀ d ∈ sampleSortA.deps u,
        d ∈ l ∧ l.indexOf u < l.indexOf d)) ∧
    (∃ c, sampleSortC.sortTargets [0] = .cycleFound c ∧
      sampleSortC.CycleProp c) := by
  constructor
  · refine (buildgraph_sort_targets_spec sampleSortA [0]
      (by unfold SGraph.Wf; decide) (by decide)).1
      (sampleSortA.acyclic_of_rank (fun x => 3 - x) ?_)
    intro u v hv
    by_cases h0 : u = 0
    · subst h0
      simp [sampleSortA] at hv
      rcases hv with rfl | rfl <;> decide
    · by_cases h1 : u = 1
      · subst h1
        simp [sampleSortA] at hv
        subst hv
        decide
      · simp [sampleSortA, h0, h1] at hv
  · refine (buildgraph_sort_targets_spec sampleSortC [0]
      (by unfold SGraph.Wf; decide) (by decide)).2
      ⟨0, List.mem_singleton_self 0, 1,
        Relation.ReflTransGen.single
          (show (1 : Nat) ∈ sampleSortC.deps 0 by decide),
        Relation.TransGen.head
          (show (2 : Nat) ∈ sampleSortC.deps 1 by decide)
          (Relation.TransGen.single
            (show (1 : Nat) ∈ sampleSortC.deps 2 by decide))⟩

end Pants
